import Mathlib

/-!
# Vantage-point tree (`client/js/lib/ds/VPTree.js`)

A shallow embedding of the selection algorithm, the tree builder, the bounded
priority queue and the search of `VPTree.js`, with the properties of its
specification.

Conventions of the embedding.

* A JavaScript array is a `List`; an assignment `list[i] = x` is `List.set`.
  A read `list[i]` outside the array yields `undefined` in JavaScript; the
  embedding stops there with `Err.stuck` (none of the functions below reads
  outside the array on the inputs the specification speaks about, which is
  proved, not assumed).
* Array indices and counts are natural numbers, `x >> 1` is `x / 2`
  (indices stay far below `2^31`). Arguments that the code compares with `0`
  from below (`nth`, `k`) are integers.
* Distances are numbers of a linearly ordered additive group `δ`; comparisons
  are exact, as they are in the machine. The sums and differences that the
  search computes are the machine's, given by `Arith δ`: `Arith.doubleInt` and
  `Arith.doubleRat` round them as double precision does. `Infinity` is `none`
  in `Option δ` and `undefined` is `none` as well where a value may be absent.
* A `for (;;)` loop is a function with a fuel argument; running out of fuel is
  `Err.fuel`, and the theorems show that the fuel supplied is enough.
-/

namespace Sstk

/-- Ways in which a run of the embedded code ends without a value. -/
inductive Err where
  /-- The `Error` thrown by `nth_element` and `select` on a rank out of range. -/
  | outOfRange
  /-- A read outside an array (the value `undefined` would be used). -/
  | stuck
  /-- The fuel of a loop ran out. -/
  | fuel
  deriving DecidableEq, Repr

section Selection

variable {α : Type}

/-- The exchange idiom `swap = list[i]; list[i] = list[j]; list[j] = swap`. -/
def exchange (list : List α) (i j : Nat) : Except Err (List α) :=
  match list[i]?, list[j]? with
  | some a, some b => .ok ((list.set i b).set j a)
  | _, _ => .error .stuck

/-- The `for (var i = left; i < right; i++)` loop of `partition`; the first
argument counts the iterations that remain, `right - i`. -/
def partitionLoop (comp : α → α → Bool) (pivotValue : α) :
    Nat → Nat → Nat → List α → Except Err (List α × Nat)
  | 0, _, storeIndex, list => .ok (list, storeIndex)
  | n + 1, i, storeIndex, list =>
    match list[i]? with
    | none => .error .stuck
    | some x =>
      if comp x pivotValue then
        match exchange list storeIndex i with
        | .error e => .error e
        | .ok list1 => partitionLoop comp pivotValue n (i + 1) (storeIndex + 1) list1
      else partitionLoop comp pivotValue n (i + 1) storeIndex list

/-- The function `partition(list, left, right, pivotIndex, comp)`: returns the
array after the pass and `storeIndex`. -/
def partition (comp : α → α → Bool) (list : List α) (left right pivotIndex : Nat) :
    Except Err (List α × Nat) :=
  match list[pivotIndex]? with
  | none => .error .stuck
  | some pivotValue =>
    match exchange list pivotIndex right with
    | .error e => .error e
    | .ok list1 =>
      match partitionLoop comp pivotValue (right - left) left left list1 with
      | .error e => .error e
      | .ok (list2, storeIndex) =>
        match exchange list2 right storeIndex with
        | .error e => .error e
        | .ok list3 => .ok (list3, storeIndex)

/-- The function `medianOf3(list, a, b, c, comp)`. -/
def medianOf3 (comp : α → α → Bool) (list : List α) (a b c : Nat) : Except Err Nat :=
  match list[a]?, list[b]?, list[c]? with
  | some A, some B, some C =>
    .ok (if comp A B then
          (if comp B C then b else if comp A C then c else a)
        else
          (if comp A C then a else if comp B C then c else b))
  | _, _, _ => .error .stuck

/-- The `for (;;)` loop of `nth_element`, with fuel. Returns the value found
and the array as the loop leaves it. -/
def nth_elementLoop (comp : α → α → Bool) :
    Nat → List α → Nat → Nat → Nat → Except Err (α × List α)
  | 0, _, _, _, _ => .error .fuel
  | fuel + 1, list, left, nth, right =>
    match medianOf3 comp list left right ((left + right) / 2) with
    | .error e => .error e
    | .ok pivotIndex =>
      match partition comp list left right pivotIndex with
      | .error e => .error e
      | .ok (list1, pivotNewIndex) =>
        let pivotDist := pivotNewIndex - left + 1
        if pivotDist = nth then
          match list1[pivotNewIndex]? with
          | none => .error .stuck
          | some v => .ok (v, list1)
        else if nth < pivotDist then
          nth_elementLoop comp fuel list1 left nth (pivotNewIndex - 1)
        else
          nth_elementLoop comp fuel list1 (pivotNewIndex + 1) (nth - pivotDist) right

/-- The function `nth_element(list, left, nth, right, comp)`. The loop gets
`right - left + 1` as fuel, the size of the range. -/
def nth_element (comp : α → α → Bool) (list : List α) (left : Nat) (nth : Int) (right : Nat) :
    Except Err (α × List α) :=
  if nth ≤ 0 ∨ nth > (right : Int) - (left : Int) + 1 then .error .outOfRange
  else nth_elementLoop comp (right - left + 1) list left nth.toNat right

/-- The elements of `list` at the indices `left .. right` (both inclusive), in order. -/
def slice (list : List α) (left right : Nat) : List α :=
  (list.drop left).take (right + 1 - left)

/-- The function `select(list, k, comp)`. -/
def select (comp : α → α → Bool) (list : List α) (k : Int) : Except Err (α × List α) :=
  if k < 0 ∨ k ≥ (list.length : Int) then .error .outOfRange
  else nth_element comp list 0 (k + 1) (list.length - 1)

end Selection

section PriorityQueue

variable {ι δ : Type}

/-- An item `{data: data, priority: priority}` of the queue. -/
structure Entry (ι δ : Type) where
  data : ι
  priority : δ
  deriving DecidableEq, Repr

/-- A search result `{i: item.data, d: item.priority}`. -/
structure Result (ι δ : Type) where
  i : ι
  d : δ
  deriving DecidableEq, Repr

/-- The numeric value of the constructor argument `size`; `undefined` (an absent
argument) and `0` both count as `0`, since the code uses `size` only through
`!size`, `size && ...` and, behind `!size ||`, in `index < size`. -/
def sizeOf? (size : Option Nat) : Nat := size.getD 0

/-- The `while (minIndex <= maxIndex)` loop of `binaryIndexOf`, with fuel.
`(minIndex + maxIndex) >> 1` is taken on a sum that is not negative. -/
def binaryIndexOfLoop [LinearOrder δ] (contents : List (Entry ι δ)) (priority : δ) :
    Nat → Int → Int → Except Err Int
  | 0, _, _ => .error .fuel
  | fuel + 1, minIndex, maxIndex =>
    if minIndex ≤ maxIndex then
      let currentIndex := (minIndex + maxIndex) / 2
      if currentIndex < 0 then .error .stuck else
      match contents[currentIndex.toNat]? with
      | none => .error .stuck
      | some entry =>
        let currentElement := entry.priority
        if currentElement < priority then
          binaryIndexOfLoop contents priority fuel (currentIndex + 1) maxIndex
        else if currentElement > priority then
          binaryIndexOfLoop contents priority fuel minIndex (currentIndex - 1)
        else .ok currentIndex
    else .ok (-1 - minIndex)

/-- The function `binaryIndexOf(priority)` of a queue whose array is `contents`.
The loop gets `contents.length + 1` as fuel. -/
def binaryIndexOf [LinearOrder δ] (contents : List (Entry ι δ)) (priority : δ) :
    Except Err Int :=
  binaryIndexOfLoop contents priority (contents.length + 1) 0 ((contents.length : Int) - 1)

/-- The method `insert(data, priority)` of `PriorityQueue(size)` on a queue whose
array is `contents`: returns the new array and the value returned (`none` is
`undefined`). `contents.splice(index, 0, item)` is `take index ++ item :: drop
index` and `contents.length--` is `dropLast`. -/
def PriorityQueue.insert [LinearOrder δ] (size : Option Nat) (contents : List (Entry ι δ))
    (data : ι) (priority : δ) : Except Err (List (Entry ι δ) × Option δ) :=
  match binaryIndexOf contents priority with
  | .error e => .error e
  | .ok index0 =>
    let index : Int := if index0 < 0 then -1 - index0 else index0
    let contents1 :=
      if sizeOf? size = 0 ∨ index < (sizeOf? size : Int) then
        let spliced := contents.take index.toNat ++ ⟨data, priority⟩ :: contents.drop index.toNat
        if sizeOf? size ≠ 0 ∧ spliced.length > sizeOf? size then spliced.dropLast else spliced
      else contents
    .ok (contents1,
      if sizeOf? size ≠ 0 ∧ contents1.length = sizeOf? size then
        contents1.getLast?.map Entry.priority
      else none)

/-- The array that `insert` leaves when `index` is `pos` and the item is `e`:
`splice(index, 0, item)` and the trimming, or the array unchanged. -/
def afterInsert (size : Option Nat) (q : List (Entry ι δ)) (pos : Nat) (e : Entry ι δ) :
    List (Entry ι δ) :=
  if sizeOf? size = 0 ∨ pos < sizeOf? size then
    (if sizeOf? size ≠ 0 ∧ (q.take pos ++ e :: q.drop pos).length > sizeOf? size then
      (q.take pos ++ e :: q.drop pos).dropLast
    else q.take pos ++ e :: q.drop pos)
  else q

/-- The queue array is sorted by ascending priority. -/
def SortedQ [LinearOrder δ] (q : List (Entry ι δ)) : Prop :=
  q.Pairwise (fun a b => a.priority ≤ b.priority)

/-- The method `list()`. -/
def PriorityQueue.list (contents : List (Entry ι δ)) : List (Result ι δ) :=
  contents.map (fun item => { i := item.data, d := item.priority })

/-- A sequence of `insert` calls on one queue, the returned values dropped. -/
def PriorityQueue.insertAll [LinearOrder δ] (size : Option Nat) :
    List (Entry ι δ) → List (ι × δ) → Except Err (List (Entry ι δ))
  | contents, [] => .ok contents
  | contents, (data, priority) :: rest =>
    match PriorityQueue.insert size contents data priority with
    | .error e => .error e
    | .ok (contents1, _) => PriorityQueue.insertAll size contents1 rest

end PriorityQueue

section Tree

variable {E δ : Type}

/-- A working item `{i: i}` of the builder; `dist` is absent until the builder
assigns `item.dist`. -/
structure Item (δ : Type) where
  i : Nat
  dist : Option δ
  deriving DecidableEq, Repr

/-- The comparator `distanceComparator`: `a.dist < b.dist` (false when a
`dist` is absent). -/
def distanceComparator [LinearOrder δ] (a b : Item δ) : Bool :=
  match a.dist, b.dist with
  | some x, some y => decide (x < y)
  | _, _ => false

/-- A node of the tree: `null`, a bucket (a non-empty array of indices), a
vantage point `{i}` without bounds, or a vantage point
`{i, m, M, mu, L, R}`. `m` starts from `Infinity` in the builder, which is
`none`. -/
inductive Tree (δ : Type) where
  | null
  | bucket (i : Nat) (rest : List Nat)
  | vp (i : Nat)
  | node (i : Nat) (m : Option δ) (M mu : δ) (L R : Tree δ)
  deriving DecidableEq, Repr

/-- The object built by `new VPTree(S, distance, tree)`. -/
structure VPTree (E δ : Type) where
  S : List E
  distance : E → E → δ
  tree : Tree δ

/-- The read `S[i]`; outside the array it is `undefined`, the `default` of `E`. -/
def elemAt [Inhabited E] (S : List E) (i : Nat) : E := S.getD i default

/-- The loop of `recurseVPTree` that assigns `item.dist` and tracks `dmin`
and `dmax`: returns the items, `dmin` (`none` is `Infinity`) and `dmax`. -/
def distLoop [LinearOrder δ] [Inhabited E] (S : List E) (distance : E → E → δ) (vp : E) :
    List (Item δ) → Option δ → δ → List (Item δ) × Option δ × δ
  | [], dmin, dmax => ([], dmin, dmax)
  | item :: rest, dmin, dmax =>
    let dist := distance vp (elemAt S item.i)
    let dmin1 :=
      match dmin with
      | none => some dist
      | some m => if m > dist then some dist else some m
    let dmax1 := if dmax < dist then dist else dmax
    let r := distLoop S distance vp rest dmin1 dmax1
    ({ i := item.i, dist := some dist } :: r.1, r.2.1, r.2.2)

/-- The function `selectVPIndex(list)`: `Math.floor(Math.random() * list.length)`
is any index of the list; `rand c` stands for the draw made at call number `c`,
and the index is `rand c % list.length`. -/
def selectVPIndex {α : Type} (rand : Nat → Nat) (c : Nat) (list : List α) : Nat :=
  rand c % list.length

/-- The function `recurseVPTree(S, list, distance, nb)`, with fuel for the
recursion. Returns the node and the number of draws of `selectVPIndex` made
so far. `nb` is `0` when the argument is absent. -/
def recurseVPTree [LinearOrder δ] [Zero δ] [Inhabited E] (S : List E) (distance : E → E → δ)
    (nb : Nat) (rand : Nat → Nat) : Nat → Nat → List (Item δ) → Except Err (Tree δ × Nat)
  | 0, _, _ => .error .fuel
  | fuel + 1, c, list =>
    match list with
    | [] => .ok (.null, c)
    | first :: others =>
      let listLength := (first :: others).length
      if nb > 0 ∧ listLength ≤ nb then
        .ok (.bucket first.i (others.map Item.i), c)
      else
        let vpIndex := selectVPIndex rand c (first :: others)
        match (first :: others)[vpIndex]? with
        | none => .error .stuck
        | some node =>
          let list1 := (first :: others).take vpIndex ++ (first :: others).drop (vpIndex + 1)
          let listLength1 := listLength - 1
          if listLength1 = 0 then .ok (.vp node.i, c + 1)
          else
            let vp := elemAt S node.i
            let r := distLoop S distance vp list1 none 0
            let medianIndex := listLength1 / 2
            match select distanceComparator r.1 (medianIndex : Int) with
            | .error e => .error e
            | .ok (median, list3) =>
              let leftItems := list3.take medianIndex
              let rightItems := list3.drop medianIndex
              match median.dist with
              | none => .error .stuck
              | some mu =>
                match recurseVPTree S distance nb rand fuel (c + 1) leftItems with
                | .error e => .error e
                | .ok (L, c1) =>
                  match recurseVPTree S distance nb rand fuel c1 rightItems with
                  | .error e => .error e
                  | .ok (R, c2) => .ok (.node node.i r.2.1 r.2.2 mu L R, c2)

/-- The function `buildVPTree(S, distance, nb)` on an array `S`. The recursion
gets `S.length + 1` as fuel. -/
def buildVPTree [LinearOrder δ] [Zero δ] [Inhabited E] (S : List E) (distance : E → E → δ)
    (nb : Nat) (rand : Nat → Nat) : Except Err (VPTree E δ) :=
  let list : List (Item δ) := (List.range S.length).map (fun i => { i := i, dist := none })
  match recurseVPTree S distance nb rand (list.length + 1) 0 list with
  | .error e => .error e
  | .ok (tree, _) => .ok { S := S, distance := distance, tree := tree }

/-- The function `buildVPTree(S, distance, nb)` on a number `S`: the array is
`[0, ..., S - 1]`. -/
def buildVPTreeOfSize [LinearOrder δ] [Zero δ] (size : Nat) (distance : Nat → Nat → δ)
    (nb : Nat) (rand : Nat → Nat) : Except Err (VPTree Nat δ) :=
  buildVPTree (List.range size) distance nb rand

/-- The indices stored in a tree: the `i` of every vantage point and the
entries of every bucket. -/
def Tree.indices : Tree δ → List Nat
  | .null => []
  | .bucket i rest => i :: rest
  | .vp i => [i]
  | .node i _ _ _ L R => i :: (L.indices ++ R.indices)

/-- The bounds of every node with bounds hold for the indices stored below it. -/
def Tree.WF [LinearOrder δ] [Inhabited E] (S : List E) (distance : E → E → δ) : Tree δ → Prop
  | .node i m M mu L R =>
    (∃ a, m = some a ∧
      ∀ j ∈ L.indices ++ R.indices, a ≤ distance (elemAt S i) (elemAt S j)) ∧
    (∀ j ∈ L.indices ++ R.indices, distance (elemAt S i) (elemAt S j) ≤ M) ∧
    (∀ j ∈ L.indices, distance (elemAt S i) (elemAt S j) ≤ mu) ∧
    (∀ j ∈ R.indices, mu ≤ distance (elemAt S i) (elemAt S j)) ∧
    Tree.WF S distance L ∧ Tree.WF S distance R
  | _ => True

/-- The median split as the code makes it: below every node with bounds, the
indices of `L` are at distance `≤ mu` from the vantage point and those of `R`
at distance `≥ mu`. -/
def Tree.MedianSplit [LinearOrder δ] [Inhabited E] (S : List E) (distance : E → E → δ) :
    Tree δ → Prop
  | .node i _ _ mu L R =>
    (∀ j ∈ L.indices, distance (elemAt S i) (elemAt S j) ≤ mu) ∧
    (∀ j ∈ R.indices, mu ≤ distance (elemAt S i) (elemAt S j)) ∧
    Tree.MedianSplit S distance L ∧ Tree.MedianSplit S distance R
  | _ => True

/-- The median split with a strict bound on the right: the indices of `L` are
at distance `≤ mu` and those of `R` at distance `> mu`. -/
def Tree.MedianSplitStrict [LinearOrder δ] [Inhabited E] (S : List E) (distance : E → E → δ) :
    Tree δ → Prop
  | .node i _ _ mu L R =>
    (∀ j ∈ L.indices, distance (elemAt S i) (elemAt S j) ≤ mu) ∧
    (∀ j ∈ R.indices, mu < distance (elemAt S i) (elemAt S j)) ∧
    Tree.MedianSplitStrict S distance L ∧ Tree.MedianSplitStrict S distance R
  | _ => True

/-- The state of a search: the array of the queue `W`, `tau` (`none` is
`Infinity`) and the counter `comparisons`. -/
structure SearchState (δ : Type) where
  W : List (Entry Nat δ)
  tau : Option δ
  comparisons : Nat
  deriving DecidableEq, Repr

/-- The test `x < tau`. -/
def ltTau [LinearOrder δ] (x : δ) (tau : Option δ) : Bool :=
  match tau with
  | none => true
  | some t => decide (x < t)

/-- The expression `r || tau` for the value `r` returned by `W.insert`: `tau`
when `r` is `undefined` or `0`. -/
def orTau [LinearOrder δ] [Zero δ] (r : Option δ) (tau : Option δ) : Option δ :=
  match r with
  | none => tau
  | some x => if x = 0 then tau else some x

/-- The test `!filterFn || filterFn(element)`. -/
def passes (filterFn : Option (E → Bool)) (element : E) : Bool :=
  match filterFn with
  | none => true
  | some f => f element

/-- The block `if (dist < tau) { if (!filterFn || filterFn(p)) { tau =
W.insert(id, dist) || tau; } }` of `doSearch`. -/
def consider [LinearOrder δ] [Zero δ] (n : Option Nat) (filterFn : Option (E → Bool))
    (id : Nat) (element : E) (elementDist : δ) (st : SearchState δ) :
    Except Err (SearchState δ) :=
  if ltTau elementDist st.tau then
    if passes filterFn element then
      match PriorityQueue.insert n st.W id elementDist with
      | .error e => .error e
      | .ok (W1, r) => .ok { W := W1, tau := orTau r st.tau, comparisons := st.comparisons }
    else .ok st
  else .ok st

/-- The `for` loop of `doSearch` over a bucket. -/
def bucketLoop [LinearOrder δ] [Zero δ] [Inhabited E] (S : List E) (distance : E → E → δ)
    (q : E) (n : Option Nat) (filterFn : Option (E → Bool)) :
    List Nat → SearchState δ → Except Err (SearchState δ)
  | [], st => .ok st
  | elementID :: rest, st =>
    let element := elemAt S elementID
    let elementDist := distance q element
    match consider n filterFn elementID element elementDist
        { st with comparisons := st.comparisons + 1 } with
    | .error e => .error e
    | .ok st1 => bucketLoop S distance q n filterFn rest st1

/-- The test `L && ...`: a node is truthy unless it is `null`. -/
def Tree.truthy : Tree δ → Bool
  | .null => false
  | _ => true

/-- The arithmetic of the machine on the numbers of type `δ`: `add a b` is the
value that `a + b` has in the program and `sub a b` the value of `a - b`. In
double precision these are the exact sum and difference, rounded. -/
class Arith (δ : Type) where
  add : δ → δ → δ
  sub : δ → δ → δ

/-- The number of bits of `a`, with fuel. -/
def bitLength : Nat → Nat → Nat
  | 0, _ => 0
  | fuel + 1, a => if a = 0 then 0 else bitLength fuel (a / 2) + 1

/-- The rounding of double precision on an integer: the nearest number with
53 significant bits, a tie going to the one whose last bit is `0`. Integers
of magnitude below `2 ^ 53` are not rounded. A result of magnitude `2 ^ 1024`
or more stands for `Infinity` or `-Infinity`: it compares with every number of
double precision as they do. -/
def roundDouble (n : Int) : Int :=
  if n.natAbs < 2 ^ 53 then n
  else
    let s := bitLength n.natAbs n.natAbs - 53
    let q := n.natAbs / 2 ^ s
    let r := n.natAbs % 2 ^ s
    let up := if 2 * r < 2 ^ s then q else if 2 ^ s < 2 * r then q + 1
      else if q % 2 = 0 then q else q + 1
    if n < 0 then -((up * 2 ^ s : Nat) : Int) else ((up * 2 ^ s : Nat) : Int)

/-- The rounding of double precision on a rational `num / den` whose
denominator is a power of two (every number of double precision is one, and so
is every sum or difference of two of them): a power of two scales the number
without changing its significant bits, so the numerator is rounded. -/
def roundDoubleRat (x : ℚ) : ℚ := (roundDouble x.num : ℚ) / (x.den : ℚ)

/-- Double-precision `+` and `-` on integer-valued numbers. -/
instance Arith.doubleInt : Arith Int where
  add a b := roundDouble (a + b)
  sub a b := roundDouble (a - b)

/-- Double-precision `+` and `-` on numbers that are rationals. -/
instance Arith.doubleRat : Arith ℚ where
  add a b := roundDoubleRat (a + b)
  sub a b := roundDoubleRat (a - b)

/-- The test `node.m - tau < dist`, with `m` and `tau` possibly `Infinity`
(`Infinity - Infinity` is `NaN`, and a comparison with `NaN` is false). The
difference is the one the machine computes. -/
def mMinusTauLt [LinearOrder δ] [Arith δ] (m : Option δ) (tau : Option δ) (dist : δ) :
    Bool :=
  match m, tau with
  | some a, some t => decide (Arith.sub a t < dist)
  | some _, none => true
  | none, _ => false

/-- The test `mu - tau < dist`, on the difference that the machine computes. -/
def muMinusTauLt [LinearOrder δ] [Arith δ] (mu : δ) (tau : Option δ) (dist : δ) : Bool :=
  match tau with
  | some t => decide (Arith.sub mu t < dist)
  | none => true

/-- The test `dist < x + tau` (for `node.M` and `mu`), on the sum that the
machine computes. -/
def ltPlusTau [LinearOrder δ] [Arith δ] (dist : δ) (x : δ) (tau : Option δ) : Bool :=
  match tau with
  | some t => decide (dist < Arith.add x t)
  | none => true

/-- The function `doSearch(node)` of `searchVPTree`, on the state it closes over. -/
def doSearch [LinearOrderedAddCommGroup δ] [Arith δ] [Inhabited E] (S : List E)
    (distance : E → E → δ) (q : E) (n : Option Nat) (filterFn : Option (E → Bool)) :
    Tree δ → SearchState δ → Except Err (SearchState δ)
  | .null, st => .ok st
  | .bucket i rest, st => bucketLoop S distance q n filterFn (i :: rest) st
  | .vp id, st =>
    consider n filterFn id (elemAt S id) (distance q (elemAt S id))
      { st with comparisons := st.comparisons + 1 }
  | .node id m M mu L R, st =>
    let p := elemAt S id
    let dist := distance q p
    match consider n filterFn id p dist { st with comparisons := st.comparisons + 1 } with
    | .error e => .error e
    | .ok st1 =>
      if dist < mu then
        match (if L.truthy ∧ mMinusTauLt m st1.tau dist then
            doSearch S distance q n filterFn L st1 else .ok st1) with
        | .error e => .error e
        | .ok st2 =>
          if R.truthy ∧ muMinusTauLt mu st2.tau dist then
            doSearch S distance q n filterFn R st2 else .ok st2
      else
        match (if R.truthy ∧ ltPlusTau dist M st1.tau then
            doSearch S distance q n filterFn R st1 else .ok st1) with
        | .error e => .error e
        | .ok st2 =>
          if L.truthy ∧ ltPlusTau dist mu st2.tau then
            doSearch S distance q n filterFn L st2 else .ok st2

/-- The expression `maxDistance || Infinity`: an absent argument and `0`
both give `Infinity`. -/
def orInfinity [LinearOrder δ] [Zero δ] (maxDistance : Option δ) : Option δ :=
  match maxDistance with
  | none => none
  | some d => if d = 0 then none else some d

/-- The expression `queryDistFn || this.distance`. -/
def orDistance (queryDistFn : Option (E → E → δ)) (distance : E → E → δ) : E → E → δ :=
  match queryDistFn with
  | none => distance
  | some f => f

/-- The method `search(q, limit, maxDistance, queryDistFn, filterFn)`:
returns `W.list()` and the value stored in `this.comparisons`. An absent
argument is `none`. -/
def searchVPTree [LinearOrderedAddCommGroup δ] [Arith δ] [Inhabited E] (self : VPTree E δ)
    (q : E) (limit : Option Nat) (maxDistance : Option δ) (queryDistFn : Option (E → E → δ))
    (filterFn : Option (E → Bool)) : Except Err (List (Result Nat δ) × Nat) :=
  let n := limit
  let tau := orInfinity maxDistance
  let distance := orDistance queryDistFn self.distance
  match doSearch self.S distance q n filterFn self.tree { W := [], tau := tau, comparisons := 0 } with
  | .error e => .error e
  | .ok st => .ok (PriorityQueue.list st.W, st.comparisons)

/-- The distances to the query of the indices of `P` that a search may
return: those below `tau0` whose element passes the filter. -/
def candidates [LinearOrder δ] [Inhabited E] (S : List E) (distance : E → E → δ) (q : E)
    (tau0 : Option δ) (filterFn : Option (E → Bool)) (P : List Nat) : List δ :=
  (P.filter (fun j => ltTau (distance q (elemAt S j)) tau0 && passes filterFn (elemAt S j))).map
    (fun j => distance q (elemAt S j))

/-- The brute-force search of the specification: scan all `N` elements, keep
the distances below `maxDistance` (of the elements that pass the filter), sort
them ascending, truncate to `limit`. -/
def bruteForce [LinearOrder δ] [Inhabited E] (S : List E) (distance : E → E → δ) (q : E)
    (limit : Nat) (maxDistance : Option δ) (filterFn : Option (E → Bool)) : List δ :=
  ((candidates S distance q maxDistance filterFn (List.range S.length)).insertionSort
    (· ≤ ·)).take limit

/-- The invariant of a search with limit `k` and initial radius `tau0` once the
indices `P` are accounted for (considered, or skipped with their subtree). -/
structure SearchInv [LinearOrder δ] [Inhabited E] (S : List E) (distance : E → E → δ) (q : E)
    (k : Nat) (tau0 : Option δ) (filterFn : Option (E → Bool)) (st : SearchState δ)
    (P : List Nat) : Prop where
  sorted : SortedQ st.W
  len : st.W.length ≤ k
  best : st.W.map Entry.priority
    = ((candidates S distance q tau0 filterFn P).insertionSort (· ≤ ·)).take k
  mem : ∀ e ∈ st.W, e.data ∈ P ∧ passes filterFn (elemAt S e.data) = true ∧
    e.priority = distance q (elemAt S e.data)
  nodup : (st.W.map Entry.data).Nodup
  below : ∀ x, ltTau x st.tau = true → ltTau x tau0 = true
  full : st.tau = tau0 ∨ (st.W.length = k ∧ ∃ t, st.tau = some t ∧ ∀ e ∈ st.W, e.priority ≤ t)

/-- While a search runs, a full queue whose worst distance is not `0` has
that distance as `tau`. -/
def TauIsWorst [LinearOrder δ] [Zero δ] (k : Nat) (W : List (Entry Nat δ)) (tau : Option δ) :
    Prop :=
  SortedQ W ∧ W.length ≤ k ∧
    (W.length = k → ∀ e, W.getLast? = some e → e.priority ≠ 0 → tau = some e.priority)

/-- The machine's `+` and `-` do not round on the numbers that satisfy `Pr`:
there the values they compute are the exact sum and the exact difference. -/
def Arith.ExactOn [Add δ] [Sub δ] [Arith δ] (Pr : δ → Prop) : Prop :=
  ∀ a b, Pr a → Pr b → Arith.add a b = a + b ∧ Arith.sub a b = a - b

/-- Every bound `m`, `M`, `mu` stored in the tree satisfies `Pr`. -/
def Tree.BoundsIn (Pr : δ → Prop) : Tree δ → Prop
  | .node _ m M mu L R =>
    (∀ a, m = some a → Pr a) ∧ Pr M ∧ Pr mu ∧ Tree.BoundsIn Pr L ∧ Tree.BoundsIn Pr R
  | _ => True

/-- While a search runs, `tau` is its initial value `tau0` or the distance
from the query to one of the indices `P` considered so far. -/
def TauFrom [Inhabited E] (S : List E) (distance : E → E → δ) (q : E) (tau0 : Option δ)
    (st : SearchState δ) (P : List Nat) : Prop :=
  st.tau = tau0 ∨ ∃ j ∈ P, st.tau = some (distance q (elemAt S j))

/-- The shape and the bounds that `recurseVPTree` gives a tree, for the bucket
size `nb`: a bucket has at most `nb` entries, a vantage point without bounds
occurs only without buckets, and a node with bounds over `n ≥ 1` indices has
`floor(n / 2)` of them in `L`, `m` their least distance to the vantage point,
`M` the largest (or `0`), `mu` the distance of an index of `R`, `L` within
`mu` and `R` from `mu` on. -/
def Tree.Built [LinearOrder δ] [Zero δ] [Inhabited E] (S : List E) (distance : E → E → δ)
    (nb : Nat) : Tree δ → Prop
  | .null => True
  | .bucket _ rest => nb > 0 ∧ rest.length + 1 ≤ nb
  | .vp _ => nb = 0
  | .node i m M mu L R =>
    ¬ (nb > 0 ∧ (L.indices ++ R.indices).length + 1 ≤ nb) ∧
    R.indices ≠ [] ∧
    L.indices.length = (L.indices ++ R.indices).length / 2 ∧
    (∃ a, m = some a ∧
      (∀ j ∈ L.indices ++ R.indices, a ≤ distance (elemAt S i) (elemAt S j)) ∧
      ∃ j ∈ L.indices ++ R.indices, a = distance (elemAt S i) (elemAt S j)) ∧
    (∀ j ∈ L.indices ++ R.indices, distance (elemAt S i) (elemAt S j) ≤ M) ∧
    (M = 0 ∨ ∃ j ∈ L.indices ++ R.indices, M = distance (elemAt S i) (elemAt S j)) ∧
    0 ≤ M ∧
    (∃ j ∈ R.indices, mu = distance (elemAt S i) (elemAt S j)) ∧
    (∀ j ∈ L.indices, distance (elemAt S i) (elemAt S j) ≤ mu) ∧
    (∀ j ∈ R.indices, mu ≤ distance (elemAt S i) (elemAt S j)) ∧
    Tree.Built S distance nb L ∧ Tree.Built S distance nb R

/-- The leaf buckets of a tree, each as the list of its entries. -/
def Tree.buckets : Tree δ → List (List Nat)
  | .null => []
  | .bucket i rest => [i :: rest]
  | .vp _ => []
  | .node _ _ _ _ L R => L.buckets ++ R.buckets

/-- The terminal nodes of a tree: the nodes that have no child (a bucket, a
vantage point without children, or a node with bounds whose two children are
`null`). -/
def Tree.terminals : Tree δ → List (Tree δ)
  | .null => []
  | .bucket i rest => [.bucket i rest]
  | .vp i => [.vp i]
  | .node i m M mu L R =>
    if L.truthy || R.truthy then L.terminals ++ R.terminals else [.node i m M mu L R]

/-- The bounds of every node with bounds are exact: `m` is the least and `M`
the largest distance from the vantage point to an index stored below the node,
`mu` is the distance to one of them, and `m ≤ mu ≤ M`. -/
def Tree.BoundsExact [LinearOrder δ] [Inhabited E] (S : List E) (distance : E → E → δ) :
    Tree δ → Prop
  | .node i m M mu L R =>
    (∃ a, m = some a ∧
      (∀ j ∈ L.indices ++ R.indices, a ≤ distance (elemAt S i) (elemAt S j)) ∧
      (∃ j ∈ L.indices ++ R.indices, a = distance (elemAt S i) (elemAt S j)) ∧ a ≤ mu) ∧
    (∀ j ∈ L.indices ++ R.indices, distance (elemAt S i) (elemAt S j) ≤ M) ∧
    (∃ j ∈ L.indices ++ R.indices, M = distance (elemAt S i) (elemAt S j)) ∧
    (∃ j ∈ L.indices ++ R.indices, mu = distance (elemAt S i) (elemAt S j)) ∧
    mu ≤ M ∧
    Tree.BoundsExact S distance L ∧ Tree.BoundsExact S distance R
  | _ => True

/-- The invariant of a search without limit and with initial radius `tau0`
once the indices `P` are accounted for: `tau` is still `tau0`, the queue is
sorted, and it holds exactly the indices of `P` below `tau0` that pass the
filter, each with its distance to the query. -/
def SearchInvU {E δ : Type} [LinearOrder δ] [Inhabited E] (S : List E) (distance : E → E → δ)
    (q : E) (tau0 : Option δ) (filterFn : Option (E → Bool)) (st : SearchState δ)
    (P : List Nat) : Prop :=
  st.tau = tau0 ∧ SortedQ st.W ∧
    (st.W.map Entry.data).Perm
      (P.filter (fun j => ltTau (distance q (elemAt S j)) tau0 && passes filterFn (elemAt S j))) ∧
    ∀ e ∈ st.W, e.priority = distance q (elemAt S e.data)

section Serializer

/-- The conversion `'' + n` of an index to a string: its decimal digits. -/
def natToString (n : Nat) : List Char := Nat.toDigits 10 n

/-- The conversion `'' + x` of an integer-valued number to a string: its
decimal digits, after `-` when it is negative. -/
def numberToString (x : Int) : List Char :=
  if x < 0 then '-' :: natToString x.natAbs else natToString x.natAbs

/-- The conversion `'' + node.m`, where `m` may be `Infinity`. -/
def boundToString : Option Int → List Char
  | none => ['I', 'n', 'f', 'i', 'n', 'i', 't', 'y']
  | some a => numberToString a

/-- The method `join(',')` of an array of indices (and the conversion of such
an array to a string). -/
def join : List Nat → List Char
  | [] => []
  | [i] => natToString i
  | i :: j :: rest => natToString i ++ ',' :: join (j :: rest)

/-- The property `length` of a node: the number of entries of a bucket,
`0` (for `undefined`) otherwise. -/
def Tree.length {δ : Type} : Tree δ → Nat
  | .bucket _ rest => rest.length + 1
  | _ => 0

/-- The entries of a bucket. -/
def Tree.entries {δ : Type} : Tree δ → List Nat
  | .bucket i rest => i :: rest
  | _ => []

/-- The block `if (node.hasOwnProperty(key)) { var C = node[key]; if (C)
{ s += ',' + key + ':'; if (C.length) s += '[' + C + ']'; else s +=
stringify(C); } }` of `stringify` for the key `L` or `R`, on the string
`s` built so far; `sub` is the value of `stringify(C)`, used for a child that
is a node. -/
def appendChild (s : List Char) (key : Char) (C : Tree Int) (sub : Except Err (List Char)) :
    Except Err (List Char) :=
  if C.truthy then
    if C.length ≠ 0 then .ok (s ++ [',', key, ':'] ++ ('[' :: (join C.entries ++ [']'])))
    else
      match sub with
      | .error e => .error e
      | .ok t => .ok (s ++ [',', key, ':'] ++ t)
  else .ok s

/-- The function `stringify(root)` on a node. The stack never holds more than
the one node, so the loop body runs once. Reading `length` of `null` throws
(`Err.stuck`). The property `b` is never set. -/
def stringify : Tree Int → Except Err (List Char)
  | .null => .error .stuck
  | .bucket i rest => .ok ('[' :: (join (i :: rest) ++ [']']))
  | .vp i => .ok (['{', 'i', ':'] ++ natToString i ++ ['}'])
  | .node i m M mu L R =>
    let s := ['{', 'i', ':'] ++ natToString i
    let s1 := s ++ ([',', 'm', ':'] ++ boundToString m ++ [',', 'M', ':'] ++ numberToString M
      ++ [',', 'm', 'u', ':'] ++ numberToString mu)
    match appendChild s1 'L' L (stringify L) with
    | .error e => .error e
    | .ok s2 =>
      match appendChild s2 'R' R (stringify R) with
      | .error e => .error e
      | .ok s3 => .ok (s3 ++ ['}'])

/-- The expression `root || this.tree`: the tree of the index when `root` is
absent or `null`. -/
def rootOrTree {δ : Type} (root : Option (Tree δ)) (tree : Tree δ) : Tree δ :=
  match root with
  | none => tree
  | some r => if r.truthy then r else tree

/-- The method `stringify(root)` of a `VPTree`. -/
def VPTree.stringify {E : Type} (self : VPTree E Int) (root : Option (Tree Int)) :
    Except Err (List Char) :=
  Sstk.stringify (rootOrTree root self.tree)

/-- Grammar of the specification, `int`: a non-empty string of decimal digits. -/
def SpecInt (s : List Char) : Prop := s ≠ [] ∧ ∀ ch ∈ s, ch.isDigit = true

/-- Grammar of the specification, `num` for an integer-valued number: an
`int`, or `-` and an `int`. -/
def SpecNum (s : List Char) : Prop := SpecInt s ∨ ∃ t, s = '-' :: t ∧ SpecInt t

/-- Grammar of the specification, `int (',' int)*`. -/
inductive SpecIntList : List Char → Prop
  | one (a : List Char) : SpecInt a → SpecIntList a
  | cons (a t : List Char) : SpecInt a → SpecIntList t → SpecIntList (a ++ ',' :: t)

/-- Grammar of the specification, `Bucket := '[' int (',' int)* ']'`. -/
def SpecBucket (s : List Char) : Prop := ∃ b, SpecIntList b ∧ s = '[' :: (b ++ [']'])

/-- Grammar of the specification, `(',m:' num ',M:' num ',mu:' num)?`. -/
def SpecBoundsOpt (s : List Char) : Prop :=
  s = [] ∨ ∃ m M mu, SpecNum m ∧ SpecNum M ∧ SpecNum mu ∧
    s = [',', 'm', ':'] ++ m ++ [',', 'M', ':'] ++ M ++ [',', 'm', 'u', ':'] ++ mu

mutual
/-- Grammar of the specification, `Node := '{' 'i:' int (',m:' num ',M:' num
',mu:' num)? (',L:' (Bucket|Node))? (',R:' (Bucket|Node))? '}'`. -/
inductive SpecNode : List Char → Prop
  | mk (i bounds l r : List Char) : SpecInt i → SpecBoundsOpt bounds →
      SpecChildOpt 'L' l → SpecChildOpt 'R' r →
      SpecNode (['{', 'i', ':'] ++ i ++ bounds ++ l ++ r ++ ['}'])
/-- Grammar of the specification, `(',' key ':' (Bucket|Node))?` for the key
`L` or `R`. -/
inductive SpecChildOpt : Char → List Char → Prop
  | absent (key : Char) : SpecChildOpt key []
  | bucket (key : Char) (t : List Char) : SpecBucket t → SpecChildOpt key ([',', key, ':'] ++ t)
  | node (key : Char) (t : List Char) : SpecNode t → SpecChildOpt key ([',', key, ':'] ++ t)
end

/-- The serialization of a tree in the words of the specification: a bucket is
the bracketed list of its indices in stored order; a node is `i`, then the
bounds group exactly when it has bounds, then an `L` part and an `R` part
exactly for the children that are not `null`. -/
def Tree.SpecSerialization : Tree Int → List Char → Prop
  | .null, _ => False
  | .bucket i rest, s =>
    s = ['['] ++ [','].intercalate ((i :: rest).map natToString) ++ [']']
  | .vp i, s => s = ['{', 'i', ':'] ++ natToString i ++ ['}']
  | .node i m M mu L R, s =>
    ∃ a sL sR, m = some a ∧
      s = ['{', 'i', ':'] ++ natToString i ++
        ([',', 'm', ':'] ++ numberToString a ++ [',', 'M', ':'] ++ numberToString M
          ++ [',', 'm', 'u', ':'] ++ numberToString mu) ++ sL ++ sR ++ ['}'] ∧
      ((L = .null ∧ sL = []) ∨
        (L ≠ .null ∧ ∃ t, sL = [',', 'L', ':'] ++ t ∧ L.SpecSerialization t)) ∧
      ((R = .null ∧ sR = []) ∨
        (R ≠ .null ∧ ∃ t, sR = [',', 'R', ':'] ++ t ∧ R.SpecSerialization t))

end Serializer

/-- The sizes of the two subtrees of every node with bounds: over the `n ≥ 1`
indices stored below the node, `L` stores `floor(n / 2)` and `R` stores
`ceil(n / 2)`; `R` is not `null`, and `L` is `null` exactly when `n = 1`. -/
def Tree.SplitSizes {δ : Type} : Tree δ → Prop
  | .node _ _ _ _ L R =>
    1 ≤ L.indices.length + R.indices.length ∧
    L.indices.length = (L.indices.length + R.indices.length) / 2 ∧
    R.indices.length = (L.indices.length + R.indices.length + 1) / 2 ∧
    R ≠ .null ∧
    (L = .null ↔ L.indices.length + R.indices.length = 1) ∧
    Tree.SplitSizes L ∧ Tree.SplitSizes R
  | _ => True

end Tree

/-! ## Selection: auxiliary facts -/

section SelectionLemmas

variable {α : Type}

theorem getElem?_append_cons_length (A : List α) (a : α) (B : List α) :
    (A ++ a :: B)[A.length]? = some a := by
  induction A with
  | nil => simp
  | cons x A ih => simpa using ih

theorem set_append_cons_length (A : List α) (a b : α) (B : List α) :
    (A ++ a :: B).set A.length b = A ++ b :: B := by
  induction A with
  | nil => simp
  | cons x A ih => simp

theorem set_getElem_same (l : List α) (i : Nat) (h : i < l.length) : l.set i l[i] = l := by
  apply List.ext_getElem (by simp)
  intro n h1 h2
  rw [List.getElem_set]
  split
  · next h3 => subst h3; rfl
  · rfl

theorem exchange_self (list : List α) (i : Nat) (h : i < list.length) :
    exchange list i i = .ok list := by
  unfold exchange
  rw [List.getElem?_eq_getElem h]
  simp [set_getElem_same]

theorem exchange_decomp (A : List α) (a : α) (B : List α) (b : α) (C : List α)
    (i j : Nat) (hi : i = A.length) (hj : j = A.length + 1 + B.length) :
    exchange (A ++ a :: (B ++ b :: C)) i j = .ok (A ++ b :: (B ++ a :: C)) := by
  subst hi hj
  have h1 : (A ++ a :: (B ++ b :: C))[A.length]? = some a := getElem?_append_cons_length A a _
  have h2 : (A ++ a :: (B ++ b :: C))[A.length + 1 + B.length]? = some b := by
    have := getElem?_append_cons_length (A ++ a :: B) b C
    simp only [List.append_assoc, List.cons_append, List.length_append, List.length_cons] at this
    rw [show A.length + 1 + B.length = A.length + (B.length + 1) by omega]
    exact this
  unfold exchange
  rw [h1, h2]
  simp only
  rw [set_append_cons_length]
  have := set_append_cons_length (A ++ b :: B) b a C
  simp only [List.append_assoc, List.cons_append, List.length_append, List.length_cons] at this
  rw [show A.length + 1 + B.length = A.length + (B.length + 1) by omega]
  rw [this]

theorem exchange_decomp_rev (A : List α) (a : α) (B : List α) (b : α) (C : List α)
    (i j : Nat) (hi : i = A.length) (hj : j = A.length + 1 + B.length) :
    exchange (A ++ a :: (B ++ b :: C)) j i = .ok (A ++ b :: (B ++ a :: C)) := by
  subst hi hj
  have h1 : (A ++ a :: (B ++ b :: C))[A.length]? = some a := getElem?_append_cons_length A a _
  have h2 : (A ++ a :: (B ++ b :: C))[A.length + 1 + B.length]? = some b := by
    have := getElem?_append_cons_length (A ++ a :: B) b C
    simp only [List.append_assoc, List.cons_append, List.length_append, List.length_cons] at this
    rw [show A.length + 1 + B.length = A.length + (B.length + 1) by omega]
    exact this
  unfold exchange
  rw [h1, h2]
  simp only
  have e1 := set_append_cons_length (A ++ a :: B) b a C
  simp only [List.append_assoc, List.cons_append, List.length_append, List.length_cons] at e1
  rw [show A.length + 1 + B.length = A.length + (B.length + 1) by omega]
  rw [e1]
  rw [set_append_cons_length]

theorem partitionLoop_spec (comp : α → α → Bool) (pv : α) (pre tail : List α) :
    ∀ (rest lows highs : List α) (i s : Nat), s = pre.length + lows.length →
      i = s + highs.length → (∀ x ∈ lows, comp x pv = true) →
      (∀ x ∈ highs, comp x pv = false) →
      ∃ lows' highs', partitionLoop comp pv rest.length i s
          (pre ++ (lows ++ (highs ++ (rest ++ tail))))
          = .ok (pre ++ (lows' ++ (highs' ++ tail)), pre.length + lows'.length) ∧
        (lows' ++ highs').Perm (lows ++ (highs ++ rest)) ∧
        (∀ x ∈ lows', comp x pv = true) ∧ (∀ x ∈ highs', comp x pv = false) := by
  intro rest
  induction rest with
  | nil =>
    intro lows highs i s hs hi hl hh
    exact ⟨lows, highs, by simp [partitionLoop, hs], by simp, hl, hh⟩
  | cons x rest ih =>
    intro lows highs i s hs hi hl hh
    have hx : (pre ++ (lows ++ (highs ++ (x :: rest ++ tail))))[i]? = some x := by
      have := getElem?_append_cons_length (pre ++ (lows ++ highs)) x (rest ++ tail)
      simp only [List.append_assoc, List.length_append] at this
      rw [hi, hs, Nat.add_assoc]
      exact this
    simp only [List.length_cons, partitionLoop, hx]
    by_cases hc : comp x pv = true
    · simp only [hc, if_true]
      cases highs with
      | nil =>
        have his : i = s := by simpa using hi
        have hlt : i < (pre ++ (lows ++ ([] ++ (x :: rest ++ tail)))).length := by
          simp; omega
        rw [← his, exchange_self _ _ hlt]
        simp only
        obtain ⟨lows', highs', h1, h2, h3, h4⟩ := ih (lows ++ [x]) [] (i + 1) (i + 1)
          (by simp; omega) (by simp) (by
            intro y hy
            rcases List.mem_append.1 hy with h | h
            · exact hl y h
            · simp at h; subst h; exact hc) (by simp)
        refine ⟨lows', highs', ?_, ?_, h3, h4⟩
        · simpa using h1
        · refine h2.trans ?_
          simp
      | cons h hs' =>
        have hex := exchange_decomp (pre ++ lows) h hs' x (rest ++ tail) s i
          (by simp [hs]) (by simp at hi ⊢; omega)
        simp only [List.append_assoc] at hex
        simp only [List.cons_append, List.append_assoc]
        rw [hex]
        simp only
        obtain ⟨lows', highs', h1, h2, h3, h4⟩ := ih (lows ++ [x]) (hs' ++ [h]) (i + 1) (s + 1)
          (by simp; omega) (by simp at hi ⊢; omega) (by
            intro y hy
            rcases List.mem_append.1 hy with h' | h'
            · exact hl y h'
            · simp at h'; subst h'; exact hc) (by
            intro y hy
            rcases List.mem_append.1 hy with h' | h'
            · exact hh y (List.mem_cons_of_mem _ h')
            · simp at h'; subst h'; exact hh y (List.mem_cons_self _ _))
        refine ⟨lows', highs', ?_, ?_, h3, h4⟩
        · simpa using h1
        · refine h2.trans ?_
          rw [← Multiset.coe_eq_coe]
          simp only [← Multiset.coe_add, ← Multiset.cons_coe, ← Multiset.singleton_add,
            Multiset.coe_nil, add_zero]
          abel
    · simp only [hc]
      obtain ⟨lows', highs', h1, h2, h3, h4⟩ := ih lows (highs ++ [x]) (i + 1) s hs
          (by simp; omega) hl (by
            intro y hy
            rcases List.mem_append.1 hy with h' | h'
            · exact hh y h'
            · simp at h'; subst h'; simpa using hc)
      refine ⟨lows', highs', ?_, ?_, h3, h4⟩
      · simpa using h1
      · refine h2.trans ?_
        simp

theorem exists_split_at (l : List α) (n : Nat) (h : n < l.length) :
    ∃ X a Y, l = X ++ a :: Y ∧ X.length = n := by
  refine ⟨l.take n, l[n], l.drop (n + 1), ?_, ?_⟩
  · rw [List.getElem_cons_drop, List.take_append_drop]
  · simp; omega

theorem partition_after (comp : α → α → Bool) (pv : α) (pre rest post : List α)
    (left right : Nat) (hl : left = pre.length) (hr : right = pre.length + rest.length) :
    ∃ list2 lows highs, partitionLoop comp pv (right - left) left left
          (pre ++ (rest ++ pv :: post)) = .ok (list2, pre.length + lows.length) ∧
      exchange list2 right (pre.length + lows.length)
          = .ok (pre ++ (lows ++ pv :: (highs ++ post))) ∧
      (lows ++ highs).Perm rest ∧
      (∀ x ∈ lows, comp x pv = true) ∧ (∀ x ∈ highs, comp x pv = false) := by
  obtain ⟨lows', highs', h1, h2, h3, h4⟩ := partitionLoop_spec comp pv pre (pv :: post)
    rest [] [] left left (by simp [hl]) (by simp) (by simp) (by simp)
  have hn : right - left = rest.length := by omega
  simp only [List.nil_append] at h1 h2
  rw [hn, h1]
  cases highs' with
  | nil =>
    refine ⟨_, lows', [], rfl, ?_, by simpa using h2, h3, by simp⟩
    have hlen : lows'.length = rest.length := by simpa using h2.length_eq
    have : right = pre.length + lows'.length := by omega
    rw [this, exchange_self _ _ (by simp)]
    simp
  | cons h hs =>
    refine ⟨_, lows', hs ++ [h], rfl, ?_, ?_, h3, ?_⟩
    · have hlen : lows'.length + (hs.length + 1) = rest.length := by simpa using h2.length_eq
      have := exchange_decomp_rev (pre ++ lows') h hs pv post (pre.length + lows'.length) right
        (by simp) (by simp; omega)
      simpa using this
    · refine List.Perm.trans ?_ h2
      rw [← Multiset.coe_eq_coe]
      simp only [← Multiset.coe_add, ← Multiset.cons_coe, ← Multiset.singleton_add,
        Multiset.coe_nil, add_zero]
      abel
    · intro y hy
      rcases List.mem_append.1 hy with h' | h'
      · exact h4 y (List.mem_cons_of_mem _ h')
      · simp at h'; subst h'; exact h4 y (List.mem_cons_self _ _)

theorem partition_spec (comp : α → α → Bool) (pre mid post : List α)
    (left right pivotIndex : Nat) (hl : left = pre.length)
    (hr : right + 1 = pre.length + mid.length) (hp1 : left ≤ pivotIndex)
    (hp2 : pivotIndex ≤ right) :
    ∃ lows pv highs, partition comp (pre ++ (mid ++ post)) left right pivotIndex
        = .ok (pre ++ (lows ++ pv :: (highs ++ post)), pre.length + lows.length) ∧
      (lows ++ pv :: highs).Perm mid ∧
      (∀ x ∈ lows, comp x pv = true) ∧ (∀ x ∈ highs, comp x pv = false) := by
  obtain ⟨X, pv, Y, hmid, hX⟩ := exists_split_at mid (pivotIndex - left) (by omega)
  subst hmid
  have hread : (pre ++ (X ++ pv :: Y ++ post))[pivotIndex]? = some pv := by
    have := getElem?_append_cons_length (pre ++ X) pv (Y ++ post)
    simp only [List.append_assoc, List.length_append, List.cons_append] at this ⊢
    rw [show pivotIndex = pre.length + X.length by omega]
    exact this
  unfold partition
  rw [hread]
  simp only
  rcases List.eq_nil_or_concat Y with hY | ⟨Y', z, hY⟩
  · subst hY
    have hpr : pivotIndex = right := by simp at hr; omega
    rw [hpr, exchange_self _ _ (by simp; omega)]
    simp only
    obtain ⟨list2, lows, highs, h1, h2, h3, h4, h5⟩ := partition_after comp pv pre X post
      left right hl (by simp at hr; omega)
    simp only [List.append_assoc, List.cons_append, List.nil_append] at h1 ⊢
    rw [h1]
    simp only
    rw [h2]
    refine ⟨lows, pv, highs, rfl, ?_, h4, h5⟩
    refine List.Perm.trans ?_ (List.Perm.append_right _ h3)
    rw [← Multiset.coe_eq_coe]
    simp only [← Multiset.coe_add, ← Multiset.cons_coe, ← Multiset.singleton_add,
      Multiset.coe_nil, add_zero]
    abel
  · subst hY
    have hex := exchange_decomp (pre ++ X) pv Y' z post pivotIndex right
      (by simp; omega) (by simp at hr ⊢; omega)
    simp only [List.append_assoc, List.cons_append, List.concat_eq_append, List.nil_append]
      at hex ⊢
    rw [hex]
    simp only
    obtain ⟨list2, lows, highs, h1, h2, h3, h4, h5⟩ := partition_after comp pv pre
      (X ++ z :: Y') post left right hl (by simp at hr ⊢; omega)
    simp only [List.append_assoc, List.cons_append, List.nil_append] at h1 ⊢
    rw [h1]
    simp only
    rw [h2]
    refine ⟨lows, pv, highs, rfl, ?_, h4, h5⟩
    have h3' : (lows ++ highs ++ [pv]).Perm (X ++ z :: Y' ++ [pv]) := List.Perm.append_right _ h3
    refine List.Perm.trans ?_ (h3'.trans ?_)
    · rw [← Multiset.coe_eq_coe]
      simp only [← Multiset.coe_add, ← Multiset.cons_coe, ← Multiset.singleton_add,
        Multiset.coe_nil, add_zero]
      abel
    · rw [← Multiset.coe_eq_coe]
      simp only [← Multiset.coe_add, ← Multiset.cons_coe, ← Multiset.singleton_add,
        Multiset.coe_nil, add_zero]
      abel

theorem medianOf3_spec (comp : α → α → Bool) (list : List α) (a b c : Nat)
    (ha : a < list.length) (hb : b < list.length) (hc : c < list.length) :
    ∃ p, medianOf3 comp list a b c = .ok p ∧ (p = a ∨ p = b ∨ p = c) := by
  unfold medianOf3
  rw [List.getElem?_eq_getElem ha, List.getElem?_eq_getElem hb, List.getElem?_eq_getElem hc]
  simp only
  refine ⟨_, rfl, ?_⟩
  split_ifs <;> simp

theorem nth_elementLoop_spec (comp : α → α → Bool)
    (hasym : ∀ a b, comp a b = true → comp b a = false)
    (htrans : ∀ a b c, comp a b = true → comp b c = true → comp a c = true) :
    ∀ (fuel : Nat) (pre mid post : List α) (left nth right : Nat),
      left = pre.length → right + 1 = pre.length + mid.length → 1 ≤ nth →
      nth ≤ mid.length → mid.length ≤ fuel →
      ∃ A v B, nth_elementLoop comp fuel (pre ++ (mid ++ post)) left nth right
          = .ok (v, pre ++ (A ++ v :: (B ++ post))) ∧
        (A ++ v :: B).Perm mid ∧ A.length + 1 = nth ∧
        (∀ a ∈ A, comp v a = false) ∧ (∀ b ∈ B, comp b v = false) := by
  intro fuel
  induction fuel with
  | zero =>
    intro pre mid post left nth right _ _ h1 h2 h3
    omega
  | succ fuel ih =>
    intro pre mid post left nth right hl hr h1 h2 h3
    have hlen : (pre ++ (mid ++ post)).length = pre.length + mid.length + post.length := by
      simp; omega
    obtain ⟨p, hp, hpc⟩ := medianOf3_spec comp (pre ++ (mid ++ post)) left right
      ((left + right) / 2) (by omega) (by omega) (by omega)
    have hp1 : left ≤ p := by rcases hpc with h | h | h <;> omega
    have hp2 : p ≤ right := by rcases hpc with h | h | h <;> omega
    obtain ⟨lows, pv, highs, hpart, hperm, hlo, hhi⟩ :=
      partition_spec comp pre mid post left right p hl hr hp1 hp2
    have hpl : lows.length + (highs.length + 1) = mid.length := by
      simpa using hperm.length_eq
    simp only [nth_elementLoop, hp, hpart]
    have hd : pre.length + lows.length - left + 1 = lows.length + 1 := by omega
    rw [hd]
    by_cases hc1 : lows.length + 1 = nth
    · simp only [hc1, if_true]
      have hread : (pre ++ (lows ++ pv :: (highs ++ post)))[pre.length + lows.length]?
          = some pv := by
        have := getElem?_append_cons_length (pre ++ lows) pv (highs ++ post)
        simpa using this
      rw [hread]
      refine ⟨lows, pv, highs, rfl, hperm, hc1, ?_, hhi⟩
      intro a ha
      exact hasym _ _ (hlo a ha)
    · simp only [hc1, if_false]
      by_cases hc2 : nth < lows.length + 1
      · simp only [hc2, if_true]
        obtain ⟨A, v, B, hrun, hperm', hA, hAl, hBr⟩ := ih pre lows (pv :: (highs ++ post))
          left nth (pre.length + lows.length - 1) hl (by omega) h1 (by omega) (by omega)
        rw [hrun]
        have hv : v ∈ lows := hperm'.subset (by simp)
        refine ⟨A, v, B ++ pv :: highs, by simp, ?_, hA, hAl, ?_⟩
        · refine List.Perm.trans ?_ hperm
          have := List.Perm.append_right (pv :: highs) hperm'
          refine List.Perm.trans ?_ this
          simp
        · intro b hb
          rcases List.mem_append.1 hb with h | h
          · exact hBr b h
          · rcases List.mem_cons.1 h with h | h
            · subst h; exact hasym _ _ (hlo v hv)
            · have hbp := hhi b h
              by_contra hcon
              have hbv : comp b v = true := by simpa using hcon
              have := htrans b v pv hbv (hlo v hv)
              rw [hbp] at this
              exact Bool.false_ne_true this
      · simp only [hc2, if_false]
        obtain ⟨A, v, B, hrun, hperm', hA, hAl, hBr⟩ := ih (pre ++ (lows ++ [pv])) highs post
          (pre.length + lows.length + 1) (nth - (lows.length + 1)) right
          (by simp; omega) (by simp; omega) (by omega) (by omega) (by omega)
        simp only [List.append_assoc, List.cons_append, List.nil_append] at hrun
        rw [hrun]
        have hv : v ∈ highs := hperm'.subset (by simp)
        refine ⟨lows ++ pv :: A, v, B, by simp, ?_, by simp; omega, ?_, hBr⟩
        · refine List.Perm.trans ?_ hperm
          have := List.Perm.append_left (lows ++ [pv]) hperm'
          simpa using this
        · intro a ha
          rcases List.mem_append.1 ha with h | h
          · by_contra hcon
            have hva : comp v a = true := by simpa using hcon
            have := htrans v a pv hva (hlo a h)
            rw [hhi v hv] at this
            exact Bool.false_ne_true this
          · rcases List.mem_cons.1 h with h | h
            · subst h; exact hhi v hv
            · exact hAl a h

theorem slice_decomp (list : List α) (left right : Nat) (hlr : left ≤ right)
    (hr : right < list.length) :
    list = list.take left ++ (slice list left right ++ list.drop (right + 1)) ∧
      (list.take left).length = left ∧ (slice list left right).length = right + 1 - left := by
  refine ⟨?_, ?_, ?_⟩
  · unfold slice
    have h1 : list.drop (right + 1) = (list.drop left).drop (right + 1 - left) := by
      rw [List.drop_drop]; congr 1; omega
    rw [h1, List.take_append_drop, List.take_append_drop]
  · simp; omega
  · unfold slice; simp; omega

theorem nth_element_spec (comp : α → α → Bool)
    (hirr : ∀ a, comp a a = false)
    (htrans : ∀ a b c, comp a b = true → comp b c = true → comp a c = true)
    (pre mid post : List α) (left right : Nat) (nth : Int)
    (hl : left = pre.length) (hr : right + 1 = pre.length + mid.length)
    (h1 : 1 ≤ nth) (h2 : nth ≤ (mid.length : Int)) :
    ∃ A v B, nth_element comp (pre ++ (mid ++ post)) left nth right
        = .ok (v, pre ++ (A ++ v :: (B ++ post))) ∧
      (A ++ v :: B).Perm mid ∧ A.length + 1 = nth.toNat ∧
      (∀ a ∈ A, comp v a = false) ∧ (∀ b ∈ B, comp b v = false) := by
  have hasym : ∀ a b, comp a b = true → comp b a = false := by
    intro a b hab
    by_contra hcon
    have hba : comp b a = true := by simpa using hcon
    have := htrans a b a hab hba
    rw [hirr a] at this
    exact Bool.false_ne_true this
  unfold nth_element
  have hg : ¬ (nth ≤ 0 ∨ nth > (right : Int) - (left : Int) + 1) := by omega
  rw [if_neg hg]
  exact nth_elementLoop_spec comp hasym htrans (right - left + 1) pre mid post left nth.toNat right
    hl hr (by omega) (by omega) (by omega)

theorem mem_of_getElem?_mid (pre X post : List α) (j : Nat) (x : α)
    (h1 : pre.length ≤ j) (h2 : j < pre.length + X.length)
    (h : (pre ++ (X ++ post))[j]? = some x) : x ∈ X := by
  rw [List.getElem?_append_right h1, List.getElem?_append_left (by omega)] at h
  exact List.getElem?_mem h

theorem negTrans_of_incomp (comp : α → α → Bool)
    (htrans : ∀ a b c, comp a b = true → comp b c = true → comp a c = true)
    (hinc : ∀ a b c, (comp a b = false ∧ comp b a = false) →
      (comp b c = false ∧ comp c b = false) → (comp a c = false ∧ comp c a = false))
    (a b c : α) (hac : comp a c = true) : comp a b = true ∨ comp b c = true := by
  by_contra hcon
  push_neg at hcon
  obtain ⟨hab, hbc⟩ := hcon
  have hab' : comp a b = false := by simpa using hab
  have hbc' : comp b c = false := by simpa using hbc
  have hba : comp b a = false := by
    by_contra h
    have h' : comp b a = true := by simpa using h
    have := htrans b a c h' hac
    rw [hbc'] at this
    exact Bool.false_ne_true this
  have hcb : comp c b = false := by
    by_contra h
    have h' : comp c b = true := by simpa using h
    have := htrans a c b hac h'
    rw [hab'] at this
    exact Bool.false_ne_true this
  have := (hinc a b c ⟨hab', hba⟩ ⟨hbc', hcb⟩).1
  rw [hac] at this
  exact Bool.false_ne_true this.symm

theorem rank_equiv (comp : α → α → Bool) (hirr : ∀ a, comp a a = false)
    (hneg : ∀ a b c, comp a c = true → comp a b = true ∨ comp b c = true)
    (A B T D : List α) (v s : α) (hperm : (A ++ v :: B).Perm (T ++ s :: D))
    (hlen : A.length = T.length) (hA : ∀ a ∈ A, comp v a = false)
    (hB : ∀ b ∈ B, comp b v = false)
    (hsorted : (T ++ s :: D).Pairwise (fun a b => comp b a = false)) :
    comp v s = false ∧ comp s v = false := by
  have hlen2 : B.length = D.length := by
    have := hperm.length_eq
    simp at this; omega
  obtain ⟨_, hsD, hTs⟩ := List.pairwise_append.1 hsorted
  have hsD' : ∀ y ∈ D, comp y s = false := (List.pairwise_cons.1 hsD).1
  have hTs' : ∀ y ∈ T, comp s y = false := fun y hy => hTs y hy s (List.mem_cons_self _ _)
  constructor
  · by_contra hcon
    have hvs : comp v s = true := by simpa using hcon
    have hc := hperm.countP_eq (fun x => comp v x)
    have h1 : List.countP (fun x => comp v x) (A ++ v :: B) ≤ B.length := by
      rw [List.countP_append, List.countP_cons]
      have : List.countP (fun x => comp v x) A = 0 := by
        rw [List.countP_eq_zero]; intro a ha; simp [hA a ha]
      rw [this]
      simp only [hirr v]
      have := List.countP_le_length (fun x => comp v x) (l := B)
      simp; omega
    have h2 : D.length + 1 ≤ List.countP (fun x => comp v x) (T ++ s :: D) := by
      rw [List.countP_append, List.countP_cons]
      have : List.countP (fun x => comp v x) D = D.length := by
        rw [List.countP_eq_length]
        intro y hy
        rcases hneg v y s hvs with h | h
        · exact h
        · rw [hsD' y hy] at h; exact absurd h Bool.false_ne_true
      rw [this]
      simp only [hvs]
      simp
    omega
  · by_contra hcon
    have hsv : comp s v = true := by simpa using hcon
    have hc := hperm.countP_eq (fun x => comp x v)
    have h1 : List.countP (fun x => comp x v) (A ++ v :: B) ≤ A.length := by
      rw [List.countP_append, List.countP_cons]
      have : List.countP (fun x => comp x v) B = 0 := by
        rw [List.countP_eq_zero]; intro b hb; simp [hB b hb]
      rw [this]
      simp only [hirr v]
      have := List.countP_le_length (fun x => comp x v) (l := A)
      simp; omega
    have h2 : T.length + 1 ≤ List.countP (fun x => comp x v) (T ++ s :: D) := by
      rw [List.countP_append, List.countP_cons]
      have : List.countP (fun x => comp x v) T = T.length := by
        rw [List.countP_eq_length]
        intro y hy
        rcases hneg s y v hsv with h | h
        · rw [hTs' y hy] at h; exact absurd h Bool.false_ne_true
        · exact h
      rw [this]
      simp only [hsv]
      simp
    omega

end SelectionLemmas

/-! ## Selection: the specification -/

section SelectionClaims

variable {α : Type}

/-- C3: for a comparator that is irreflexive and transitive (every strict weak
ordering is), a range `[left, right]` inside the list and a rank
`1 ≤ nth ≤ right - left + 1`, `nth_element` returns a value `v` and leaves
the list with `v` at index `left + nth - 1`, no element greater than `v` at
the indices `left .. left + nth - 2` and no element smaller than `v` at the
indices `left + nth .. right`. -/
theorem nth_element_partitions (comp : α → α → Bool)
    (hirr : ∀ a, comp a a = false)
    (htrans : ∀ a b c, comp a b = true → comp b c = true → comp a c = true)
    (list : List α) (left right : Nat) (nth : Int) (hr : right < list.length)
    (h1 : 1 ≤ nth) (h2 : nth ≤ (right : Int) - (left : Int) + 1) :
    ∃ v list', nth_element comp list left nth right = .ok (v, list') ∧
      list'[left + nth.toNat - 1]? = some v ∧
      (∀ j x, left ≤ j → j + 1 < left + nth.toNat → list'[j]? = some x →
        comp v x = false) ∧
      (∀ j x, left + nth.toNat ≤ j → j ≤ right → list'[j]? = some x →
        comp x v = false) := by
  obtain ⟨hdec, hpre, hmid⟩ := slice_decomp list left right (by omega) hr
  obtain ⟨A, v, B, hrun, hperm, hA, hAl, hBr⟩ := nth_element_spec comp hirr htrans
    (list.take left) (slice list left right) (list.drop (right + 1)) left right nth
    hpre.symm (by omega) h1 (by omega)
  rw [← hdec] at hrun
  have hlen := hperm.length_eq
  simp only [List.length_append, List.length_cons] at hlen
  refine ⟨v, _, hrun, ?_, ?_, ?_⟩
  · have := getElem?_append_cons_length (list.take left ++ A) v
      (B ++ list.drop (right + 1))
    simp only [List.append_assoc, List.length_append] at this
    rw [show left + nth.toNat - 1 = (list.take left).length + A.length by omega]
    exact this
  · intro j x hj1 hj2 hx
    exact hAl x (mem_of_getElem?_mid (list.take left) A _ j x (by omega) (by omega) hx)
  · intro j x hj1 hj2 hx
    have := mem_of_getElem?_mid (list.take left ++ (A ++ [v])) B (list.drop (right + 1)) j x
      (by simp; omega) (by simp; omega) (by simpa using hx)
    exact hBr x this

/-- Witness of C3 on the list `[3, 1, 2]` with rank 2. -/
theorem nth_element_partitions_witness :
    ∃ v list', nth_element (fun a b : Nat => decide (a < b)) [3, 1, 2] 0 2 2 = .ok (v, list') ∧
      list'[0 + (2 : Int).toNat - 1]? = some v ∧
      (∀ j x, 0 ≤ j → j + 1 < 0 + (2 : Int).toNat → list'[j]? = some x →
        (fun a b : Nat => decide (a < b)) v x = false) ∧
      (∀ j x, 0 + (2 : Int).toNat ≤ j → j ≤ 2 → list'[j]? = some x →
        (fun a b : Nat => decide (a < b)) x v = false) :=
  nth_element_partitions (fun a b : Nat => decide (a < b)) (by simp)
    (by intro a b c; simp; omega) [3, 1, 2] 0 2 2 (by decide) (by decide) (by decide)

/-- C2: for a strict weak ordering `comp`, a range `[left, right]` inside the
list and a rank `1 ≤ nth ≤ right - left + 1`, `nth_element` returns an element
`v` of the range that is `comp`-equivalent to the element at position
`nth - 1` of any arrangement of the range sorted by `comp`, and it leaves in
the range a permutation of what was there; as the rank is arbitrary, the
values returned by calls for the ranks `1 .. n` are, rank by rank, the sorted
sequence. -/
theorem nth_element_sorted_rank (comp : α → α → Bool)
    (hirr : ∀ a, comp a a = false)
    (htrans : ∀ a b c, comp a b = true → comp b c = true → comp a c = true)
    (hinc : ∀ a b c, (comp a b = false ∧ comp b a = false) →
      (comp b c = false ∧ comp c b = false) → (comp a c = false ∧ comp c a = false))
    (list : List α) (left right : Nat) (nth : Int) (hr : right < list.length)
    (h1 : 1 ≤ nth) (h2 : nth ≤ (right : Int) - (left : Int) + 1)
    (sorted : List α) (hperm : sorted.Perm (slice list left right))
    (hsorted : sorted.Pairwise (fun a b => comp b a = false)) :
    ∃ v list', nth_element comp list left nth right = .ok (v, list') ∧
      v ∈ slice list left right ∧
      (slice list' left right).Perm (slice list left right) ∧
      ∃ s, sorted[nth.toNat - 1]? = some s ∧ comp v s = false ∧ comp s v = false := by
  obtain ⟨hdec, hpre, hmid⟩ := slice_decomp list left right (by omega) hr
  obtain ⟨A, v, B, hrun, hperm', hA, hAl, hBr⟩ := nth_element_spec comp hirr htrans
    (list.take left) (slice list left right) (list.drop (right + 1)) left right nth
    hpre.symm (by omega) h1 (by omega)
  rw [← hdec] at hrun
  have hlen := hperm.length_eq
  obtain ⟨T, s, D, hS, hT⟩ := exists_split_at sorted (nth.toNat - 1) (by omega)
  have hslice : slice (list.take left ++ (A ++ v :: (B ++ list.drop (right + 1)))) left right
      = A ++ v :: B := by
    unfold slice
    rw [List.drop_left' hpre]
    have : A ++ v :: (B ++ list.drop (right + 1)) = (A ++ v :: B) ++ list.drop (right + 1) := by
      simp
    rw [this, List.take_left' (by rw [hperm'.length_eq, hmid])]
  refine ⟨v, _, hrun, hperm'.subset (by simp), by rw [hslice]; exact hperm', s, ?_, ?_⟩
  · rw [hS, ← hT]
    exact getElem?_append_cons_length T s D
  · subst hS
    exact rank_equiv comp hirr (negTrans_of_incomp comp htrans hinc) A B T D v s
      (hperm'.trans hperm.symm) (by omega) hAl hBr hsorted

/-- Witness of C2 on the list `[3, 1, 2]` with rank 2 and its sorted form `[1, 2, 3]`. -/
theorem nth_element_sorted_rank_witness :
    ∃ v list', nth_element (fun a b : Nat => decide (a < b)) [3, 1, 2] 0 2 2 = .ok (v, list') ∧
      v ∈ slice [3, 1, 2] 0 2 ∧
      (slice list' 0 2).Perm (slice [3, 1, 2] 0 2) ∧
      ∃ s, [1, 2, 3][(2 : Int).toNat - 1]? = some s ∧
        (fun a b : Nat => decide (a < b)) v s = false ∧
        (fun a b : Nat => decide (a < b)) s v = false :=
  nth_element_sorted_rank (fun a b : Nat => decide (a < b)) (by simp)
    (by intro a b c; simp; omega) (by intro a b c; simp; omega) [3, 1, 2] 0 2 2
    (by decide) (by decide) (by decide) [1, 2, 3] (by decide) (by decide)

end SelectionClaims

/-! ## Priority queue: auxiliary facts -/

section PQLemmas
variable {ι δ : Type} [LinearOrder δ]


theorem sortedQ_split (q : List (Entry ι δ)) (hs : SortedQ q) (n : Nat) (x : Entry ι δ)
    (hx : q[n]? = some x) :
    (∀ e ∈ q.take (n + 1), e.priority ≤ x.priority) ∧
      (∀ e ∈ q.drop n, x.priority ≤ e.priority) := by
  have hn : n < q.length := (List.getElem?_eq_some.1 hx).1
  obtain ⟨X, a, Y, hc, hX⟩ := exists_split_at q n hn
  subst hc
  have hax : a = x := by
    have := getElem?_append_cons_length X a Y
    rw [hX, hx] at this
    exact (Option.some.inj this).symm
  subst hax
  obtain ⟨_, h2, h3⟩ := List.pairwise_append.1 hs
  have h2' := (List.pairwise_cons.1 h2).1
  constructor
  · intro e he
    rw [← hX, List.take_append] at he
    simp at he
    rcases he with he | he
    · exact h3 e he a (List.mem_cons_self _ _)
    · subst he; exact le_refl _
  · intro e he
    rw [← hX, List.drop_left] at he
    rcases List.mem_cons.1 he with he | he
    · subst he; exact le_refl _
    · exact h2' e he

theorem binaryIndexOfLoop_spec (q : List (Entry ι δ)) (hs : SortedQ q) (p : δ) :
    ∀ (fuel lo hi : Nat), lo ≤ hi → hi ≤ q.length → hi - lo < fuel →
      (∀ e ∈ q.take lo, e.priority < p) → (∀ e ∈ q.drop hi, p < e.priority) →
      ∃ (idx : Int) (pos : Nat), binaryIndexOfLoop q p fuel (lo : Int) ((hi : Int) - 1) = .ok idx ∧
        (if idx < 0 then -1 - idx else idx) = (pos : Int) ∧ pos ≤ q.length ∧
        (∀ e ∈ q.take pos, e.priority ≤ p) ∧ (∀ e ∈ q.drop pos, p ≤ e.priority) ∧
        (0 ≤ idx → ∃ e, q[pos]? = some e ∧ e.priority = p) ∧
        (idx < 0 → (∀ e ∈ q.take pos, e.priority < p) ∧ (∀ e ∈ q.drop pos, p < e.priority)) := by
  intro fuel
  induction fuel with
  | zero => intro lo hi _ _ h; omega
  | succ fuel ih =>
    intro lo hi h1 h2 h3 hlo hhi
    unfold binaryIndexOfLoop
    by_cases hc : (lo : Int) ≤ (hi : Int) - 1
    · rw [if_pos hc]
      simp only
      have hcur : ((lo : Int) + ((hi : Int) - 1)) / 2 = (((lo + hi - 1) / 2 : Nat) : Int) := by
        omega
      rw [hcur]
      have hnn : ¬ ((((lo + hi - 1) / 2 : Nat) : Int) < 0) := by omega
      rw [if_neg hnn]
      simp only [Int.toNat_ofNat]
      have hm : (lo + hi - 1) / 2 < q.length := by omega
      rw [List.getElem?_eq_getElem hm]
      simp only
      obtain ⟨hle, hge⟩ := sortedQ_split q hs _ _ (List.getElem?_eq_getElem hm)
      by_cases hlt : q[(lo + hi - 1) / 2].priority < p
      · rw [if_pos hlt]
        have := ih ((lo + hi - 1) / 2 + 1) hi (by omega) h2 (by omega)
          (fun e he => lt_of_le_of_lt (hle e he) hlt) hhi
        simpa using this
      · rw [if_neg hlt]
        by_cases hgt : q[(lo + hi - 1) / 2].priority > p
        · rw [if_pos hgt]
          have := ih lo ((lo + hi - 1) / 2) (by omega) (by omega) (by omega) hlo
            (fun e he => lt_of_lt_of_le hgt (hge e he))
          exact this
        · rw [if_neg hgt]
          have heq : q[(lo + hi - 1) / 2].priority = p :=
            le_antisymm (not_lt.1 hgt) (not_lt.1 hlt)
          refine ⟨_, (lo + hi - 1) / 2, rfl, ?_, by omega, ?_, ?_, ?_, ?_⟩
          · rw [if_neg hnn]
          · intro e he
            rw [← heq]
            exact hle e (List.take_subset_take_left q (Nat.le_succ _) he)
          · intro e he
            rw [← heq]
            exact hge e he
          · intro _
            exact ⟨_, List.getElem?_eq_getElem hm, heq⟩
          · intro h; omega
    · rw [if_neg hc]
      have hlh : lo = hi := by omega
      subst hlh
      refine ⟨_, lo, rfl, ?_, h2, fun e he => le_of_lt (hlo e he), fun e he => le_of_lt (hhi e he),
        ?_, ?_⟩
      · have : (-1 - (lo : Int)) < 0 := by omega
        rw [if_pos this]; omega
      · intro h; omega
      · intro _; exact ⟨hlo, hhi⟩

theorem binaryIndexOf_spec (q : List (Entry ι δ)) (hs : SortedQ q) (p : δ) :
    ∃ (idx : Int) (pos : Nat), binaryIndexOf q p = .ok idx ∧
      (if idx < 0 then -1 - idx else idx) = (pos : Int) ∧ pos ≤ q.length ∧
      (∀ e ∈ q.take pos, e.priority ≤ p) ∧ (∀ e ∈ q.drop pos, p ≤ e.priority) ∧
      (0 ≤ idx → ∃ e, q[pos]? = some e ∧ e.priority = p) ∧
      (idx < 0 → (∀ e ∈ q.take pos, e.priority < p) ∧ (∀ e ∈ q.drop pos, p < e.priority)) := by
  have := binaryIndexOfLoop_spec q hs p (q.length + 1) 0 q.length (by omega) (by omega)
    (by omega) (by simp) (by simp)
  simpa [binaryIndexOf] using this

theorem insert_spec (size : Option Nat) (q : List (Entry ι δ)) (hs : SortedQ q) (d : ι)
    (p : δ) :
    ∃ (idx : Int) (pos : Nat), binaryIndexOf q p = .ok idx ∧
      (if idx < 0 then -1 - idx else idx) = (pos : Int) ∧ pos ≤ q.length ∧
      (∀ e ∈ q.take pos, e.priority ≤ p) ∧ (∀ e ∈ q.drop pos, p ≤ e.priority) ∧
      PriorityQueue.insert size q d p = .ok (afterInsert size q pos ⟨d, p⟩,
        if sizeOf? size ≠ 0 ∧ (afterInsert size q pos ⟨d, p⟩).length = sizeOf? size then
          (afterInsert size q pos ⟨d, p⟩).getLast?.map Entry.priority
        else none) := by
  obtain ⟨idx, pos, h1, h2, h3, h4, h5, _, _⟩ := binaryIndexOf_spec q hs p
  refine ⟨idx, pos, h1, h2, h3, h4, h5, ?_⟩
  unfold PriorityQueue.insert afterInsert
  rw [h1]
  simp only [h2, Int.toNat_ofNat, Nat.cast_lt]

theorem sortedQ_spliced (q : List (Entry ι δ)) (hs : SortedQ q) (pos : Nat) (e : Entry ι δ)
    (h4 : ∀ a ∈ q.take pos, a.priority ≤ e.priority)
    (h5 : ∀ a ∈ q.drop pos, e.priority ≤ a.priority) :
    SortedQ (q.take pos ++ e :: q.drop pos) := by
  unfold SortedQ at hs ⊢
  have hq : (q.take pos ++ q.drop pos).Pairwise (fun a b => a.priority ≤ b.priority) := by
    rw [List.take_append_drop]; exact hs
  obtain ⟨ht, hd, htd⟩ := List.pairwise_append.1 hq
  rw [List.pairwise_append]
  refine ⟨ht, List.pairwise_cons.2 ⟨h5, hd⟩, ?_⟩
  intro a ha b hb
  rcases List.mem_cons.1 hb with hb | hb
  · subst hb; exact h4 a ha
  · exact htd a ha b hb

omit [LinearOrder δ] in
theorem afterInsert_bounded (k : Nat) (hk : 1 ≤ k) (q : List (Entry ι δ)) (hlen : q.length ≤ k)
    (pos : Nat) (hpos : pos ≤ q.length) (e : Entry ι δ) :
    afterInsert (some k) q pos e = (q.take pos ++ e :: q.drop pos).take k := by
  have hl : (q.take pos ++ e :: q.drop pos).length = q.length + 1 := by
    simp; omega
  unfold afterInsert
  simp only [sizeOf?, Option.getD_some]
  by_cases h1 : pos < k
  · rw [if_pos (Or.inr h1)]
    by_cases h2 : (q.take pos ++ e :: q.drop pos).length > k
    · rw [if_pos ⟨by omega, h2⟩, List.dropLast_eq_take]
      congr 1
      omega
    · rw [if_neg (fun h => h2 h.2)]
      exact (List.take_of_length_le (Nat.le_of_not_lt h2)).symm
  · rw [if_neg (by omega)]
    have hp : pos = q.length := by omega
    have hk' : k = q.length := by omega
    rw [hp, List.take_length, List.drop_length, hk', List.take_left]

omit [LinearOrder δ] in
theorem afterInsert_unbounded (size : Option Nat) (hz : sizeOf? size = 0) (q : List (Entry ι δ))
    (pos : Nat) (e : Entry ι δ) :
    afterInsert size q pos e = q.take pos ++ e :: q.drop pos := by
  unfold afterInsert
  simp [hz]

theorem take_orderedInsert_take (p : δ) : ∀ (k : Nat) (L : List δ),
    (List.orderedInsert (· ≤ ·) p (L.take k)).take k = (List.orderedInsert (· ≤ ·) p L).take k := by
  intro k L
  induction L generalizing k with
  | nil => simp
  | cons a l ih =>
    cases k with
    | zero => simp
    | succ k =>
      simp only [List.take_succ_cons, List.orderedInsert]
      by_cases h : p ≤ a
      · simp only [h, if_true, List.take_succ_cons]
        congr 1
        cases k with
        | zero => simp
        | succ j => simp [List.take_take]
      · simp only [h, if_false, List.take_succ_cons]
        rw [ih]

theorem map_priority_spliced (q : List (Entry ι δ)) (hs : SortedQ q) (pos : Nat)
    (e : Entry ι δ) (h4 : ∀ a ∈ q.take pos, a.priority ≤ e.priority)
    (h5 : ∀ a ∈ q.drop pos, e.priority ≤ a.priority) :
    (q.take pos ++ e :: q.drop pos).map Entry.priority
      = List.orderedInsert (· ≤ ·) e.priority (q.map Entry.priority) := by
  have hsp := sortedQ_spliced q hs pos e h4 h5
  have hs' : (q.map Entry.priority).Sorted (· ≤ ·) := List.pairwise_map.2 hs
  apply List.eq_of_perm_of_sorted (r := (· ≤ ·))
  · refine List.Perm.trans ?_ (List.perm_orderedInsert _ _ _).symm
    have : (q.take pos ++ e :: q.drop pos).Perm (e :: q) := by
      refine List.perm_middle.trans ?_
      rw [List.take_append_drop]
    exact (this.map Entry.priority)
  · exact List.pairwise_map.2 hsp
  · exact hs'.orderedInsert _ _

theorem insert_bounded (k : Nat) (hk : 1 ≤ k) (q : List (Entry ι δ)) (hs : SortedQ q)
    (hlen : q.length ≤ k) (d : ι) (p : δ) :
    ∃ (pos : Nat) (q' : List (Entry ι δ)) (ret : Option δ),
      PriorityQueue.insert (some k) q d p = .ok (q', ret) ∧
      pos ≤ q.length ∧ q' = (q.take pos ++ ⟨d, p⟩ :: q.drop pos).take k ∧
      SortedQ (q.take pos ++ ⟨d, p⟩ :: q.drop pos) ∧
      SortedQ q' ∧ q'.length = min k (q.length + 1) ∧
      q'.map Entry.priority = (List.orderedInsert (· ≤ ·) p (q.map Entry.priority)).take k ∧
      ret = (if q'.length = k then q'.getLast?.map Entry.priority else none) := by
  obtain ⟨idx, pos, _, _, h3, h4, h5, h6⟩ := insert_spec (some k) q hs d p
  have hq' := afterInsert_bounded k hk q hlen pos h3 ⟨d, p⟩
  have hsp := sortedQ_spliced q hs pos ⟨d, p⟩ h4 h5
  refine ⟨pos, _, _, h6, h3, hq', hsp, ?_, ?_, ?_, ?_⟩
  · rw [hq']
    exact List.Pairwise.sublist (List.take_sublist _ _) hsp
  · rw [hq']
    simp
    omega
  · rw [hq', List.map_take, map_priority_spliced q hs pos ⟨d, p⟩ h4 h5]
  · have : sizeOf? (some k) ≠ 0 := by simp [sizeOf?]; omega
    simp [sizeOf?] at this ⊢
    simp [this]

theorem insertAll_append (size : Option Nat) (xs ys : List (ι × δ)) :
    ∀ (q q1 : List (Entry ι δ)), PriorityQueue.insertAll size q xs = .ok q1 →
      PriorityQueue.insertAll size q (xs ++ ys) = PriorityQueue.insertAll size q1 ys := by
  induction xs with
  | nil =>
    intro q q1 h
    simp only [PriorityQueue.insertAll] at h
    cases h
    rfl
  | cons x xs ih =>
    intro q q1 h
    obtain ⟨d, p⟩ := x
    simp only [PriorityQueue.insertAll, List.cons_append] at h ⊢
    cases hins : PriorityQueue.insert size q d p with
    | error e => rw [hins] at h; cases h
    | ok r =>
      obtain ⟨q2, ret⟩ := r
      rw [hins] at h
      simp only at h ⊢
      exact ih q2 q1 h

theorem insertAll_bounded (k : Nat) (hk : 1 ≤ k) (xs : List (ι × δ)) :
    ∃ q, PriorityQueue.insertAll (some k) [] xs = .ok q ∧ SortedQ q ∧
      q.map Entry.priority = ((xs.map Prod.snd).insertionSort (· ≤ ·)).take k ∧
      q.length = min k xs.length := by
  induction xs using List.reverseRecOn with
  | nil => exact ⟨[], rfl, List.Pairwise.nil, by simp, by simp⟩
  | append_singleton xs x ih =>
    obtain ⟨q, hq, hs, hp, hl⟩ := ih
    obtain ⟨d, p⟩ := x
    obtain ⟨pos, q', ret, hins, _, _, _, hs', hl', hp', _⟩ :=
      insert_bounded k hk q hs (by omega) d p
    refine ⟨q', ?_, hs', ?_, ?_⟩
    · rw [insertAll_append (some k) xs [(d, p)] [] q hq]
      simp [PriorityQueue.insertAll, hins]
    · rw [hp', hp, take_orderedInsert_take]
      congr 1
      apply List.eq_of_perm_of_sorted (r := (· ≤ ·))
      · refine (List.perm_orderedInsert _ _ _).trans ?_
        refine List.Perm.trans ?_ (List.perm_insertionSort _ _).symm
        simp only [List.map_append, List.map_cons, List.map_nil]
        refine List.Perm.trans ?_ List.perm_middle.symm
        simp
        exact List.perm_insertionSort _ _
      · exact (List.sorted_insertionSort _ _).orderedInsert _ _
      · exact List.sorted_insertionSort _ _
    · rw [hl', hl]
      simp
      omega

end PQLemmas

/-! ## Priority queue: the specification -/

section PQClaims

variable {ι δ : Type} [LinearOrder δ]

/-- C5: for a cap `k ≥ 1` and any sequence of `insert` calls on a fresh queue,
after each prefix of `n` insertions every call has returned, the priorities
held are the first `k` entries of the ascending-sorted list of the priorities
inserted so far (the `min k n` smallest), the array is sorted by ascending
priority, and its length is `min k n`, never more than `k`. -/
theorem priorityQueue_bounded (k : Nat) (hk : 1 ≤ k) (xs : List (ι × δ)) (n : Nat) :
    ∃ q, PriorityQueue.insertAll (some k) [] (xs.take n) = .ok q ∧
      q.map Entry.priority = (((xs.take n).map Prod.snd).insertionSort (· ≤ ·)).take k ∧
      (q.map Entry.priority).Sorted (· ≤ ·) ∧
      q.length = min k (min n xs.length) ∧ q.length ≤ k := by
  obtain ⟨q, h1, h2, h3, h4⟩ := insertAll_bounded k hk (xs.take n)
  refine ⟨q, h1, h3, List.pairwise_map.2 h2, ?_, ?_⟩
  · rw [h4, List.length_take]
  · rw [h4]; exact Nat.min_le_left _ _

/-- Witness of C5: a queue of cap 2 after the three insertions of priorities 5, 3, 4. -/
theorem priorityQueue_bounded_witness :
    ∃ q, PriorityQueue.insertAll (some 2) [] (([(0, 5), (1, 3), (2, 4)] : List (Nat × Nat)).take 3)
        = .ok q ∧
      q.map Entry.priority
        = (((([(0, 5), (1, 3), (2, 4)] : List (Nat × Nat)).take 3).map Prod.snd).insertionSort
            (· ≤ ·)).take 2 ∧
      (q.map Entry.priority).Sorted (· ≤ ·) ∧
      q.length = min 2 (min 3 ([(0, 5), (1, 3), (2, 4)] : List (Nat × Nat)).length) ∧
      q.length ≤ 2 :=
  priorityQueue_bounded 2 (by decide) [(0, 5), (1, 3), (2, 4)] 3

end PQClaims

/-! ## Tree builder: auxiliary facts -/

section BuildLemmas
variable {E δ : Type}

variable [LinearOrder δ] [Inhabited E]

theorem distLoop_items (S : List E) (distance : E → E → δ) (vp : E) :
    ∀ (list : List (Item δ)) (dmin : Option δ) (dmax : δ),
      (distLoop S distance vp list dmin dmax).1
        = list.map (fun it => { i := it.i, dist := some (distance vp (elemAt S it.i)) }) := by
  intro list
  induction list with
  | nil => intro dmin dmax; rfl
  | cons item rest ih =>
    intro dmin dmax
    simp only [distLoop, List.map_cons]
    rw [ih]

theorem distLoop_dmax (S : List E) (distance : E → E → δ) (vp : E) :
    ∀ (list : List (Item δ)) (dmin : Option δ) (dmax : δ),
      dmax ≤ (distLoop S distance vp list dmin dmax).2.2 ∧
      ∀ it ∈ list, distance vp (elemAt S it.i) ≤ (distLoop S distance vp list dmin dmax).2.2 := by
  intro list
  induction list with
  | nil => intro dmin dmax; simp [distLoop]
  | cons item rest ih =>
    intro dmin dmax
    simp only [distLoop, List.mem_cons]
    constructor
    · refine le_trans ?_ (ih _ _).1
      split_ifs with h
      · exact le_of_lt h
      · exact le_refl _
    · intro it hit
      rcases hit with h | h
      · subst h
        refine le_trans ?_ (ih _ _).1
        split_ifs with h
        · exact le_refl _
        · exact not_lt.1 h
      · exact (ih _ _).2 it h

theorem distLoop_dmin (S : List E) (distance : E → E → δ) (vp : E) :
    ∀ (list : List (Item δ)) (dmin : Option δ) (dmax : δ),
      (list ≠ [] ∨ dmin ≠ none) →
      ∃ a, (distLoop S distance vp list dmin dmax).2.1 = some a ∧
        (∀ a0, dmin = some a0 → a ≤ a0) ∧
        ∀ it ∈ list, a ≤ distance vp (elemAt S it.i) := by
  intro list
  induction list with
  | nil =>
    intro dmin dmax h
    cases dmin with
    | none => simp at h
    | some a0 => exact ⟨a0, rfl, by intro b hb; cases hb; exact le_refl _, by simp⟩
  | cons item rest ih =>
    intro dmin dmax _
    simp only [distLoop, List.mem_cons]
    cases dmin with
    | none =>
      obtain ⟨a, h1, h2, h3⟩ := ih (some (distance vp (elemAt S item.i)))
        (if dmax < distance vp (elemAt S item.i) then distance vp (elemAt S item.i) else dmax)
        (Or.inr (by simp))
      refine ⟨a, h1, by simp, ?_⟩
      intro it hit
      rcases hit with h | h
      · subst h; exact h2 _ rfl
      · exact h3 it h
    | some a0 =>
      by_cases hgt : a0 > distance vp (elemAt S item.i)
      · simp only [hgt, if_true]
        obtain ⟨a, h1, h2, h3⟩ := ih (some (distance vp (elemAt S item.i)))
          (if dmax < distance vp (elemAt S item.i) then distance vp (elemAt S item.i) else dmax)
          (Or.inr (by simp))
        refine ⟨a, h1, ?_, ?_⟩
        · intro b hb
          cases hb
          exact le_trans (h2 _ rfl) (le_of_lt hgt)
        · intro it hit
          rcases hit with h | h
          · subst h; exact h2 _ rfl
          · exact h3 it h
      · simp only [hgt, if_false]
        obtain ⟨a, h1, h2, h3⟩ := ih (some a0)
          (if dmax < distance vp (elemAt S item.i) then distance vp (elemAt S item.i) else dmax)
          (Or.inr (by simp))
        refine ⟨a, h1, ?_, ?_⟩
        · intro b hb
          cases hb
          exact h2 _ rfl
        · intro it hit
          rcases hit with h | h
          · subst h; exact le_trans (h2 _ rfl) (not_lt.1 hgt)
          · exact h3 it h

theorem distanceComparator_irrefl (a : Item δ) : distanceComparator a a = false := by
  unfold distanceComparator
  cases a.dist <;> simp

theorem distanceComparator_trans (a b c : Item δ) (h1 : distanceComparator a b = true)
    (h2 : distanceComparator b c = true) : distanceComparator a c = true := by
  unfold distanceComparator at *
  cases ha : a.dist <;> cases hb : b.dist <;> cases hc : c.dist <;> simp_all
  exact lt_trans h1 h2

omit [LinearOrder δ] [Inhabited E] in
theorem select_spec {α : Type} (comp : α → α → Bool) (hirr : ∀ a, comp a a = false)
    (htrans : ∀ a b c, comp a b = true → comp b c = true → comp a c = true)
    (list : List α) (k : Nat) (hk : k < list.length) :
    ∃ A v B, select comp list (k : Int) = .ok (v, A ++ v :: B) ∧
      (A ++ v :: B).Perm list ∧ A.length = k ∧
      (∀ a ∈ A, comp v a = false) ∧ (∀ b ∈ B, comp b v = false) := by
  unfold select
  have hg : ¬ ((k : Int) < 0 ∨ (k : Int) ≥ (list.length : Int)) := by omega
  rw [if_neg hg]
  obtain ⟨A, v, B, h1, h2, h3, h4, h5⟩ := nth_element_spec comp hirr htrans [] list []
    0 (list.length - 1) ((k : Int) + 1) rfl (by simp; omega) (by omega) (by omega)
  simp only [List.nil_append, List.append_nil] at h1
  exact ⟨A, v, B, h1, h2, by omega, h4, h5⟩

theorem recurseVPTree_spec [Zero δ] (S : List E) (distance : E → E → δ) (nb : Nat)
    (rand : Nat → Nat) :
    ∀ (fuel c : Nat) (list : List (Item δ)), list.length < fuel →
      ∃ T c', recurseVPTree S distance nb rand fuel c list = .ok (T, c') ∧
        T.indices.Perm (list.map Item.i) ∧ Tree.WF S distance T := by
  intro fuel
  induction fuel with
  | zero => intro c list h; omega
  | succ fuel ih =>
    intro c list hlen
    cases list with
    | nil => exact ⟨.null, c, by simp [recurseVPTree], by simp [Tree.indices], by simp [Tree.WF]⟩
    | cons first others =>
      by_cases hb : nb > 0 ∧ (first :: others).length ≤ nb
      · refine ⟨.bucket first.i (others.map Item.i), c, ?_, by simp [Tree.indices],
          by simp [Tree.WF]⟩
        simp only [recurseVPTree, hb, and_self, if_true]
      · have hvp : rand c % (first :: others).length < (first :: others).length :=
          Nat.mod_lt _ (by simp)
        obtain ⟨X, node, Y, hsplit, hX⟩ := exists_split_at (first :: others) _ hvp
        have hread : (first :: others)[rand c % (first :: others).length]? = some node := by
          rw [← hX]
          conv => lhs; arg 1; rw [hsplit]
          exact getElem?_append_cons_length X node Y
        have hlist1 : (first :: others).take (rand c % (first :: others).length) ++
            (first :: others).drop (rand c % (first :: others).length + 1) = X ++ Y := by
          rw [← hX]
          conv => lhs; arg 1; arg 2; rw [hsplit]
          conv => lhs; arg 2; arg 2; rw [hsplit]
          rw [List.take_left]
          have : X ++ node :: Y = (X ++ [node]) ++ Y := by simp
          rw [this, List.drop_left' (by simp)]
        have hlenXY : (X ++ Y).length = others.length := by
          have := congrArg List.length hsplit
          simp at this ⊢
          omega
        have hpermXY : (node.i :: (X ++ Y).map Item.i).Perm ((first :: others).map Item.i) := by
          rw [hsplit]
          simp only [List.map_append, List.map_cons]
          exact List.perm_middle.symm
        have hl1 : (first :: others).length = others.length + 1 := rfl
        unfold recurseVPTree
        simp only [hb, if_false, selectVPIndex, hread, hlist1]
        by_cases h0 : (first :: others).length - 1 = 0
        · simp only [h0, if_true]
          refine ⟨_, _, rfl, ?_, by simp [Tree.WF]⟩
          have hnil : X ++ Y = [] := by
            apply List.eq_nil_of_length_eq_zero
            rw [hlenXY]
            rw [hl1] at h0
            omega
          rw [hnil] at hpermXY
          simpa [Tree.indices] using hpermXY
        · simp only [h0, if_false]
          have hkl : ((first :: others).length - 1) / 2
              < (distLoop S distance (elemAt S node.i) (X ++ Y) none 0).1.length := by
            rw [distLoop_items]
            simp only [List.length_map, hlenXY]
            rw [hl1] at h0 ⊢
            omega
          obtain ⟨A, v, B, hsel, hperm, hA, hAl, hBr⟩ := select_spec distanceComparator
            distanceComparator_irrefl distanceComparator_trans _ _ hkl
          rw [hsel]
          simp only
          have hitems := distLoop_items S distance (elemAt S node.i) (X ++ Y) none 0
          have hmem : ∀ it ∈ A ++ v :: B,
              it.dist = some (distance (elemAt S node.i) (elemAt S it.i)) := by
            intro it hit
            have := hperm.subset hit
            rw [hitems] at this
            obtain ⟨it0, _, h2⟩ := List.mem_map.1 this
            rw [← h2]
          have hv := hmem v (by simp)
          rw [hv]
          simp only
          have htake : (A ++ v :: B).take (((first :: others).length - 1) / 2) = A := by
            rw [← hA, List.take_left]
          have hdrop : (A ++ v :: B).drop (((first :: others).length - 1) / 2) = v :: B := by
            rw [← hA, List.drop_left]
          rw [htake, hdrop]
          have hAB : (A ++ v :: B).length = others.length := by
            rw [hperm.length_eq, hitems]
            simp only [List.length_map, hlenXY]
          have hABl : A.length + (B.length + 1) = others.length := by
            simpa using hAB
          simp only [List.length_cons] at hlen
          obtain ⟨L, c1, hL, hLp, hLw⟩ := ih (c + 1) A (by omega)
          rw [hL]
          simp only
          obtain ⟨R, c2, hR, hRp, hRw⟩ := ih c1 (v :: B) (by simp; omega)
          rw [hR]
          simp only
          have hidx : (L.indices ++ R.indices).Perm ((X ++ Y).map Item.i) := by
            refine (List.Perm.append hLp hRp).trans ?_
            rw [← List.map_append]
            have := hperm.map Item.i
            rw [hitems, List.map_map] at this
            exact this
          have hdist : ∀ j ∈ L.indices ++ R.indices, ∃ it ∈ X ++ Y, it.i = j := by
            intro j hj
            have := hidx.subset hj
            obtain ⟨it, h1, h2⟩ := List.mem_map.1 this
            exact ⟨it, h1, h2⟩
          refine ⟨_, _, rfl, ?_, ?_⟩
          · simp only [Tree.indices]
            exact (List.Perm.cons _ hidx).trans hpermXY
          · simp only [Tree.WF]
            refine ⟨?_, ?_, ?_, ?_, hLw, hRw⟩
            · obtain ⟨a, ha1, _, ha3⟩ := distLoop_dmin S distance (elemAt S node.i) (X ++ Y)
                none 0 (Or.inl (by
                  intro h
                  rw [h] at hlenXY
                  rw [hl1] at h0
                  simp at hlenXY
                  omega))
              refine ⟨a, ha1, ?_⟩
              intro j hj
              obtain ⟨it, h1, h2⟩ := hdist j hj
              rw [← h2]
              exact ha3 it h1
            · intro j hj
              obtain ⟨it, h1, h2⟩ := hdist j hj
              rw [← h2]
              exact (distLoop_dmax S distance (elemAt S node.i) (X ++ Y) none 0).2 it h1
            · intro j hj
              obtain ⟨a, ha1, ha2⟩ := List.mem_map.1 (hLp.subset hj)
              have h1 := hAl a ha1
              have h2 := hmem a (by simp [ha1])
              unfold distanceComparator at h1
              rw [hv, h2] at h1
              simp only [decide_eq_false_iff_not, not_lt] at h1
              rw [← ha2]
              exact h1
            · intro j hj
              obtain ⟨b, hb1, hb2⟩ := List.mem_map.1 (hRp.subset hj)
              rcases List.mem_cons.1 hb1 with hb3 | hb3
              · subst hb3
                rw [← hb2]
              · have h1 := hBr b hb3
                have h2 := hmem b (by simp [hb3])
                unfold distanceComparator at h1
                rw [hv, h2] at h1
                simp only [decide_eq_false_iff_not, not_lt] at h1
                rw [← hb2]
                exact h1

theorem buildVPTree_spec [Zero δ] (S : List E) (distance : E → E → δ) (nb : Nat)
    (rand : Nat → Nat) :
    ∃ T, buildVPTree S distance nb rand = .ok T ∧ T.S = S ∧ T.distance = distance ∧
      T.tree.indices.Perm (List.range S.length) ∧ Tree.WF S distance T.tree := by
  obtain ⟨T, c', h1, h2, h3⟩ := recurseVPTree_spec S distance nb rand
    (((List.range S.length).map (fun i => ({ i := i, dist := none } : Item δ))).length + 1) 0
    ((List.range S.length).map (fun i => ({ i := i, dist := none } : Item δ))) (by omega)
  refine ⟨{ S := S, distance := distance, tree := T }, ?_, rfl, rfl, ?_, h3⟩
  · unfold buildVPTree
    simp only [h1]
  · refine h2.trans ?_
    simp [List.map_map, Function.comp_def]

theorem medianSplit_of_wf (S : List E) (distance : E → E → δ) :
    ∀ T : Tree δ, Tree.WF S distance T → Tree.MedianSplit S distance T := by
  intro T
  induction T with
  | null => intro _; simp [Tree.MedianSplit]
  | bucket i rest => intro _; simp [Tree.MedianSplit]
  | vp i => intro _; simp [Tree.MedianSplit]
  | node i m M mu L R ihL ihR =>
    intro h
    simp only [Tree.WF] at h
    obtain ⟨_, _, h3, h4, h5, h6⟩ := h
    exact ⟨h3, h4, ihL h5, ihR h6⟩

end BuildLemmas

/-! ## Tree builder: the specification -/

section BuildClaims

variable {E δ : Type} [LinearOrder δ] [Zero δ] [Inhabited E]

/-- C4: for every dataset, bucket size, distance function and sequence of
vantage-point draws, `buildVPTree` returns a tree, and the indices stored in
it (the `i` of every vantage point and the entries of every bucket) are a
permutation of `0 .. N-1`: each index occurs exactly once. -/
theorem buildVPTree_coverage (S : List E) (distance : E → E → δ) (nb : Nat)
    (rand : Nat → Nat) :
    ∃ T, buildVPTree S distance nb rand = .ok T ∧
      T.tree.indices.Perm (List.range S.length) := by
  obtain ⟨T, h1, _, _, h2, _⟩ := buildVPTree_spec S distance nb rand
  exact ⟨T, h1, h2⟩

/-- C6, as the code has it: for every dataset, bucket size, distance function
and sequence of draws, `buildVPTree` returns a tree in which, below every node
with bounds, every index stored in `L` is at distance `≤ mu` from the vantage
point and every index stored in `R` is at distance `≥ mu` (the element whose
distance is `mu` is itself stored in `R`). -/
theorem buildVPTree_medianSplit (S : List E) (distance : E → E → δ) (nb : Nat)
    (rand : Nat → Nat) :
    ∃ T, buildVPTree S distance nb rand = .ok T ∧
      Tree.MedianSplit T.S T.distance T.tree := by
  obtain ⟨T, h1, h2, h3, _, h4⟩ := buildVPTree_spec S distance nb rand
  refine ⟨T, h1, ?_⟩
  rw [h2, h3]
  exact medianSplit_of_wf S distance T.tree h4

/-- C6 as stated fails: on the two points `0, 1` with `|a - b|` the tree is
`{i:0, m:1, M:1, mu:1, R:{i:1}}`, and index `1`, stored in `R`, is at
distance `1 = mu` from the vantage point, not `> mu`. -/
theorem buildVPTree_medianSplit_strict_fails :
    ∃ T, buildVPTree ([0, 1] : List Int) (fun a b => |a - b|) 0 (fun _ => 0) = .ok T ∧
      T.tree = .node 0 (some 1) 1 1 .null (.vp 1) ∧
      ¬ Tree.MedianSplitStrict T.S T.distance T.tree :=
  ⟨{ S := [0, 1], distance := fun a b => |a - b|, tree := .node 0 (some 1) 1 1 .null (.vp 1) },
    rfl, rfl, by simp [Tree.MedianSplitStrict, Tree.indices, elemAt]⟩

end BuildClaims

/-! ## Search: auxiliary facts -/

section SearchLemmas
variable {E δ : Type}

theorem afterInsert_sublist {ι : Type} (size : Option Nat) (q : List (Entry ι δ)) (pos : Nat)
    (e : Entry ι δ) :
    (afterInsert size q pos e).Sublist (q.take pos ++ e :: q.drop pos) := by
  unfold afterInsert
  split_ifs
  · exact List.dropLast_sublist _
  · exact List.Sublist.refl _
  · have : q.Sublist (q.take pos ++ e :: q.drop pos) := by
      conv => lhs; rw [← List.take_append_drop pos q]
      exact List.Sublist.append_left (List.sublist_cons_self _ _) _
    exact this

theorem insert_general {ι : Type} [LinearOrder δ] (size : Option Nat) (q : List (Entry ι δ))
    (hs : SortedQ q) (d : ι) (p : δ) :
    ∃ (pos : Nat) (q' : List (Entry ι δ)) (ret : Option δ),
      PriorityQueue.insert size q d p = .ok (q', ret) ∧ pos ≤ q.length ∧
      q' = afterInsert size q pos ⟨d, p⟩ ∧
      SortedQ (q.take pos ++ ⟨d, p⟩ :: q.drop pos) ∧
      q'.Sublist (q.take pos ++ ⟨d, p⟩ :: q.drop pos) ∧ SortedQ q' ∧
      (∀ e ∈ q', e = ⟨d, p⟩ ∨ e ∈ q) ∧
      (ret = if sizeOf? size ≠ 0 ∧ q'.length = sizeOf? size then
          q'.getLast?.map Entry.priority else none) := by
  obtain ⟨idx, pos, _, _, h3, h4, h5, h6⟩ := insert_spec size q hs d p
  have hsp := sortedQ_spliced q hs pos ⟨d, p⟩ h4 h5
  have hsub := afterInsert_sublist size q pos ⟨d, p⟩
  refine ⟨pos, _, _, h6, h3, rfl, hsp, hsub, List.Pairwise.sublist hsub hsp, ?_, rfl⟩
  intro e he
  have := hsub.subset he
  rcases List.mem_append.1 this with h | h
  · exact Or.inr (List.mem_of_mem_take h)
  · rcases List.mem_cons.1 h with h | h
    · exact Or.inl h
    · exact Or.inr (List.mem_of_mem_drop h)

variable [LinearOrderedAddCommGroup δ] [Inhabited E]

theorem bucketLoop_preserves (S : List E) (distance : E → E → δ) (q : E) (n : Option Nat)
    (filterFn : Option (E → Bool)) (P : List (Entry Nat δ) → Option δ → Prop)
    (hP : ∀ st : SearchState δ, P st.W st.tau → ∀ id el d,
      ∃ st', consider n filterFn id el d st = .ok st' ∧ P st'.W st'.tau) :
    ∀ (ids : List Nat) (st : SearchState δ), P st.W st.tau →
      ∃ st', bucketLoop S distance q n filterFn ids st = .ok st' ∧ P st'.W st'.tau := by
  intro ids
  induction ids with
  | nil => intro st h; exact ⟨st, rfl, h⟩
  | cons id rest ih =>
    intro st h
    obtain ⟨st1, h1, h2⟩ := hP { st with comparisons := st.comparisons + 1 } h id
      (elemAt S id) (distance q (elemAt S id))
    obtain ⟨st2, h3, h4⟩ := ih st1 h2
    refine ⟨st2, ?_, h4⟩
    simp only [bucketLoop, h1, h3]

theorem doSearch_preserves [Arith δ] (S : List E) (distance : E → E → δ) (q : E) (n : Option Nat)
    (filterFn : Option (E → Bool)) (P : List (Entry Nat δ) → Option δ → Prop)
    (hP : ∀ st : SearchState δ, P st.W st.tau → ∀ id el d,
      ∃ st', consider n filterFn id el d st = .ok st' ∧ P st'.W st'.tau) :
    ∀ (T : Tree δ) (st : SearchState δ), P st.W st.tau →
      ∃ st', doSearch S distance q n filterFn T st = .ok st' ∧ P st'.W st'.tau := by
  intro T
  induction T with
  | null => intro st h; exact ⟨st, rfl, h⟩
  | bucket i rest =>
    intro st h
    exact bucketLoop_preserves S distance q n filterFn P hP (i :: rest) st h
  | vp i =>
    intro st h
    exact hP { st with comparisons := st.comparisons + 1 } h i _ _
  | node i m M mu L R ihL ihR =>
    intro st h
    obtain ⟨st1, h1, h2⟩ := hP { st with comparisons := st.comparisons + 1 } h i
      (elemAt S i) (distance q (elemAt S i))
    simp only [doSearch, h1]
    by_cases hlt : distance q (elemAt S i) < mu
    · simp only [hlt, if_true]
      have hA : ∃ st2, (if L.truthy = true ∧ mMinusTauLt m st1.tau (distance q (elemAt S i)) = true
          then doSearch S distance q n filterFn L st1 else .ok st1) = .ok st2 ∧
          P st2.W st2.tau := by
        split_ifs
        · exact ihL st1 h2
        · exact ⟨st1, rfl, h2⟩
      obtain ⟨st2, h3, h4⟩ := hA
      rw [h3]
      simp only
      split_ifs
      · exact ihR st2 h4
      · exact ⟨st2, rfl, h4⟩
    · simp only [hlt, if_false]
      have hA : ∃ st2, (if R.truthy = true ∧ ltPlusTau (distance q (elemAt S i)) M st1.tau = true
          then doSearch S distance q n filterFn R st1 else .ok st1) = .ok st2 ∧
          P st2.W st2.tau := by
        split_ifs
        · exact ihR st1 h2
        · exact ⟨st1, rfl, h2⟩
      obtain ⟨st2, h3, h4⟩ := hA
      rw [h3]
      simp only
      split_ifs
      · exact ihL st2 h4
      · exact ⟨st2, rfl, h4⟩

omit [Inhabited E] in
theorem consider_sorted_bounded (k : Nat) (hk : 1 ≤ k) (filterFn : Option (E → Bool))
    (st : SearchState δ) (h : SortedQ st.W ∧ st.W.length ≤ k) (id : Nat) (el : E) (d : δ) :
    ∃ st', consider (some k) filterFn id el d st = .ok st' ∧
      (SortedQ st'.W ∧ st'.W.length ≤ k) := by
  unfold consider
  split_ifs
  · obtain ⟨pos, q', ret, h1, _, _, _, h5, h6, _, _⟩ := insert_bounded k hk st.W h.1 h.2 id d
    rw [h1]
    refine ⟨_, rfl, h5, ?_⟩
    simp only [h6]
    exact Nat.min_le_left _ _
  · exact ⟨st, rfl, h⟩
  · exact ⟨st, rfl, h⟩

omit [Inhabited E] in
theorem consider_below (n : Option Nat) (tau0 : Option δ) (filterFn : Option (E → Bool))
    (st : SearchState δ)
    (h : SortedQ st.W ∧ (∀ e ∈ st.W, ltTau e.priority tau0 = true) ∧
      (∀ x, ltTau x st.tau = true → ltTau x tau0 = true))
    (id : Nat) (el : E) (d : δ) :
    ∃ st', consider n filterFn id el d st = .ok st' ∧
      (SortedQ st'.W ∧ (∀ e ∈ st'.W, ltTau e.priority tau0 = true) ∧
        (∀ x, ltTau x st'.tau = true → ltTau x tau0 = true)) := by
  obtain ⟨hs, hW, htau⟩ := h
  unfold consider
  split_ifs with h1 h2
  · obtain ⟨pos, q', ret, hins, _, _, _, _, hs', hmem, hret⟩ := insert_general n st.W hs id d
    rw [hins]
    have hW' : ∀ e ∈ q', ltTau e.priority tau0 = true := by
      intro e he
      rcases hmem e he with h | h
      · subst h; exact htau d h1
      · exact hW e h
    refine ⟨_, rfl, hs', hW', ?_⟩
    simp only
    intro x hx
    cases hr : ret with
    | none => rw [hr] at hx; exact htau x hx
    | some r =>
      rw [hr] at hx
      simp only [orTau] at hx
      split_ifs at hx with h0
      · exact htau x hx
      · have hr' : q'.getLast?.map Entry.priority = some r := by
          rw [hr] at hret
          split_ifs at hret
          · exact hret.symm
        obtain ⟨e, he1, he2⟩ := Option.map_eq_some'.1 hr'
        have hlast := hW' e (List.mem_of_getLast?_eq_some he1)
        rw [he2] at hlast
        cases tau0 with
        | none => rfl
        | some t =>
          simp only [ltTau, decide_eq_true_eq] at hx hlast ⊢
          exact lt_trans hx hlast
  · exact ⟨st, rfl, hs, hW, htau⟩
  · exact ⟨st, rfl, hs, hW, htau⟩

end SearchLemmas

/-! ## Search: the specification, part one -/

section SearchClaims

variable {E δ : Type} [LinearOrderedAddCommGroup δ] [Inhabited E]

/-- C7: for every tree, dataset, query, distance function, filter, maximum
distance and limit `k ≥ 1`, `search` returns a list that is ordered by
non-decreasing distance `d` and has length `≤ k`. -/
theorem search_sorted_bounded [Arith δ] (T : VPTree E δ) (q : E) (k : Nat) (hk : 1 ≤ k)
    (maxDistance : Option δ) (queryDistFn : Option (E → E → δ))
    (filterFn : Option (E → Bool)) :
    ∃ res cmp, searchVPTree T q (some k) maxDistance queryDistFn filterFn = .ok (res, cmp) ∧
      res.Pairwise (fun a b => a.d ≤ b.d) ∧ res.length ≤ k := by
  obtain ⟨st, h1, h2, h3⟩ := doSearch_preserves T.S
    (orDistance queryDistFn T.distance) q (some k) filterFn
    (fun W _ => SortedQ W ∧ W.length ≤ k)
    (fun st h id el d => consider_sorted_bounded k hk filterFn st h id el d)
    T.tree { W := [], tau := orInfinity maxDistance, comparisons := 0 }
    ⟨List.Pairwise.nil, Nat.zero_le _⟩
  refine ⟨PriorityQueue.list st.W, st.comparisons, ?_, ?_, ?_⟩
  · unfold searchVPTree
    simp only [h1]
  · unfold PriorityQueue.list
    exact List.pairwise_map.2 h2
  · simpa [PriorityQueue.list] using h3

/-- Witness of C7 on the tree `{i:0, m:1, M:1, mu:1, R:{i:1}}` over the points `0, 1`. -/
theorem search_sorted_bounded_witness :
    ∃ res cmp, searchVPTree
        ({ S := [0, 1], distance := fun a b => |a - b|,
           tree := .node 0 (some 1) 1 1 .null (.vp 1) } : VPTree Int Int)
        3 (some 1) none none none = .ok (res, cmp) ∧
      res.Pairwise (fun a b => a.d ≤ b.d) ∧ res.length ≤ 1 :=
  search_sorted_bounded _ 3 1 (by decide) none none none

/-- C10, amended: for every tree, dataset, query, distance function, filter,
limit (absent, zero or positive) and every `maxDistance` supplied as a
positive number, every result `(i, d)` returned by `search` has
`d < maxDistance`. -/
theorem search_within_maxDistance [Arith δ] (T : VPTree E δ) (q : E) (limit : Option Nat)
    (maxDistance : δ) (hpos : 0 < maxDistance) (queryDistFn : Option (E → E → δ))
    (filterFn : Option (E → Bool)) :
    ∃ res cmp, searchVPTree T q limit (some maxDistance) queryDistFn filterFn
        = .ok (res, cmp) ∧
      ∀ r ∈ res, r.d < maxDistance := by
  have hne : maxDistance ≠ 0 := ne_of_gt hpos
  obtain ⟨st, h1, _, h3, _⟩ := doSearch_preserves T.S
    (orDistance queryDistFn T.distance) q limit filterFn
    (fun W tau => SortedQ W ∧ (∀ e ∈ W, ltTau e.priority (some maxDistance) = true) ∧
        (∀ x, ltTau x tau = true → ltTau x (some maxDistance) = true))
    (fun st h id el d => consider_below limit (some maxDistance) filterFn st h id el d)
    T.tree { W := [], tau := orInfinity (some maxDistance), comparisons := 0 }
    ⟨List.Pairwise.nil, by simp, by simp [orInfinity, hne]⟩
  refine ⟨PriorityQueue.list st.W, st.comparisons, ?_, ?_⟩
  · unfold searchVPTree
    simp only [h1]
  · intro r hr
    unfold PriorityQueue.list at hr
    obtain ⟨e, he1, he2⟩ := List.mem_map.1 hr
    have := h3 e he1
    rw [← he2]
    simpa [ltTau] using this

/-- Witness of C10 (amended) with `maxDistance = 3`. -/
theorem search_within_maxDistance_witness :
    ∃ res cmp, searchVPTree
        ({ S := [0, 1], distance := fun a b => |a - b|,
           tree := .node 0 (some 1) 1 1 .null (.vp 1) } : VPTree Int Int)
        3 (some 1) (some 3) none none = .ok (res, cmp) ∧
      ∀ r ∈ res, r.d < 3 :=
  search_within_maxDistance _ 3 (some 1) 3 (by decide) none none

/-- C10 as stated fails for `maxDistance = 0`: `0 || Infinity` is `Infinity`,
and the search for `5` in the tree `{i:0}` built over the one point `[0]`
returns the result `(0, 5)`, whose distance `5` is not `< 0`. -/
theorem search_maxDistance_zero_unbounded :
    ∃ T, buildVPTree ([0] : List Int) (fun a b => |a - b|) 0 (fun _ => 0) = .ok T ∧
      T.tree = .vp 0 ∧
      searchVPTree T 5 (some 1) (some 0) none none = .ok ([{ i := 0, d := 5 }], 1) ∧
      ¬ ((5 : Int) < 0) :=
  ⟨{ S := [0], distance := fun a b => |a - b|, tree := .vp 0 }, rfl, rfl, rfl, by decide⟩

/-- The slip in `tau = W.insert(...) || tau` at a worst distance of `0`: over
the two equal points `[3, 3]` the tree is `{i:0, m:0, M:0, mu:0, R:{i:1}}`;
the search for `3` with limit `1` first considers index `0`, which is retained
while `tau` stays `Infinity` (`W.insert` returns `0`, and `0 || tau` is
`tau`); index `1`, considered later at the same distance `0`, then takes its
place, and the result holds index `1` only. -/
theorem search_tie_at_zero_displaces :
    ∃ T, buildVPTree ([3, 3] : List Int) (fun a b => |a - b|) 0 (fun _ => 0) = .ok T ∧
      T.tree = .node 0 (some 0) 0 0 .null (.vp 1) ∧
      consider (some 1) (none : Option (Int → Bool)) 0 3 (0 : Int)
          { W := [], tau := none, comparisons := 1 }
        = .ok { W := [{ data := 0, priority := 0 }], tau := none, comparisons := 1 } ∧
      searchVPTree T 3 (some 1) none none none = .ok ([{ i := 1, d := 0 }], 2) :=
  ⟨{ S := [3, 3], distance := fun a b => |a - b|, tree := .node 0 (some 0) 0 0 .null (.vp 1) },
    rfl, rfl, rfl, rfl⟩

end SearchClaims

/-! ## Search against the brute-force scan: auxiliary facts -/

section BruteForceLemmas
variable {E δ : Type}

theorem sortedQ_le_last {ι : Type} [LinearOrder δ] (q : List (Entry ι δ)) (hs : SortedQ q)
    (e : Entry ι δ) (he : q.getLast? = some e) : ∀ x ∈ q, x.priority ≤ e.priority := by
  obtain ⟨ys, hys⟩ := List.getLast?_eq_some_iff.1 he
  subst hys
  obtain ⟨_, _, h3⟩ := List.pairwise_append.1 hs
  intro x hx
  rcases List.mem_append.1 hx with h | h
  · exact h3 x h e (List.mem_singleton_self _)
  · rw [List.mem_singleton.1 h]

theorem take_sort_cons_skip [LinearOrder δ] (L : List δ) (x : δ) (k : Nat)
    (hlen : ((L.insertionSort (· ≤ ·)).take k).length = k)
    (hle : ∀ w ∈ (L.insertionSort (· ≤ ·)).take k, w ≤ x) :
    ((x :: L).insertionSort (· ≤ ·)).take k = (L.insertionSort (· ≤ ·)).take k := by
  simp only [List.insertionSort]
  rw [← take_orderedInsert_take]
  have hs : ((L.insertionSort (· ≤ ·)).take k).Sorted (· ≤ ·) :=
    List.Pairwise.sublist (List.take_sublist _ _) (List.sorted_insertionSort _ _)
  have : List.orderedInsert (· ≤ ·) x ((L.insertionSort (· ≤ ·)).take k)
      = (L.insertionSort (· ≤ ·)).take k ++ [x] := by
    apply List.eq_of_perm_of_sorted (r := (· ≤ ·))
    · refine (List.perm_orderedInsert _ _ _).trans ?_
      exact (List.perm_append_singleton _ _).symm
    · exact hs.orderedInsert _ _
    · refine List.pairwise_append.2 ⟨hs, List.pairwise_singleton _ _, ?_⟩
      intro a ha b hb
      rw [List.mem_singleton.1 hb]
      exact hle a ha
  rw [this, List.take_left' hlen]

variable [LinearOrderedAddCommGroup δ] [Inhabited E]

theorem candidates_cons (S : List E) (distance : E → E → δ) (q : E) (tau0 : Option δ)
    (filterFn : Option (E → Bool)) (j : Nat) (P : List Nat) :
    candidates S distance q tau0 filterFn (j :: P)
      = if (ltTau (distance q (elemAt S j)) tau0 && passes filterFn (elemAt S j)) = true then
          distance q (elemAt S j) :: candidates S distance q tau0 filterFn P
        else candidates S distance q tau0 filterFn P := by
  unfold candidates
  rw [List.filter_cons]
  split_ifs <;> simp

theorem candidates_perm (S : List E) (distance : E → E → δ) (q : E) (tau0 : Option δ)
    (filterFn : Option (E → Bool)) (P P' : List Nat) (h : P.Perm P') :
    (candidates S distance q tau0 filterFn P).Perm (candidates S distance q tau0 filterFn P') := by
  unfold candidates
  exact (h.filter _).map _

omit [Inhabited E] in
theorem sort_perm (L L' : List δ) (h : L.Perm L') :
    L.insertionSort (· ≤ ·) = L'.insertionSort (· ≤ ·) := by
  apply List.eq_of_perm_of_sorted (r := (· ≤ ·))
  · exact (List.perm_insertionSort _ _).trans (h.trans (List.perm_insertionSort _ _).symm)
  · exact List.sorted_insertionSort _ _
  · exact List.sorted_insertionSort _ _

theorem searchInv_perm (S : List E) (distance : E → E → δ) (q : E) (k : Nat)
    (tau0 : Option δ) (filterFn : Option (E → Bool)) (st : SearchState δ) (P P' : List Nat)
    (hp : P.Perm P') (h : SearchInv S distance q k tau0 filterFn st P) :
    SearchInv S distance q k tau0 filterFn st P' := by
  refine ⟨h.sorted, h.len, ?_, ?_, h.nodup, h.below, h.full⟩
  · rw [h.best, sort_perm _ _ (candidates_perm S distance q tau0 filterFn P P' hp)]
  · intro e he
    exact ⟨hp.subset (h.mem e he).1, (h.mem e he).2⟩

theorem searchInv_comparisons (S : List E) (distance : E → E → δ) (q : E) (k : Nat)
    (tau0 : Option δ) (filterFn : Option (E → Bool)) (st : SearchState δ) (P : List Nat)
    (c : Nat) (h : SearchInv S distance q k tau0 filterFn st P) :
    SearchInv S distance q k tau0 filterFn { st with comparisons := c } P :=
  ⟨h.sorted, h.len, h.best, h.mem, h.nodup, h.below, h.full⟩

theorem searchInv_skip (S : List E) (distance : E → E → δ) (q : E) (k : Nat)
    (tau0 : Option δ) (filterFn : Option (E → Bool)) (st : SearchState δ) (P : List Nat)
    (j : Nat) (h : SearchInv S distance q k tau0 filterFn st P)
    (hj : ltTau (distance q (elemAt S j)) st.tau = false) :
    SearchInv S distance q k tau0 filterFn st (j :: P) := by
  refine ⟨h.sorted, h.len, ?_, ?_, h.nodup, h.below, h.full⟩
  · rw [candidates_cons]
    split_ifs with hv
    · rcases h.full with hf | ⟨hlen, t, ht, hle⟩
      · rw [hf] at hj
        simp only [Bool.and_eq_true] at hv
        rw [hv.1] at hj
        exact absurd hj (by simp)
      · rw [ht] at hj
        simp only [ltTau, decide_eq_false_iff_not, not_lt] at hj
        have hb := h.best
        rw [take_sort_cons_skip _ _ _ (by rw [← hb]; simpa using hlen)
          (by
            rw [← hb]
            intro w hw
            obtain ⟨e, he1, he2⟩ := List.mem_map.1 hw
            rw [← he2]
            exact le_trans (hle e he1) hj)]
        exact hb
    · exact h.best
  · intro e he
    exact ⟨List.mem_cons_of_mem _ (h.mem e he).1, (h.mem e he).2⟩

theorem searchInv_skip_all (S : List E) (distance : E → E → δ) (q : E) (k : Nat)
    (tau0 : Option δ) (filterFn : Option (E → Bool)) (st : SearchState δ) (P : List Nat)
    (h : SearchInv S distance q k tau0 filterFn st P) :
    ∀ Js : List Nat, (∀ j ∈ Js, ltTau (distance q (elemAt S j)) st.tau = false) →
      SearchInv S distance q k tau0 filterFn st (Js ++ P) := by
  intro Js
  induction Js with
  | nil => intro _; exact h
  | cons j Js ih =>
    intro hJ
    exact searchInv_skip S distance q k tau0 filterFn st (Js ++ P) j
      (ih (fun x hx => hJ x (List.mem_cons_of_mem _ hx))) (hJ j (List.mem_cons_self _ _))

theorem consider_inv (S : List E) (distance : E → E → δ) (q : E) (k : Nat) (hk : 1 ≤ k)
    (tau0 : Option δ) (filterFn : Option (E → Bool)) (st : SearchState δ) (P : List Nat)
    (j : Nat) (h : SearchInv S distance q k tau0 filterFn st P) (hj : j ∉ P) :
    ∃ st', consider (some k) filterFn j (elemAt S j) (distance q (elemAt S j)) st = .ok st' ∧
      SearchInv S distance q k tau0 filterFn st' (j :: P) := by
  unfold consider
  cases h1 : ltTau (distance q (elemAt S j)) st.tau with
  | false =>
    simp only [Bool.false_eq_true, if_false]
    exact ⟨st, rfl, searchInv_skip S distance q k tau0 filterFn st P j h h1⟩
  | true =>
    simp only [if_true]
    cases h2 : passes filterFn (elemAt S j) with
    | false =>
      simp only [Bool.false_eq_true, if_false]
      refine ⟨st, rfl, h.sorted, h.len, ?_, ?_, h.nodup, h.below, h.full⟩
      · rw [candidates_cons, h2]
        simp only [Bool.and_false, Bool.false_eq_true, if_false]
        exact h.best
      · intro e he
        exact ⟨List.mem_cons_of_mem _ (h.mem e he).1, (h.mem e he).2⟩
    | true =>
      simp only [if_true]
      obtain ⟨pos, q', ret, hins, hpos, hq', hsp, hs', hl', hp', hret⟩ :=
        insert_bounded k hk st.W h.sorted h.len j (distance q (elemAt S j))
      rw [hins]
      have hmem' : ∀ e ∈ q', e = ⟨j, distance q (elemAt S j)⟩ ∨ e ∈ st.W := by
        intro e he
        rw [hq'] at he
        have := List.mem_of_mem_take he
        rcases List.mem_append.1 this with h' | h'
        · exact Or.inr (List.mem_of_mem_take h')
        · rcases List.mem_cons.1 h' with h' | h'
          · exact Or.inl h'
          · exact Or.inr (List.mem_of_mem_drop h')
      have hd0 : ltTau (distance q (elemAt S j)) tau0 = true := h.below _ h1
      have hlast : ∀ r, ret = some r → q'.length = k ∧
          (∃ e ∈ q', e.priority = r) ∧ ∀ e ∈ q', e.priority ≤ r := by
        intro r hr
        rw [hr] at hret
        split_ifs at hret with hlen
        obtain ⟨e, he1, he2⟩ := Option.map_eq_some'.1 hret.symm
        refine ⟨hlen, ⟨e, List.mem_of_getLast?_eq_some he1, he2⟩, ?_⟩
        rw [← he2]
        exact sortedQ_le_last q' hs' e he1
      refine ⟨_, rfl, hs', ?_, ?_, ?_, ?_, ?_, ?_⟩
      · simp only [hl']
        exact Nat.min_le_left _ _
      · simp only
        rw [hp', h.best, take_orderedInsert_take, candidates_cons, hd0, h2]
        simp only [Bool.and_self, if_true, List.insertionSort]
      · intro e he
        rcases hmem' e he with h' | h'
        · subst h'
          exact ⟨List.mem_cons_self _ _, h2, rfl⟩
        · exact ⟨List.mem_cons_of_mem _ (h.mem e h').1, (h.mem e h').2⟩
      · simp only
        have hsub : q'.Sublist (st.W.take pos ++ ⟨j, distance q (elemAt S j)⟩ :: st.W.drop pos) := by
          rw [hq']; exact List.take_sublist _ _
        have hperm : (st.W.take pos ++ ⟨j, distance q (elemAt S j)⟩ :: st.W.drop pos).Perm
            (⟨j, distance q (elemAt S j)⟩ :: st.W) := by
          refine List.perm_middle.trans ?_
          rw [List.take_append_drop]
        have hnd : ((⟨j, distance q (elemAt S j)⟩ :: st.W).map Entry.data).Nodup := by
          simp only [List.map_cons, List.nodup_cons]
          refine ⟨?_, h.nodup⟩
          intro hmem
          obtain ⟨e, he1, he2⟩ := List.mem_map.1 hmem
          exact hj (he2 ▸ (h.mem e he1).1)
        exact List.Nodup.sublist (hsub.map Entry.data)
          ((hperm.map Entry.data).nodup_iff.2 hnd)
      · simp only
        intro x hx
        cases hr : ret with
        | none => rw [hr] at hx; exact h.below x hx
        | some r =>
          rw [hr] at hx
          simp only [orTau] at hx
          split_ifs at hx with h0
          · exact h.below x hx
          · obtain ⟨_, ⟨e, he1, he2⟩, _⟩ := hlast r hr
            have hr0 : ltTau r tau0 = true := by
              rcases hmem' e he1 with h' | h'
              · subst h'; rw [← he2]; exact hd0
              · have := (h.mem e h').2.2
                rw [← he2]
                have hb := h.best
                have hin : e.priority ∈ ((candidates S distance q tau0 filterFn P).insertionSort
                    (· ≤ ·)).take k := by
                  rw [← hb]; exact List.mem_map_of_mem _ h'
                have hin2 := (List.perm_insertionSort _ _).subset (List.mem_of_mem_take hin)
                unfold candidates at hin2
                obtain ⟨i, hi1, hi2⟩ := List.mem_map.1 hin2
                have := (List.mem_filter.1 hi1).2
                simp only [Bool.and_eq_true] at this
                rw [← hi2]
                exact this.1
            cases tau0 with
            | none => rfl
            | some t =>
              simp only [ltTau, decide_eq_true_eq] at hx hr0 ⊢
              exact lt_trans hx hr0
      · simp only
        cases hr : ret with
        | none =>
          simp only [orTau]
          rcases h.full with hf | ⟨hlen, _⟩
          · exact Or.inl hf
          · exfalso
            rw [hr] at hret
            split_ifs at hret with hlen'
            · cases hq : q'.getLast? with
              | none =>
                have := List.getLast?_eq_none_iff.1 hq
                rw [this] at hlen'
                simp at hlen'
                omega
              | some e => rw [hq] at hret; simp at hret
            · rw [hl', hlen] at hlen'
              simp at hlen'
        | some r =>
          obtain ⟨hlen, _, hle⟩ := hlast r hr
          simp only [orTau]
          split_ifs with h0
          · rcases h.full with hf | ⟨_, t, ht, hlet⟩
            · exact Or.inl hf
            · refine Or.inr ⟨hlen, t, ht, ?_⟩
              intro e he
              rcases hmem' e he with h' | h'
              · subst h'
                rw [ht] at h1
                simp only [ltTau, decide_eq_true_eq] at h1
                exact le_of_lt h1
              · exact hlet e h'
          · exact Or.inr ⟨hlen, r, rfl, hle⟩

theorem bucketLoop_inv (S : List E) (distance : E → E → δ) (q : E) (k : Nat) (hk : 1 ≤ k)
    (tau0 : Option δ) (filterFn : Option (E → Bool)) :
    ∀ (ids : List Nat) (st : SearchState δ) (P : List Nat), (ids ++ P).Nodup →
      SearchInv S distance q k tau0 filterFn st P →
      ∃ st', bucketLoop S distance q (some k) filterFn ids st = .ok st' ∧
        SearchInv S distance q k tau0 filterFn st' (ids ++ P) := by
  intro ids
  induction ids with
  | nil => intro st P _ h; exact ⟨st, rfl, h⟩
  | cons j rest ih =>
    intro st P hnd h
    have hnd' : j ∉ rest ++ P ∧ (rest ++ P).Nodup := List.nodup_cons.1 hnd
    obtain ⟨st1, h1, h2⟩ := consider_inv S distance q k hk tau0 filterFn
      { st with comparisons := st.comparisons + 1 } P j
      (searchInv_comparisons S distance q k tau0 filterFn st P _ h)
      (fun hm => hnd'.1 (List.mem_append_right _ hm))
    obtain ⟨st2, h3, h4⟩ := ih st1 (j :: P) (List.perm_middle.nodup_iff.2 hnd) h2
    refine ⟨st2, ?_, searchInv_perm S distance q k tau0 filterFn st2 _ _ List.perm_middle h4⟩
    simp only [bucketLoop, h1, h3]

omit [Inhabited E] in
theorem lowerPrune (distance : E → E → δ) (hsymm : ∀ a b, distance a b = distance b a)
    (htri : ∀ a b c, distance a c ≤ distance a b + distance b c) (q vp x : E) (lb t : δ)
    (hlb : lb ≤ distance vp x) (h : ¬ (lb - t < distance q vp)) : ¬ (distance q x < t) := by
  intro hlt
  apply h
  have h1 := htri vp q x
  rw [hsymm vp q] at h1
  have h2 : lb < distance q vp + t := lt_of_le_of_lt (le_trans hlb h1) (add_lt_add_left hlt _)
  exact sub_lt_iff_lt_add.2 h2

omit [Inhabited E] in
theorem upperPrune (distance : E → E → δ) (hsymm : ∀ a b, distance a b = distance b a)
    (htri : ∀ a b c, distance a c ≤ distance a b + distance b c) (q vp x : E) (ub t : δ)
    (hub : distance vp x ≤ ub) (h : ¬ (distance q vp < ub + t)) : ¬ (distance q x < t) := by
  intro hlt
  apply h
  have h1 := htri q x vp
  rw [hsymm x vp] at h1
  have h2 : distance q x + distance vp x < t + ub := add_lt_add_of_lt_of_le hlt hub
  rw [add_comm ub t]
  exact lt_of_le_of_lt h1 h2

omit [LinearOrderedAddCommGroup δ] [Inhabited E] in
theorem indices_of_not_truthy (T : Tree δ) (h : T.truthy = false) : T.indices = [] := by
  cases T <;> simp_all [Tree.truthy, Tree.indices]

omit [LinearOrderedAddCommGroup δ] [Inhabited E] in
theorem perm_node_lr {α : Type} (i : α) (L R P : List α) :
    (R ++ (L ++ i :: P)).Perm (i :: (L ++ R) ++ P) := by
  rw [← Multiset.coe_eq_coe]
  simp only [List.cons_append, ← Multiset.coe_add, ← Multiset.cons_coe, ← Multiset.singleton_add]
  abel

omit [LinearOrderedAddCommGroup δ] [Inhabited E] in
theorem perm_node_rl {α : Type} (i : α) (L R P : List α) :
    (L ++ (R ++ i :: P)).Perm (i :: (L ++ R) ++ P) := by
  rw [← Multiset.coe_eq_coe]
  simp only [List.cons_append, ← Multiset.coe_add, ← Multiset.cons_coe, ← Multiset.singleton_add]
  abel

omit [Inhabited E] in
theorem consider_tau_cases (n : Option Nat) (filterFn : Option (E → Bool))
    (st : SearchState δ) (hs : SortedQ st.W) (id : Nat) (el : E) (d : δ) (st' : SearchState δ)
    (h : consider n filterFn id el d st = .ok st') :
    st'.tau = st.tau ∨ ∃ e ∈ st'.W, st'.tau = some e.priority := by
  unfold consider at h
  split_ifs at h
  · obtain ⟨pos, q', ret, hi, _, _, _, _, _, _, hret⟩ := insert_general n st.W hs id d
    rw [hi] at h
    simp only [Except.ok.injEq] at h
    subst h
    simp only
    cases hr : ret with
    | none => exact Or.inl rfl
    | some r =>
      simp only [orTau]
      split_ifs
      · exact Or.inl rfl
      · rw [hr] at hret
        split_ifs at hret
        obtain ⟨e, he1, he2⟩ := Option.map_eq_some'.1 hret.symm
        exact Or.inr ⟨e, List.mem_of_getLast?_eq_some he1, by rw [he2]⟩
  · simp only [Except.ok.injEq] at h
    subst h
    exact Or.inl rfl
  · simp only [Except.ok.injEq] at h
    subst h
    exact Or.inl rfl

omit [LinearOrderedAddCommGroup δ] in
theorem tauFrom_mono (S : List E) (distance : E → E → δ) (q : E) (tau0 : Option δ)
    (st : SearchState δ) (P P' : List Nat) (hsub : P ⊆ P')
    (h : TauFrom S distance q tau0 st P) : TauFrom S distance q tau0 st P' := by
  rcases h with h | ⟨j, hj, h⟩
  · exact Or.inl h
  · exact Or.inr ⟨j, hsub hj, h⟩

omit [LinearOrderedAddCommGroup δ] in
theorem tauFrom_pr (S : List E) (distance : E → E → δ) (q : E) (tau0 : Option δ)
    (Pr : δ → Prop) (hP0 : ∀ D, tau0 = some D → Pr D) (st : SearchState δ) (P : List Nat)
    (hq : ∀ j ∈ P, Pr (distance q (elemAt S j))) (h : TauFrom S distance q tau0 st P)
    (t : δ) (ht : st.tau = some t) : Pr t := by
  rcases h with h | ⟨j, hj, h⟩
  · exact hP0 t (h ▸ ht)
  · rw [h] at ht
    cases ht
    exact hq j hj

theorem consider_inv2 (S : List E) (distance : E → E → δ) (q : E) (k : Nat) (hk : 1 ≤ k)
    (tau0 : Option δ) (filterFn : Option (E → Bool)) (st : SearchState δ) (P : List Nat)
    (j : Nat) (h : SearchInv S distance q k tau0 filterFn st P)
    (ht : TauFrom S distance q tau0 st P) (hj : j ∉ P) :
    ∃ st', consider (some k) filterFn j (elemAt S j) (distance q (elemAt S j)) st = .ok st' ∧
      SearchInv S distance q k tau0 filterFn st' (j :: P) ∧
      TauFrom S distance q tau0 st' (j :: P) := by
  obtain ⟨st', h1, h2⟩ := consider_inv S distance q k hk tau0 filterFn st P j h hj
  refine ⟨st', h1, h2, ?_⟩
  rcases consider_tau_cases (some k) filterFn st h.sorted j _ _ st' h1 with heq | ⟨e, he, hte⟩
  · rcases ht with ht | ⟨j', hj', ht⟩
    · exact Or.inl (heq.trans ht)
    · exact Or.inr ⟨j', List.mem_cons_of_mem _ hj', heq.trans ht⟩
  · obtain ⟨hm1, _, hm3⟩ := h2.mem e he
    exact Or.inr ⟨e.data, hm1, by rw [hte, hm3]⟩

theorem bucketLoop_inv2 (S : List E) (distance : E → E → δ) (q : E) (k : Nat) (hk : 1 ≤ k)
    (tau0 : Option δ) (filterFn : Option (E → Bool)) :
    ∀ (ids : List Nat) (st : SearchState δ) (P : List Nat), (ids ++ P).Nodup →
      SearchInv S distance q k tau0 filterFn st P → TauFrom S distance q tau0 st P →
      ∃ st', bucketLoop S distance q (some k) filterFn ids st = .ok st' ∧
        SearchInv S distance q k tau0 filterFn st' (ids ++ P) ∧
        TauFrom S distance q tau0 st' (ids ++ P) := by
  intro ids
  induction ids with
  | nil => intro st P _ h ht; exact ⟨st, rfl, h, ht⟩
  | cons j rest ih =>
    intro st P hnd h ht
    have hnd' : j ∉ rest ++ P ∧ (rest ++ P).Nodup := List.nodup_cons.1 hnd
    obtain ⟨st1, h1, h2, ht2⟩ := consider_inv2 S distance q k hk tau0 filterFn
      { st with comparisons := st.comparisons + 1 } P j
      (searchInv_comparisons S distance q k tau0 filterFn st P _ h) ht
      (fun hm => hnd'.1 (List.mem_append_right _ hm))
    obtain ⟨st2, h3, h4, ht4⟩ := ih st1 (j :: P) (List.perm_middle.nodup_iff.2 hnd) h2 ht2
    refine ⟨st2, ?_, searchInv_perm S distance q k tau0 filterFn st2 _ _ List.perm_middle h4,
      tauFrom_mono S distance q tau0 st2 _ _ (List.perm_middle.subset) ht4⟩
    simp only [bucketLoop, h1, h3]

theorem doSearch_inv [Arith δ] (S : List E) (distance : E → E → δ)
    (hsymm : ∀ a b, distance a b = distance b a)
    (htri : ∀ a b c, distance a c ≤ distance a b + distance b c)
    (Pr : δ → Prop) (hex : Arith.ExactOn Pr)
    (q : E) (k : Nat) (hk : 1 ≤ k) (tau0 : Option δ) (hP0 : ∀ D, tau0 = some D → Pr D)
    (filterFn : Option (E → Bool)) :
    ∀ (T : Tree δ) (st : SearchState δ) (P : List Nat), Tree.WF S distance T →
      Tree.BoundsIn Pr T → (T.indices ++ P).Nodup →
      (∀ j ∈ T.indices ++ P, Pr (distance q (elemAt S j))) →
      SearchInv S distance q k tau0 filterFn st P → TauFrom S distance q tau0 st P →
      ∃ st', doSearch S distance q (some k) filterFn T st = .ok st' ∧
        SearchInv S distance q k tau0 filterFn st' (T.indices ++ P) ∧
        TauFrom S distance q tau0 st' (T.indices ++ P) := by
  intro T
  induction T with
  | null => intro st P _ _ _ _ h ht; exact ⟨st, rfl, h, ht⟩
  | bucket i rest =>
    intro st P _ _ hnd _ h ht
    exact bucketLoop_inv2 S distance q k hk tau0 filterFn (i :: rest) st P hnd h ht
  | vp i =>
    intro st P _ _ hnd _ h ht
    have hnd' : i ∉ P := (List.nodup_cons.1 hnd).1
    exact consider_inv2 S distance q k hk tau0 filterFn
      { st with comparisons := st.comparisons + 1 } P i
      (searchInv_comparisons S distance q k tau0 filterFn st P _ h) ht hnd'
  | node i m M mu L R ihL ihR =>
    intro st P hwf hbd hnd hq h ht
    simp only [Tree.WF] at hwf
    obtain ⟨⟨a, hma, hlow⟩, hup, hLmu, hRmu, hLw, hRw⟩ := hwf
    simp only [Tree.BoundsIn] at hbd
    obtain ⟨hbm, hbM, hbmu, hbL, hbR⟩ := hbd
    have hPa : Pr a := hbm a hma
    simp only [Tree.indices] at hnd hq ⊢
    have hqi : ∀ j ∈ i :: P, Pr (distance q (elemAt S j)) := fun j hj =>
      hq j (by simp only [List.mem_append, List.mem_cons] at hj ⊢; tauto)
    have hqL : ∀ j ∈ L.indices ++ i :: P, Pr (distance q (elemAt S j)) := fun j hj =>
      hq j (by simp only [List.mem_append, List.mem_cons] at hj ⊢; tauto)
    have hqR : ∀ j ∈ R.indices ++ i :: P, Pr (distance q (elemAt S j)) := fun j hj =>
      hq j (by simp only [List.mem_append, List.mem_cons] at hj ⊢; tauto)
    have hqLR : ∀ j ∈ R.indices ++ (L.indices ++ i :: P), Pr (distance q (elemAt S j)) :=
      fun j hj => hq j (by simp only [List.mem_append, List.mem_cons] at hj ⊢; tauto)
    have hqRL : ∀ j ∈ L.indices ++ (R.indices ++ i :: P), Pr (distance q (elemAt S j)) :=
      fun j hj => hq j (by simp only [List.mem_append, List.mem_cons] at hj ⊢; tauto)
    have hndLR : (R.indices ++ (L.indices ++ i :: P)).Nodup :=
      (perm_node_lr i L.indices R.indices P).nodup_iff.2 hnd
    have hndRL : (L.indices ++ (R.indices ++ i :: P)).Nodup :=
      (perm_node_rl i L.indices R.indices P).nodup_iff.2 hnd
    have hndL : (L.indices ++ i :: P).Nodup :=
      List.Nodup.sublist (List.sublist_append_right _ _) hndLR
    have hndR : (R.indices ++ i :: P).Nodup :=
      List.Nodup.sublist (List.sublist_append_right _ _) hndRL
    have hiP : i ∉ P :=
      (List.nodup_cons.1 (List.Nodup.sublist (List.sublist_append_right _ _) hndL)).1
    obtain ⟨st1, h1, h2, ht2⟩ := consider_inv2 S distance q k hk tau0 filterFn
      { st with comparisons := st.comparisons + 1 } P i
      (searchInv_comparisons S distance q k tau0 filterFn st P _ h) ht hiP
    simp only [doSearch, h1]
    by_cases hlt : distance q (elemAt S i) < mu
    · simp only [hlt, if_true]
      have hA : ∃ st2, (if L.truthy = true ∧ mMinusTauLt m st1.tau (distance q (elemAt S i)) = true
          then doSearch S distance q (some k) filterFn L st1 else .ok st1) = .ok st2 ∧
          SearchInv S distance q k tau0 filterFn st2 (L.indices ++ i :: P) ∧
          TauFrom S distance q tau0 st2 (L.indices ++ i :: P) := by
        split_ifs with hc
        · exact ihL st1 (i :: P) hLw hbL hndL hqL h2 ht2
        · refine ⟨st1, rfl, searchInv_skip_all S distance q k tau0 filterFn st1 _ h2 _ ?_,
            tauFrom_mono S distance q tau0 st1 _ _ (List.subset_append_right _ _) ht2⟩
          intro j hj
          by_cases htr : L.truthy = true
          · have hm : mMinusTauLt m st1.tau (distance q (elemAt S i)) = false := by
              by_contra hcon
              exact hc ⟨htr, by simpa using hcon⟩
            rw [hma] at hm
            cases htau : st1.tau with
            | none => rw [htau] at hm; simp [mMinusTauLt] at hm
            | some t =>
              rw [htau] at hm
              simp only [mMinusTauLt, decide_eq_false_iff_not] at hm
              rw [(hex a t hPa (tauFrom_pr S distance q tau0 Pr hP0 st1 _ hqi ht2 t htau)).2] at hm
              simp only [ltTau, decide_eq_false_iff_not]
              exact lowerPrune distance hsymm htri q (elemAt S i) (elemAt S j) a t
                (hlow j (List.mem_append_left _ hj)) hm
          · rw [indices_of_not_truthy L (by simpa using htr)] at hj
            simp at hj
      obtain ⟨st2, h3, h4, ht4⟩ := hA
      rw [h3]
      simp only
      have hB : ∃ st3, (if R.truthy = true ∧ muMinusTauLt mu st2.tau (distance q (elemAt S i)) = true
          then doSearch S distance q (some k) filterFn R st2 else .ok st2) = .ok st3 ∧
          SearchInv S distance q k tau0 filterFn st3 (R.indices ++ (L.indices ++ i :: P)) ∧
          TauFrom S distance q tau0 st3 (R.indices ++ (L.indices ++ i :: P)) := by
        split_ifs with hc
        · exact ihR st2 _ hRw hbR hndLR hqLR h4 ht4
        · refine ⟨st2, rfl, searchInv_skip_all S distance q k tau0 filterFn st2 _ h4 _ ?_,
            tauFrom_mono S distance q tau0 st2 _ _ (List.subset_append_right _ _) ht4⟩
          intro j hj
          by_cases htr : R.truthy = true
          · have hm : muMinusTauLt mu st2.tau (distance q (elemAt S i)) = false := by
              by_contra hcon
              exact hc ⟨htr, by simpa using hcon⟩
            cases htau : st2.tau with
            | none => rw [htau] at hm; simp [muMinusTauLt] at hm
            | some t =>
              rw [htau] at hm
              simp only [muMinusTauLt, decide_eq_false_iff_not] at hm
              rw [(hex mu t hbmu (tauFrom_pr S distance q tau0 Pr hP0 st2 _ hqL ht4 t htau)).2] at hm
              simp only [ltTau, decide_eq_false_iff_not]
              exact lowerPrune distance hsymm htri q (elemAt S i) (elemAt S j) mu t
                (hRmu j hj) hm
          · rw [indices_of_not_truthy R (by simpa using htr)] at hj
            simp at hj
      obtain ⟨st3, h5, h6, ht6⟩ := hB
      exact ⟨st3, h5, searchInv_perm S distance q k tau0 filterFn st3 _ _
        (perm_node_lr i L.indices R.indices P) h6, tauFrom_mono S distance q tau0 st3 _ _
        (perm_node_lr i L.indices R.indices P).subset ht6⟩
    · simp only [hlt, if_false]
      have hA : ∃ st2, (if R.truthy = true ∧ ltPlusTau (distance q (elemAt S i)) M st1.tau = true
          then doSearch S distance q (some k) filterFn R st1 else .ok st1) = .ok st2 ∧
          SearchInv S distance q k tau0 filterFn st2 (R.indices ++ i :: P) ∧
          TauFrom S distance q tau0 st2 (R.indices ++ i :: P) := by
        split_ifs with hc
        · exact ihR st1 (i :: P) hRw hbR hndR hqR h2 ht2
        · refine ⟨st1, rfl, searchInv_skip_all S distance q k tau0 filterFn st1 _ h2 _ ?_,
            tauFrom_mono S distance q tau0 st1 _ _ (List.subset_append_right _ _) ht2⟩
          intro j hj
          by_cases htr : R.truthy = true
          · have hm : ltPlusTau (distance q (elemAt S i)) M st1.tau = false := by
              by_contra hcon
              exact hc ⟨htr, by simpa using hcon⟩
            cases htau : st1.tau with
            | none => rw [htau] at hm; simp [ltPlusTau] at hm
            | some t =>
              rw [htau] at hm
              simp only [ltPlusTau, decide_eq_false_iff_not] at hm
              rw [(hex M t hbM (tauFrom_pr S distance q tau0 Pr hP0 st1 _ hqi ht2 t htau)).1] at hm
              simp only [ltTau, decide_eq_false_iff_not]
              exact upperPrune distance hsymm htri q (elemAt S i) (elemAt S j) M t
                (hup j (List.mem_append_right _ hj)) hm
          · rw [indices_of_not_truthy R (by simpa using htr)] at hj
            simp at hj
      obtain ⟨st2, h3, h4, ht4⟩ := hA
      rw [h3]
      simp only
      have hB : ∃ st3, (if L.truthy = true ∧ ltPlusTau (distance q (elemAt S i)) mu st2.tau = true
          then doSearch S distance q (some k) filterFn L st2 else .ok st2) = .ok st3 ∧
          SearchInv S distance q k tau0 filterFn st3 (L.indices ++ (R.indices ++ i :: P)) ∧
          TauFrom S distance q tau0 st3 (L.indices ++ (R.indices ++ i :: P)) := by
        split_ifs with hc
        · exact ihL st2 _ hLw hbL hndRL hqRL h4 ht4
        · refine ⟨st2, rfl, searchInv_skip_all S distance q k tau0 filterFn st2 _ h4 _ ?_,
            tauFrom_mono S distance q tau0 st2 _ _ (List.subset_append_right _ _) ht4⟩
          intro j hj
          by_cases htr : L.truthy = true
          · have hm : ltPlusTau (distance q (elemAt S i)) mu st2.tau = false := by
              by_contra hcon
              exact hc ⟨htr, by simpa using hcon⟩
            cases htau : st2.tau with
            | none => rw [htau] at hm; simp [ltPlusTau] at hm
            | some t =>
              rw [htau] at hm
              simp only [ltPlusTau, decide_eq_false_iff_not] at hm
              rw [(hex mu t hbmu (tauFrom_pr S distance q tau0 Pr hP0 st2 _ hqR ht4 t htau)).1] at hm
              simp only [ltTau, decide_eq_false_iff_not]
              exact upperPrune distance hsymm htri q (elemAt S i) (elemAt S j) mu t
                (hLmu j hj) hm
          · rw [indices_of_not_truthy L (by simpa using htr)] at hj
            simp at hj
      obtain ⟨st3, h5, h6, ht6⟩ := hB
      exact ⟨st3, h5, searchInv_perm S distance q k tau0 filterFn st3 _ _
        (perm_node_rl i L.indices R.indices P) h6, tauFrom_mono S distance q tau0 st3 _ _
        (perm_node_rl i L.indices R.indices P).subset ht6⟩

omit [Inhabited E] in
theorem orInfinity_eq (maxDistance : Option δ) (hmax : ∀ D, maxDistance = some D → 0 < D) :
    orInfinity maxDistance = maxDistance := by
  cases maxDistance with
  | none => rfl
  | some D =>
    have := hmax D rfl
    simp [orInfinity, ne_of_gt this]

omit [LinearOrderedAddCommGroup δ] in
theorem map_elemAt_range (S : List E) : (List.range S.length).map (elemAt S) = S := by
  apply List.ext_getElem (by simp)
  intro n h1 h2
  simp [elemAt, List.getD_eq_getElem?_getD]
  have : n < S.length := by simpa using h1
  simp [List.getElem?_eq_getElem this]

theorem bruteForce_unfiltered (S : List E) (distance : E → E → δ) (q : E) (k : Nat)
    (maxDistance : Option δ) :
    bruteForce S distance q k maxDistance none
      = (((S.map (distance q)).filter (fun x => ltTau x maxDistance)).insertionSort
          (· ≤ ·)).take k := by
  unfold bruteForce candidates
  congr 2
  conv => rhs; rw [← map_elemAt_range S, List.map_map, List.filter_map]
  congr 1
  apply List.filter_congr
  intro j _
  simp [passes]

end BruteForceLemmas

/-! ## Ties in a search -/

section TieLemmas

variable {E δ : Type} [LinearOrderedAddCommGroup δ]

theorem consider_tauIsWorst (k : Nat) (hk : 1 ≤ k) (filterFn : Option (E → Bool))
    (st : SearchState δ) (h : TauIsWorst k st.W st.tau) (id : Nat) (el : E) (d : δ) :
    ∃ st', consider (some k) filterFn id el d st = .ok st' ∧ TauIsWorst k st'.W st'.tau := by
  obtain ⟨hs, hl, ht⟩ := h
  unfold consider
  split_ifs with h1 h2
  · obtain ⟨pos, q', ret, hins, _, _, _, hs', hl', _, hret⟩ := insert_bounded k hk st.W hs hl id d
    rw [hins]
    refine ⟨_, rfl, hs', ?_, ?_⟩
    · simp only [hl']; exact Nat.min_le_left _ _
    · intro hlen e he h0
      simp only at hlen he ⊢
      rw [if_pos hlen, he] at hret
      rw [hret]
      simp [orTau, h0]
  · exact ⟨st, rfl, hs, hl, ht⟩
  · exact ⟨st, rfl, hs, hl, ht⟩

theorem consider_evicts (k : Nat) (hk : 1 ≤ k) (filterFn : Option (E → Bool))
    (st : SearchState δ) (h : TauIsWorst k st.W st.tau) (id : Nat) (el : E) (d : δ)
    (st' : SearchState δ) (hc : consider (some k) filterFn id el d st = .ok st')
    (e : Entry Nat δ) (he : e ∈ st.W) (hne : e ∉ st'.W) (h0 : e.priority ≠ 0) :
    d < e.priority := by
  obtain ⟨hs, hl, ht⟩ := h
  unfold consider at hc
  split_ifs at hc with h1 h2
  · obtain ⟨pos, q', ret, hins, hpos, hq', _, _, _, _, _⟩ := insert_bounded k hk st.W hs hl id d
    rw [hins] at hc
    simp only [Except.ok.injEq] at hc
    subst hc
    simp only at hne
    rw [hq'] at hne
    rcases List.eq_nil_or_concat st.W with hnil | ⟨A, l, hW⟩
    · rw [hnil] at he; simp at he
    · rw [List.concat_eq_append] at hW
      have hlenW : st.W.length = A.length + 1 := by rw [hW]; simp
      by_cases hfull : st.W.length = k
      · by_cases hp : pos ≤ A.length
        · have htake : st.W.take pos = A.take pos := by
            rw [hW, List.take_append_of_le_length hp]
          have hdrop : st.W.drop pos = A.drop pos ++ [l] := by
            rw [hW, List.drop_append_of_le_length hp]
          rw [htake, hdrop] at hne
          have hsplit : A.take pos ++ ({ data := id, priority := d } : Entry Nat δ) ::
              (A.drop pos ++ [l])
              = (A.take pos ++ { data := id, priority := d } :: A.drop pos) ++ [l] := by simp
          rw [hsplit, List.take_left' (by simp; omega)] at hne
          have hel : e = l := by
            rw [hW] at he
            rcases List.mem_append.1 he with h' | h'
            · exfalso
              apply hne
              rw [← List.take_append_drop pos A] at h'
              rcases List.mem_append.1 h' with h'' | h''
              · exact List.mem_append_left _ h''
              · exact List.mem_append_right _ (List.mem_cons_of_mem _ h'')
            · exact List.mem_singleton.1 h'
          have hlast : st.W.getLast? = some e := by rw [hW, hel]; simp
          have := ht hfull e hlast h0
          rw [this] at h1
          simpa [ltTau] using h1
        · exfalso
          apply hne
          have hp' : pos = st.W.length := by omega
          rw [hp', List.take_length, List.drop_length, ← hfull, List.take_left]
          exact he
      · exfalso
        apply hne
        rw [List.take_of_length_le (by simp; omega)]
        rw [← List.take_append_drop pos st.W] at he
        rcases List.mem_append.1 he with h' | h'
        · exact List.mem_append_left _ h'
        · exact List.mem_append_right _ (List.mem_cons_of_mem _ h')
  · simp only [Except.ok.injEq] at hc
    subst hc
    exact absurd he hne
  · simp only [Except.ok.injEq] at hc
    subst hc
    exact absurd he hne

end TieLemmas

section TieClaims

variable {E δ : Type} [LinearOrderedAddCommGroup δ] [Inhabited E]

/-- C9, amended: for every tree, dataset, query, distance function, filter and
limit `k ≥ 1`, in the state `st` that the search has reached after any
traversal, the next candidate considered, at distance `d`, removes an entry
`e` at a non-zero distance from the queue only when `d` is strictly smaller
than the distance of `e`: a later candidate at the same distance does not
displace it. -/
theorem search_no_equal_displacement [Arith δ] (T : VPTree E δ) (q : E) (k : Nat) (hk : 1 ≤ k)
    (maxDistance : Option δ) (queryDistFn : Option (E → E → δ))
    (filterFn : Option (E → Bool)) :
    ∃ st, doSearch T.S (orDistance queryDistFn T.distance) q (some k) filterFn T.tree
        { W := [], tau := orInfinity maxDistance, comparisons := 0 } = .ok st ∧
      ∀ (id : Nat) (el : E) (d : δ) (st' : SearchState δ),
        consider (some k) filterFn id el d st = .ok st' →
        ∀ e ∈ st.W, e ∉ st'.W → e.priority ≠ 0 → d < e.priority := by
  obtain ⟨st, h1, h2⟩ := doSearch_preserves T.S (orDistance queryDistFn T.distance) q (some k)
    filterFn (fun W tau => TauIsWorst k W tau)
    (fun st h id el d => consider_tauIsWorst k hk filterFn st h id el d)
    T.tree { W := [], tau := orInfinity maxDistance, comparisons := 0 }
    ⟨List.Pairwise.nil, Nat.zero_le _, by intro h e he; simp at he⟩
  exact ⟨st, h1, fun id el d st' hc e he hne h0 =>
    consider_evicts k hk filterFn st h2 id el d st' hc e he hne h0⟩

/-- Witness of C9 (amended) on the bucket `[0, 1, 2]` over the points `5, -5, 3`. -/
theorem search_no_equal_displacement_witness :
    ∃ st, doSearch [5, -5, 3] (orDistance none (fun a b : Int => |a - b|)) 0 (some 2) none
        (.bucket 0 [1, 2]) { W := [], tau := orInfinity none, comparisons := 0 } = .ok st ∧
      ∀ (id : Nat) (el : Int) (d : Int) (st' : SearchState Int),
        consider (some 2) none id el d st = .ok st' →
        ∀ e ∈ st.W, e ∉ st'.W → e.priority ≠ 0 → d < e.priority :=
  search_no_equal_displacement
    ({ S := [5, -5, 3], distance := fun a b => |a - b|, tree := .bucket 0 [1, 2] } : VPTree Int Int)
    0 2 (by decide) none none none

/-- C9 as stated fails: over the points `5, -5, 3` with bucket size `3` the
tree is the bucket `[0, 1, 2]`; the search for `0` with limit `2` evaluates
index `0` (distance `5`), then index `1` (distance `5`), then index `2`
(distance `3`), and returns the indices `2` and `1`: of the two candidates at
distance `5` it is the one evaluated later that is retained. -/
theorem search_tie_keeps_later :
    ∃ T, buildVPTree ([5, -5, 3] : List Int) (fun a b => |a - b|) 3 (fun _ => 0) = .ok T ∧
      T.tree = .bucket 0 [1, 2] ∧
      T.distance 0 (elemAt T.S 0) = T.distance 0 (elemAt T.S 1) ∧
      searchVPTree T 0 (some 2) none none none
        = .ok ([{ i := 2, d := 3 }, { i := 1, d := 5 }], 3) :=
  ⟨{ S := [5, -5, 3], distance := fun a b => |a - b|, tree := .bucket 0 [1, 2] },
    rfl, rfl, rfl, rfl⟩

end TieClaims

/-! ## Selection: frame and errors -/

section SelectionFrame
variable {α : Type}

theorem nth_elementLoop_frame (comp : α → α → Bool) :
    ∀ (fuel : Nat) (pre mid post : List α) (left nth right : Nat),
      left = pre.length → right + 1 = pre.length + mid.length → 1 ≤ nth →
      nth ≤ mid.length → mid.length ≤ fuel →
      ∃ A v B, nth_elementLoop comp fuel (pre ++ (mid ++ post)) left nth right
          = .ok (v, pre ++ (A ++ v :: (B ++ post))) ∧
        (A ++ v :: B).Perm mid ∧ A.length + 1 = nth := by
  intro fuel
  induction fuel with
  | zero =>
    intro pre mid post left nth right _ _ h1 h2 h3
    omega
  | succ fuel ih =>
    intro pre mid post left nth right hl hr h1 h2 h3
    have hlen : (pre ++ (mid ++ post)).length = pre.length + mid.length + post.length := by
      simp; omega
    obtain ⟨p, hp, hpc⟩ := medianOf3_spec comp (pre ++ (mid ++ post)) left right
      ((left + right) / 2) (by omega) (by omega) (by omega)
    have hp1 : left ≤ p := by rcases hpc with h | h | h <;> omega
    have hp2 : p ≤ right := by rcases hpc with h | h | h <;> omega
    obtain ⟨lows, pv, highs, hpart, hperm, _, _⟩ :=
      partition_spec comp pre mid post left right p hl hr hp1 hp2
    have hpl : lows.length + (highs.length + 1) = mid.length := by
      simpa using hperm.length_eq
    simp only [nth_elementLoop, hp, hpart]
    have hd : pre.length + lows.length - left + 1 = lows.length + 1 := by omega
    rw [hd]
    by_cases hc1 : lows.length + 1 = nth
    · simp only [hc1, if_true]
      have hread : (pre ++ (lows ++ pv :: (highs ++ post)))[pre.length + lows.length]?
          = some pv := by
        have := getElem?_append_cons_length (pre ++ lows) pv (highs ++ post)
        simpa using this
      rw [hread]
      exact ⟨lows, pv, highs, rfl, hperm, hc1⟩
    · simp only [hc1, if_false]
      by_cases hc2 : nth < lows.length + 1
      · simp only [hc2, if_true]
        obtain ⟨A, v, B, hrun, hperm', hA⟩ := ih pre lows (pv :: (highs ++ post))
          left nth (pre.length + lows.length - 1) hl (by omega) h1 (by omega) (by omega)
        rw [hrun]
        refine ⟨A, v, B ++ pv :: highs, by simp, ?_, hA⟩
        refine List.Perm.trans ?_ hperm
        have := List.Perm.append_right (pv :: highs) hperm'
        refine List.Perm.trans ?_ this
        simp
      · simp only [hc2, if_false]
        obtain ⟨A, v, B, hrun, hperm', hA⟩ := ih (pre ++ (lows ++ [pv])) highs post
          (pre.length + lows.length + 1) (nth - (lows.length + 1)) right
          (by simp; omega) (by simp; omega) (by omega) (by omega) (by omega)
        simp only [List.append_assoc, List.cons_append, List.nil_append] at hrun
        rw [hrun]
        refine ⟨lows ++ pv :: A, v, B, by simp, ?_, by simp; omega⟩
        refine List.Perm.trans ?_ hperm
        have := List.Perm.append_left (lows ++ [pv]) hperm'
        simpa using this

theorem nth_element_frame (comp : α → α → Bool) (list : List α) (left right : Nat)
    (nth : Int) (hr : right < list.length) (h1 : 1 ≤ nth)
    (h2 : nth ≤ (right : Int) - (left : Int) + 1) :
    ∃ A v B, nth_element comp list left nth right
        = .ok (v, list.take left ++ (A ++ v :: (B ++ list.drop (right + 1)))) ∧
      (A ++ v :: B).Perm (slice list left right) ∧ A.length + 1 = nth.toNat := by
  obtain ⟨hdec, hpre, hmid⟩ := slice_decomp list left right (by omega) hr
  unfold nth_element
  have hg : ¬ (nth ≤ 0 ∨ nth > (right : Int) - (left : Int) + 1) := by omega
  rw [if_neg hg]
  have := nth_elementLoop_frame comp (right - left + 1) (list.take left) (slice list left right)
    (list.drop (right + 1)) left nth.toNat right hpre.symm (by omega) (by omega) (by omega)
    (by omega)
  rw [← hdec] at this
  exact this

theorem exchange_error (list : List α) (i j : Nat) (e : Err)
    (h : exchange list i j = .error e) : e = .stuck := by
  unfold exchange at h
  split at h
  · cases h
  · cases h; rfl

theorem partitionLoop_error (comp : α → α → Bool) (pv : α) :
    ∀ (n i s : Nat) (list : List α) (e : Err),
      partitionLoop comp pv n i s list = .error e → e = .stuck := by
  intro n
  induction n with
  | zero => intro i s list e h; simp [partitionLoop] at h
  | succ n ih =>
    intro i s list e h
    simp only [partitionLoop] at h
    split at h
    · cases h; rfl
    · split at h
      · split at h
        · next e' he => cases h; exact exchange_error _ _ _ _ he
        · exact ih _ _ _ _ h
      · exact ih _ _ _ _ h

theorem partition_error (comp : α → α → Bool) (list : List α) (left right p : Nat) (e : Err)
    (h : partition comp list left right p = .error e) : e = .stuck := by
  unfold partition at h
  split at h
  · cases h; rfl
  · split at h
    · next e' he => cases h; exact exchange_error _ _ _ _ he
    · split at h
      · next e' he => cases h; exact partitionLoop_error _ _ _ _ _ _ _ he
      · split at h
        · next e' he => cases h; exact exchange_error _ _ _ _ he
        · cases h

theorem medianOf3_error (comp : α → α → Bool) (list : List α) (a b c : Nat) (e : Err)
    (h : medianOf3 comp list a b c = .error e) : e = .stuck := by
  unfold medianOf3 at h
  split at h
  · cases h
  · cases h; rfl

theorem nth_elementLoop_error (comp : α → α → Bool) :
    ∀ (fuel : Nat) (list : List α) (left nth right : Nat) (e : Err),
      nth_elementLoop comp fuel list left nth right = .error e → e = .stuck ∨ e = .fuel := by
  intro fuel
  induction fuel with
  | zero => intro list left nth right e h; simp [nth_elementLoop] at h; exact Or.inr h.symm
  | succ fuel ih =>
    intro list left nth right e h
    simp only [nth_elementLoop] at h
    split at h
    · next e' he => cases h; exact Or.inl (medianOf3_error _ _ _ _ _ _ he)
    · split at h
      · next e' he => cases h; exact Or.inl (partition_error _ _ _ _ _ _ he)
      · split at h
        · split at h
          · cases h; exact Or.inl rfl
          · cases h
        · split at h
          · exact ih _ _ _ _ _ h
          · exact ih _ _ _ _ _ h

end SelectionFrame
section SelectionClaims2
variable {α : Type}

/-- C20: for every list, range `[left, right]` inside it, rank
`1 ≤ nth ≤ right - left + 1` and comparator (any boolean function),
`nth_element` returns, and in the list it leaves the elements at the indices
`left .. right` are a permutation of those that were there, every element at
an index outside `[left, right]` is unchanged, and the length is unchanged. -/
theorem nth_element_permutes_range (comp : α → α → Bool) (list : List α) (left right : Nat)
    (nth : Int) (hr : right < list.length) (h1 : 1 ≤ nth)
    (h2 : nth ≤ (right : Int) - (left : Int) + 1) :
    ∃ v list', nth_element comp list left nth right = .ok (v, list') ∧
      (slice list' left right).Perm (slice list left right) ∧
      (∀ j, j < left ∨ right < j → list'[j]? = list[j]?) ∧
      list'.length = list.length := by
  obtain ⟨hdec, hpre, hmid⟩ := slice_decomp list left right (by omega) hr
  obtain ⟨A, v, B, hrun, hperm, _⟩ := nth_element_frame comp list left right nth hr h1 h2
  have hAB : (A ++ v :: B).length = right + 1 - left := by rw [hperm.length_eq, hmid]
  have e1 : list.take left ++ (A ++ v :: (B ++ list.drop (right + 1)))
      = (list.take left ++ (A ++ v :: B)) ++ list.drop (right + 1) := by simp
  have e2 : (list.take left ++ (A ++ v :: B)).length = right + 1 := by
    rw [List.length_append, hpre, hAB]; omega
  refine ⟨v, _, hrun, ?_, ?_, ?_⟩
  · have hslice : slice (list.take left ++ (A ++ v :: (B ++ list.drop (right + 1)))) left right
        = A ++ v :: B := by
      unfold slice
      rw [List.drop_left' hpre]
      have : A ++ v :: (B ++ list.drop (right + 1)) = (A ++ v :: B) ++ list.drop (right + 1) := by
        simp
      rw [this, List.take_left' hAB]
    rw [hslice]
    exact hperm
  · intro j hj
    rcases hj with hj | hj
    · rw [List.getElem?_append_left (by omega), List.getElem?_take_of_lt hj]
    · rw [e1, List.getElem?_append_right (by omega), e2, List.getElem?_drop]
      congr 1
      omega
  · rw [e1, List.length_append, e2, List.length_drop]
    omega

/-- Witness of C20 on the list `[9, 3, 1, 2, 7]`, range `[1, 3]`, rank 2. -/
theorem nth_element_permutes_range_witness :
    ∃ v list', nth_element (fun a b : Nat => decide (a < b)) [9, 3, 1, 2, 7] 1 2 3
        = .ok (v, list') ∧
      (slice list' 1 3).Perm (slice [9, 3, 1, 2, 7] 1 3) ∧
      (∀ j, j < 1 ∨ 3 < j → list'[j]? = [9, 3, 1, 2, 7][j]?) ∧
      list'.length = [9, 3, 1, 2, 7].length :=
  nth_element_permutes_range (fun a b : Nat => decide (a < b)) [9, 3, 1, 2, 7] 1 3 2
    (by decide) (by decide) (by decide)

/-- C11: `nth_element` raises `OutOfRange` exactly when `nth < 1` or
`nth > right - left + 1`, and on a range inside the list it fails in no other
way; `select` raises it exactly when `k < 0` or `k > list.length - 1`, hence
always on an empty list, and fails in no other way; on every valid rank
`select(list, k, comp)` is `nth_element(list, 0, k + 1, list.length - 1, comp)`
and returns a value. -/
theorem outOfRange_iff_invalid_rank (comp : α → α → Bool) (list : List α) (left right : Nat)
    (nth k : Int) :
    (nth_element comp list left nth right = .error .outOfRange ↔
      (nth < 1 ∨ nth > (right : Int) - (left : Int) + 1)) ∧
    (right < list.length →
      ((∃ e, nth_element comp list left nth right = .error e) ↔
        (nth < 1 ∨ nth > (right : Int) - (left : Int) + 1))) ∧
    (select comp list k = .error .outOfRange ↔ (k < 0 ∨ k > (list.length : Int) - 1)) ∧
    ((∃ e, select comp list k = .error e) ↔ (k < 0 ∨ k > (list.length : Int) - 1)) ∧
    (list = [] → select comp list k = .error .outOfRange) ∧
    (¬ (k < 0 ∨ k > (list.length : Int) - 1) →
      select comp list k = nth_element comp list 0 (k + 1) (list.length - 1) ∧
      ∃ v list', select comp list k = .ok (v, list')) := by
  have hsel : ¬ (k < 0 ∨ k > (list.length : Int) - 1) →
      select comp list k = nth_element comp list 0 (k + 1) (list.length - 1) ∧
      ∃ v list', select comp list k = .ok (v, list') := by
    intro hk
    have hg : ¬ (k < 0 ∨ k ≥ (list.length : Int)) := by omega
    have heq : select comp list k = nth_element comp list 0 (k + 1) (list.length - 1) := by
      unfold select; rw [if_neg hg]
    refine ⟨heq, ?_⟩
    obtain ⟨A, v, B, hrun, _, _⟩ := nth_element_frame comp list 0 (list.length - 1) (k + 1)
      (by omega) (by omega) (by omega)
    exact ⟨v, _, heq.trans hrun⟩
  have hselbad : (k < 0 ∨ k > (list.length : Int) - 1) →
      select comp list k = .error .outOfRange := by
    intro hk
    have hg : k < 0 ∨ k ≥ (list.length : Int) := by omega
    unfold select; rw [if_pos hg]
  have hnthbad : (nth < 1 ∨ nth > (right : Int) - (left : Int) + 1) →
      nth_element comp list left nth right = .error .outOfRange := by
    intro hn
    have hg : nth ≤ 0 ∨ nth > (right : Int) - (left : Int) + 1 := by omega
    unfold nth_element; rw [if_pos hg]
  refine ⟨⟨?_, hnthbad⟩, ?_, ⟨?_, hselbad⟩, ⟨?_, fun hk => ⟨_, hselbad hk⟩⟩, ?_, hsel⟩
  · intro h
    by_contra hn
    have hg : ¬ (nth ≤ 0 ∨ nth > (right : Int) - (left : Int) + 1) := by omega
    unfold nth_element at h
    rw [if_neg hg] at h
    rcases nth_elementLoop_error comp _ _ _ _ _ _ h with h' | h' <;> cases h'
  · intro hr
    refine ⟨?_, fun hn => ⟨_, hnthbad hn⟩⟩
    rintro ⟨e, he⟩
    by_contra hn
    obtain ⟨A, v, B, hrun, _, _⟩ := nth_element_frame comp list left right nth hr
      (by omega) (by omega)
    rw [hrun] at he
    cases he
  · intro h
    by_contra hk
    obtain ⟨_, v, l', hok⟩ := hsel hk
    rw [hok] at h
    cases h
  · rintro ⟨e, he⟩
    by_contra hk
    obtain ⟨_, v, l', hok⟩ := hsel hk
    rw [hok] at he
    cases he
  · intro hnil
    apply hselbad
    subst hnil
    simp
    omega

end SelectionClaims2

/-! ## Priority queue: return value and eviction -/

section PQLemmas2
variable {ι δ : Type} [LinearOrder δ]

theorem insertAll_sorted (size : Option Nat) (xs : List (ι × δ)) :
    ∀ q : List (Entry ι δ), SortedQ q →
      ∃ q', PriorityQueue.insertAll size q xs = .ok q' ∧ SortedQ q' := by
  induction xs with
  | nil => intro q hs; exact ⟨q, rfl, hs⟩
  | cons x xs ih =>
    intro q hs
    obtain ⟨d, p⟩ := x
    obtain ⟨pos, q1, ret, hins, _, _, _, _, hs1, _, _⟩ := insert_general size q hs d p
    obtain ⟨q', h1, h2⟩ := ih q1 hs1
    refine ⟨q', ?_, h2⟩
    simp only [PriorityQueue.insertAll, hins, h1]

theorem insert_evicts_le (k : Nat) (hk : 1 ≤ k) (q : List (Entry ι δ)) (hs : SortedQ q)
    (hl : q.length ≤ k) (d : ι) (p : δ) (q' : List (Entry ι δ)) (ret : Option δ)
    (hins : PriorityQueue.insert (some k) q d p = .ok (q', ret))
    (e : Entry ι δ) (he : e ∈ q) (hne : e ∉ q') :
    p ≤ e.priority ∧ q.length = k ∧ q.getLast? = some e := by
  obtain ⟨idx, pos, _, _, hpos, h4, h5, h6⟩ := insert_spec (some k) q hs d p
  rw [h6] at hins
  simp only [Except.ok.injEq, Prod.mk.injEq] at hins
  have hq' := afterInsert_bounded k hk q hl pos hpos ⟨d, p⟩
  rw [hq'] at hins
  rw [← hins.1] at hne
  rcases List.eq_nil_or_concat q with hnil | ⟨A, l, hW⟩
  · rw [hnil] at he; simp at he
  · rw [List.concat_eq_append] at hW
    have hlenW : q.length = A.length + 1 := by rw [hW]; simp
    by_cases hfull : q.length = k
    · by_cases hp : pos ≤ A.length
      · have htake : q.take pos = A.take pos := by
          rw [hW, List.take_append_of_le_length hp]
        have hdrop : q.drop pos = A.drop pos ++ [l] := by
          rw [hW, List.drop_append_of_le_length hp]
        have hl5 : p ≤ l.priority := h5 l (by rw [hdrop]; simp)
        rw [htake, hdrop] at hne
        have hsplit : A.take pos ++ ({ data := d, priority := p } : Entry ι δ) ::
            (A.drop pos ++ [l])
            = (A.take pos ++ { data := d, priority := p } :: A.drop pos) ++ [l] := by simp
        rw [hsplit, List.take_left' (by simp; omega)] at hne
        have hel : e = l := by
          rw [hW] at he
          rcases List.mem_append.1 he with h' | h'
          · exfalso
            apply hne
            rw [← List.take_append_drop pos A] at h'
            rcases List.mem_append.1 h' with h'' | h''
            · exact List.mem_append_left _ h''
            · exact List.mem_append_right _ (List.mem_cons_of_mem _ h'')
          · exact List.mem_singleton.1 h'
        refine ⟨hel ▸ hl5, hfull, ?_⟩
        rw [hW, hel]; simp
      · exfalso
        apply hne
        have hp' : pos = q.length := by omega
        rw [hp', List.take_length, List.drop_length, ← hfull, List.take_left]
        exact he
    · exfalso
      apply hne
      rw [List.take_of_length_le (by simp; omega)]
      rw [← List.take_append_drop pos q] at he
      rcases List.mem_append.1 he with h' | h'
      · exact List.mem_append_left _ h'
      · exact List.mem_append_right _ (List.mem_cons_of_mem _ h')

end PQLemmas2

section PQClaims2
variable {ι δ : Type} [LinearOrder δ]

/-- C12: for a cap `k ≥ 1`, after any sequence of insertions on a fresh
queue, a further `insert` returns the largest priority held when the queue
holds exactly `k` entries after the call, and `undefined` when it holds fewer
(it never holds more); for an unbounded queue (cap absent or `0`) `insert`
always returns `undefined`. -/
theorem insert_return_value (k : Nat) (hk : 1 ≤ k) (xs : List (ι × δ)) (d : ι) (p : δ) :
    (∃ q q' ret, PriorityQueue.insertAll (some k) [] xs = .ok q ∧
      PriorityQueue.insert (some k) q d p = .ok (q', ret) ∧ q'.length ≤ k ∧
      (q'.length = k → ∃ r, ret = some r ∧ (∃ e ∈ q', e.priority = r) ∧
        ∀ e ∈ q', e.priority ≤ r) ∧
      (q'.length < k → ret = none)) ∧
    (∃ q q', PriorityQueue.insertAll none [] xs = .ok q ∧
      PriorityQueue.insert none q d p = .ok (q', none)) ∧
    (∃ q q', PriorityQueue.insertAll (some 0) [] xs = .ok q ∧
      PriorityQueue.insert (some 0) q d p = .ok (q', none)) := by
  refine ⟨?_, ?_, ?_⟩
  · obtain ⟨q, hq, hs, _, hl⟩ := insertAll_bounded k hk xs
    obtain ⟨pos, q', ret, hins, _, _, _, hs', hl', _, hret⟩ :=
      insert_bounded k hk q hs (by omega) d p
    refine ⟨q, q', ret, hq, hins, by rw [hl']; exact Nat.min_le_left _ _, ?_, ?_⟩
    · intro hfull
      rw [if_pos hfull] at hret
      cases hlast : q'.getLast? with
      | none =>
        have := List.getLast?_eq_none_iff.1 hlast
        rw [this] at hfull
        simp at hfull
        omega
      | some e =>
        rw [hlast] at hret
        refine ⟨e.priority, hret, ⟨e, List.mem_of_getLast?_eq_some hlast, rfl⟩, ?_⟩
        exact sortedQ_le_last q' hs' e hlast
    · intro hlt
      rw [if_neg (by omega)] at hret
      exact hret
  · obtain ⟨q, hq, hs⟩ := insertAll_sorted none xs ([] : List (Entry ι δ)) List.Pairwise.nil
    obtain ⟨pos, q', ret, hins, _, _, _, _, _, _, hret⟩ := insert_general none q hs d p
    refine ⟨q, q', hq, ?_⟩
    rw [hins, hret]
    simp [sizeOf?]
  · obtain ⟨q, hq, hs⟩ := insertAll_sorted (some 0) xs ([] : List (Entry ι δ)) List.Pairwise.nil
    obtain ⟨pos, q', ret, hins, _, _, _, _, _, _, hret⟩ := insert_general (some 0) q hs d p
    refine ⟨q, q', hq, ?_⟩
    rw [hins, hret]
    simp [sizeOf?]

/-- Witness of C12: a queue of cap 2 after the insertions of priorities 5 and 3, and a
further insertion of priority 4. -/
theorem insert_return_value_witness :
    (∃ q q' ret, PriorityQueue.insertAll (some 2) [] ([(0, 5), (1, 3)] : List (Nat × Nat))
        = .ok q ∧
      PriorityQueue.insert (some 2) q 2 4 = .ok (q', ret) ∧ q'.length ≤ 2 ∧
      (q'.length = 2 → ∃ r, ret = some r ∧ (∃ e ∈ q', e.priority = r) ∧
        ∀ e ∈ q', e.priority ≤ r) ∧
      (q'.length < 2 → ret = none)) ∧
    (∃ q q', PriorityQueue.insertAll none [] ([(0, 5), (1, 3)] : List (Nat × Nat)) = .ok q ∧
      PriorityQueue.insert none q 2 4 = .ok (q', none)) ∧
    (∃ q q', PriorityQueue.insertAll (some 0) [] ([(0, 5), (1, 3)] : List (Nat × Nat)) = .ok q ∧
      PriorityQueue.insert (some 0) q 2 4 = .ok (q', none)) :=
  insert_return_value 2 (by decide) [(0, 5), (1, 3)] 2 4

/-- C17, amended: for a cap `k ≥ 1`, after any sequence of insertions on a
fresh queue, a further `insert` of priority `p` evicts an entry already held
only if `p` is not larger than that entry's priority: the entry evicted is the
last one of a full queue and `p ≤` its priority. An item of larger priority
never evicts an entry; one of equal priority may. -/
theorem insert_evicts_only_at_or_below (k : Nat) (hk : 1 ≤ k) (xs : List (ι × δ)) (d : ι)
    (p : δ) :
    ∃ q q' ret, PriorityQueue.insertAll (some k) [] xs = .ok q ∧
      PriorityQueue.insert (some k) q d p = .ok (q', ret) ∧
      ∀ e ∈ q, e ∉ q' → p ≤ e.priority ∧ q.length = k ∧ q.getLast? = some e := by
  obtain ⟨q, hq, hs, _, hl⟩ := insertAll_bounded k hk xs
  obtain ⟨pos, q', ret, hins, _⟩ := insert_bounded k hk q hs (by omega) d p
  exact ⟨q, q', ret, hq, hins, fun e he hne =>
    insert_evicts_le k hk q hs (by omega) d p q' ret hins e he hne⟩

/-- Witness of C17 (amended): cap 1, one insertion of priority 5, then priority 5 again. -/
theorem insert_evicts_only_at_or_below_witness :
    ∃ q q' ret, PriorityQueue.insertAll (some 1) [] ([(0, 5)] : List (Nat × Nat)) = .ok q ∧
      PriorityQueue.insert (some 1) q 1 5 = .ok (q', ret) ∧
      ∀ e ∈ q, e ∉ q' → 5 ≤ e.priority ∧ q.length = 1 ∧ q.getLast? = some e :=
  insert_evicts_only_at_or_below 1 (by decide) [(0, 5)] 1 5

/-- C17 as stated fails: in a queue of cap 1 that holds the item `0` of
priority 5, inserting the item `1` of the same priority 5 evicts item `0`. -/
theorem insert_equal_priority_evicts :
    PriorityQueue.insertAll (some 1) [] ([(0, 5)] : List (Nat × Nat))
        = .ok [{ data := 0, priority := 5 }] ∧
      PriorityQueue.insert (some 1) [{ data := 0, priority := 5 }] 1 5
        = .ok ([{ data := 1, priority := 5 }], some 5) :=
  ⟨rfl, rfl⟩

end PQClaims2

/-! ## Tree builder: shape, bounds and termination -/

section BuildStep
variable {E δ : Type}


variable [LinearOrder δ] [Inhabited E]

theorem recurseVPTree_nil [Zero δ] (S : List E) (distance : E → E → δ) (nb : Nat)
    (rand : Nat → Nat) (fuel c : Nat) :
    recurseVPTree S distance nb rand (fuel + 1) c [] = .ok (.null, c) := by
  simp [recurseVPTree]

theorem recurseVPTree_bucket [Zero δ] (S : List E) (distance : E → E → δ) (nb : Nat)
    (rand : Nat → Nat) (fuel c : Nat) (first : Item δ) (others : List (Item δ))
    (hb : nb > 0 ∧ (first :: others).length ≤ nb) :
    recurseVPTree S distance nb rand (fuel + 1) c (first :: others)
      = .ok (.bucket first.i (others.map Item.i), c) := by
  simp only [recurseVPTree, hb, and_self, if_true]

theorem recurseVPTree_single [Zero δ] (S : List E) (distance : E → E → δ) (nb : Nat)
    (rand : Nat → Nat) (fuel c : Nat) (first : Item δ)
    (hb : ¬ (nb > 0 ∧ ([first] : List (Item δ)).length ≤ nb)) :
    recurseVPTree S distance nb rand (fuel + 1) c [first] = .ok (.vp first.i, c + 1) := by
  have hnb : nb = 0 := by
    simp only [List.length_singleton] at hb
    omega
  subst hnb
  simp [recurseVPTree, selectVPIndex, Nat.mod_one]

theorem recurseVPTree_step [Zero δ] (S : List E) (distance : E → E → δ) (nb : Nat)
    (rand : Nat → Nat) (c : Nat) (first : Item δ) (others : List (Item δ))
    (hb : ¬ (nb > 0 ∧ (first :: others).length ≤ nb)) (hne : others ≠ []) :
    ∃ (node : Item δ) (rest A B : List (Item δ)) (v : Item δ) (mu : δ),
      (node :: rest).Perm (first :: others) ∧
      select distanceComparator (distLoop S distance (elemAt S node.i) rest none 0).1
        ((others.length / 2 : Nat) : Int) = .ok (v, A ++ v :: B) ∧
      (A ++ v :: B).Perm (distLoop S distance (elemAt S node.i) rest none 0).1 ∧
      A.length = others.length / 2 ∧ A.length + (B.length + 1) = others.length ∧
      (∀ it ∈ A ++ v :: B, it.dist = some (distance (elemAt S node.i) (elemAt S it.i))) ∧
      v.dist = some mu ∧
      (∀ a ∈ A, distanceComparator v a = false) ∧
      (∀ b ∈ B, distanceComparator b v = false) ∧
      ∀ fuel, recurseVPTree S distance nb rand (fuel + 1) c (first :: others) =
        (recurseVPTree S distance nb rand fuel (c + 1) A).bind (fun r1 =>
          (recurseVPTree S distance nb rand fuel r1.2 (v :: B)).bind (fun r2 =>
            .ok (.node node.i (distLoop S distance (elemAt S node.i) rest none 0).2.1
              (distLoop S distance (elemAt S node.i) rest none 0).2.2 mu r1.1 r2.1, r2.2))) := by
  have hvp : rand c % (first :: others).length < (first :: others).length :=
    Nat.mod_lt _ (by simp)
  obtain ⟨X, node, Y, hsplit, hX⟩ := exists_split_at (first :: others) _ hvp
  have hread : (first :: others)[rand c % (first :: others).length]? = some node := by
    rw [← hX]
    conv => lhs; arg 1; rw [hsplit]
    exact getElem?_append_cons_length X node Y
  have hlist1 : (first :: others).take (rand c % (first :: others).length) ++
      (first :: others).drop (rand c % (first :: others).length + 1) = X ++ Y := by
    rw [← hX]
    conv => lhs; arg 1; arg 2; rw [hsplit]
    conv => lhs; arg 2; arg 2; rw [hsplit]
    rw [List.take_left]
    have : X ++ node :: Y = (X ++ [node]) ++ Y := by simp
    rw [this, List.drop_left' (by simp)]
  have hlenXY : (X ++ Y).length = others.length := by
    have := congrArg List.length hsplit
    simp at this ⊢
    omega
  have hl1 : (first :: others).length = others.length + 1 := rfl
  have hpos : others.length ≠ 0 := by
    intro h; exact hne (List.eq_nil_of_length_eq_zero h)
  have h0 : ¬ ((first :: others).length - 1 = 0) := by rw [hl1]; omega
  have hkl : ((first :: others).length - 1) / 2
      < (distLoop S distance (elemAt S node.i) (X ++ Y) none 0).1.length := by
    rw [distLoop_items]
    simp only [List.length_map, hlenXY]
    rw [hl1]
    omega
  obtain ⟨A, v, B, hsel, hperm, hA, hAl, hBr⟩ := select_spec distanceComparator
    distanceComparator_irrefl distanceComparator_trans _ _ hkl
  have hitems := distLoop_items S distance (elemAt S node.i) (X ++ Y) none 0
  have hmem : ∀ it ∈ A ++ v :: B,
      it.dist = some (distance (elemAt S node.i) (elemAt S it.i)) := by
    intro it hit
    have := hperm.subset hit
    rw [hitems] at this
    obtain ⟨it0, _, h2⟩ := List.mem_map.1 this
    rw [← h2]
  have hv := hmem v (by simp)
  have hAB : (A ++ v :: B).length = others.length := by
    rw [hperm.length_eq, hitems]
    simp only [List.length_map, hlenXY]
  have hmed : ((first :: others).length - 1) / 2 = others.length / 2 := by rw [hl1]; simp
  refine ⟨node, X ++ Y, A, B, v, distance (elemAt S node.i) (elemAt S v.i), ?_, ?_, hperm,
    by rw [hA, hmed], by simpa using hAB, hmem, hv, hAl, hBr, ?_⟩
  · rw [hsplit]
    exact List.perm_middle.symm
  · rw [← hmed]; exact hsel
  · intro fuel
    have htake : (A ++ v :: B).take (((first :: others).length - 1) / 2) = A := by
      rw [← hA, List.take_left]
    have hdrop : (A ++ v :: B).drop (((first :: others).length - 1) / 2) = v :: B := by
      rw [← hA, List.drop_left]
    conv => lhs; unfold recurseVPTree
    simp only [hb, if_false, selectVPIndex, hread, hlist1, h0, hsel, hv, htake, hdrop]
    cases h1 : recurseVPTree S distance nb rand fuel (c + 1) A with
    | error e => rfl
    | ok r1 =>
      obtain ⟨L, c1⟩ := r1
      simp only [Except.bind]
      cases h2 : recurseVPTree S distance nb rand fuel c1 (v :: B) with
      | error e => rfl
      | ok r2 => rfl

theorem distLoop_dmin_attained (S : List E) (distance : E → E → δ) (vp : E) :
    ∀ (list : List (Item δ)) (dmin : Option δ) (dmax : δ) (a : δ),
      (distLoop S distance vp list dmin dmax).2.1 = some a →
      dmin = some a ∨ ∃ it ∈ list, a = distance vp (elemAt S it.i) := by
  intro list
  induction list with
  | nil => intro dmin dmax a h; exact Or.inl h
  | cons item rest ih =>
    intro dmin dmax a h
    simp only [distLoop] at h
    rcases ih _ _ a h with h' | ⟨it, hit, hd⟩
    · cases dmin with
      | none =>
        simp only [Option.some.injEq] at h'
        exact Or.inr ⟨item, List.mem_cons_self _ _, h'.symm⟩
      | some m =>
        simp only at h'
        split_ifs at h' with hgt
        · simp only [Option.some.injEq] at h'
          exact Or.inr ⟨item, List.mem_cons_self _ _, h'.symm⟩
        · exact Or.inl h'
    · exact Or.inr ⟨it, List.mem_cons_of_mem _ hit, hd⟩

theorem distLoop_dmax_attained (S : List E) (distance : E → E → δ) (vp : E) :
    ∀ (list : List (Item δ)) (dmin : Option δ) (dmax : δ),
      (distLoop S distance vp list dmin dmax).2.2 = dmax ∨
      ∃ it ∈ list, (distLoop S distance vp list dmin dmax).2.2
        = distance vp (elemAt S it.i) := by
  intro list
  induction list with
  | nil => intro dmin dmax; exact Or.inl rfl
  | cons item rest ih =>
    intro dmin dmax
    simp only [distLoop]
    rcases ih (match dmin with
        | none => some (distance vp (elemAt S item.i))
        | some m => if m > distance vp (elemAt S item.i) then
            some (distance vp (elemAt S item.i)) else some m)
      (if dmax < distance vp (elemAt S item.i) then distance vp (elemAt S item.i) else dmax)
      with h' | ⟨it, hit, hd⟩
    · split_ifs at h' with hlt
      · exact Or.inr ⟨item, List.mem_cons_self _ _, by simpa [hlt] using h'⟩
      · exact Or.inl (by simpa [hlt] using h')
    · exact Or.inr ⟨it, List.mem_cons_of_mem _ hit, hd⟩

theorem recurseVPTree_built [Zero δ] (S : List E) (distance : E → E → δ) (nb : Nat)
    (rand : Nat → Nat) :
    ∀ (fuel c : Nat) (list : List (Item δ)), list.length < fuel →
      ∃ T c', recurseVPTree S distance nb rand fuel c list = .ok (T, c') ∧
        T.indices.Perm (list.map Item.i) ∧ Tree.Built S distance nb T := by
  intro fuel
  induction fuel with
  | zero => intro c list h; omega
  | succ fuel ih =>
    intro c list hlen
    cases list with
    | nil =>
      exact ⟨.null, c, recurseVPTree_nil S distance nb rand fuel c, by simp [Tree.indices],
        by simp [Tree.Built]⟩
    | cons first others =>
      by_cases hb : nb > 0 ∧ (first :: others).length ≤ nb
      · refine ⟨_, _, recurseVPTree_bucket S distance nb rand fuel c first others hb,
          by simp [Tree.indices], ?_⟩
        simp only [Tree.Built, List.length_map]
        exact hb
      · by_cases hne : others = []
        · subst hne
          refine ⟨_, _, recurseVPTree_single S distance nb rand fuel c first hb,
            by simp [Tree.indices], ?_⟩
          simp only [Tree.Built]
          simp only [List.length_singleton] at hb
          omega
        · obtain ⟨node, rest, A, B, v, mu, hperm0, _, hperm, hA, hAB, hmem, hv, hAl, hBr, hstep⟩ :=
            recurseVPTree_step S distance nb rand c first others hb hne
          simp only [List.length_cons] at hlen
          obtain ⟨L, c1, hL, hLp, hLb⟩ := ih (c + 1) A (by omega)
          obtain ⟨R, c2, hR, hRp, hRb⟩ := ih c1 (v :: B) (by simp; omega)
          have hitems := distLoop_items S distance (elemAt S node.i) rest none 0
          have hrest : rest.length = others.length := by
            have := hperm0.length_eq
            simpa using this
          have hidx : (L.indices ++ R.indices).Perm (rest.map Item.i) := by
            refine (List.Perm.append hLp hRp).trans ?_
            rw [← List.map_append]
            have := hperm.map Item.i
            rw [hitems, List.map_map] at this
            exact this
          have hidxlen : (L.indices ++ R.indices).length = others.length := by
            rw [hidx.length_eq, List.length_map, hrest]
          have hfrom : ∀ j ∈ L.indices ++ R.indices, ∃ it ∈ rest, it.i = j := by
            intro j hj
            obtain ⟨it, h1, h2⟩ := List.mem_map.1 (hidx.subset hj)
            exact ⟨it, h1, h2⟩
          have hto : ∀ it ∈ rest, it.i ∈ L.indices ++ R.indices := by
            intro it hit
            exact hidx.symm.subset (List.mem_map_of_mem _ hit)
          have hmu : mu = distance (elemAt S node.i) (elemAt S v.i) := by
            have := hmem v (by simp)
            rw [hv] at this
            exact Option.some.inj this
          have hrestne : rest ≠ [] := by
            intro h
            rw [h] at hrest
            exact hne (List.eq_nil_of_length_eq_zero hrest.symm)
          refine ⟨.node node.i (distLoop S distance (elemAt S node.i) rest none 0).2.1
            (distLoop S distance (elemAt S node.i) rest none 0).2.2 mu L R, c2, ?_, ?_, ?_⟩
          · rw [hstep fuel, hL]
            simp only [Except.bind, hR]
          · simp only [Tree.indices]
            refine (List.Perm.cons _ hidx).trans ?_
            have := hperm0.map Item.i
            simpa using this
          · simp only [Tree.Built]
            refine ⟨?_, ?_, ?_, ?_, ?_, ?_, ?_, ?_, ?_, ?_, hLb, hRb⟩
            · rw [hidxlen]; exact hb
            · intro h
              have := hRp.length_eq
              rw [h] at this
              simp at this
            · rw [hidxlen, hLp.length_eq, List.length_map, hA]
            · obtain ⟨a, ha1, _, ha3⟩ := distLoop_dmin S distance (elemAt S node.i) rest
                none 0 (Or.inl hrestne)
              refine ⟨a, ha1, ?_, ?_⟩
              · intro j hj
                obtain ⟨it, h1, h2⟩ := hfrom j hj
                rw [← h2]
                exact ha3 it h1
              · rcases distLoop_dmin_attained S distance (elemAt S node.i) rest none 0 a ha1
                  with h | ⟨it, hit, hd⟩
                · cases h
                · exact ⟨it.i, hto it hit, hd⟩
            · intro j hj
              obtain ⟨it, h1, h2⟩ := hfrom j hj
              rw [← h2]
              exact (distLoop_dmax S distance (elemAt S node.i) rest none 0).2 it h1
            · rcases distLoop_dmax_attained S distance (elemAt S node.i) rest none 0
                with h | ⟨it, hit, hd⟩
              · exact Or.inl h
              · exact Or.inr ⟨it.i, hto it hit, hd⟩
            · exact (distLoop_dmax S distance (elemAt S node.i) rest none 0).1
            · refine ⟨v.i, hRp.symm.subset (by simp), hmu⟩
            · intro j hj
              obtain ⟨a, ha1, ha2⟩ := List.mem_map.1 (hLp.subset hj)
              have h1 := hAl a ha1
              have h2 := hmem a (by simp [ha1])
              unfold distanceComparator at h1
              rw [hv, h2] at h1
              simp only [decide_eq_false_iff_not, not_lt] at h1
              rw [← ha2]
              exact h1
            · intro j hj
              obtain ⟨b, hb1, hb2⟩ := List.mem_map.1 (hRp.subset hj)
              rcases List.mem_cons.1 hb1 with hb3 | hb3
              · subst hb3
                rw [← hb2, hmu]
              · have h1 := hBr b hb3
                have h2 := hmem b (by simp [hb3])
                unfold distanceComparator at h1
                rw [hv, h2] at h1
                simp only [decide_eq_false_iff_not, not_lt] at h1
                rw [← hb2]
                exact h1

theorem buildVPTree_built [Zero δ] (S : List E) (distance : E → E → δ) (nb : Nat)
    (rand : Nat → Nat) :
    ∃ T, buildVPTree S distance nb rand = .ok T ∧ T.S = S ∧ T.distance = distance ∧
      T.tree.indices.Perm (List.range S.length) ∧ Tree.Built S distance nb T.tree := by
  obtain ⟨T, c', h1, h2, h3⟩ := recurseVPTree_built S distance nb rand
    (((List.range S.length).map (fun i => ({ i := i, dist := none } : Item δ))).length + 1) 0
    ((List.range S.length).map (fun i => ({ i := i, dist := none } : Item δ))) (by omega)
  refine ⟨{ S := S, distance := distance, tree := T }, ?_, rfl, rfl, ?_, h3⟩
  · unfold buildVPTree
    simp only [h1]
  · refine h2.trans ?_
    simp [List.map_map, Function.comp_def]

end BuildStep
section BuildShape
variable {E δ : Type}


theorem truthy_of_indices_ne_nil (T : Tree δ) (h : T.indices ≠ []) : T.truthy = true := by
  cases T <;> simp_all [Tree.truthy, Tree.indices]

variable [LinearOrder δ] [Zero δ] [Inhabited E]

theorem built_buckets (S : List E) (distance : E → E → δ) (nb : Nat) :
    ∀ T : Tree δ, Tree.Built S distance nb T →
      ∀ b ∈ T.buckets, 1 ≤ b.length ∧ b.length ≤ nb := by
  intro T
  induction T with
  | null => intro _ b hb; simp [Tree.buckets] at hb
  | bucket i rest =>
    intro h b hb
    simp only [Tree.buckets, List.mem_singleton] at hb
    simp only [Tree.Built] at h
    subst hb
    simp only [List.length_cons]
    omega
  | vp i => intro _ b hb; simp [Tree.buckets] at hb
  | node i m M mu L R ihL ihR =>
    intro h b hb
    simp only [Tree.Built] at h
    simp only [Tree.buckets, List.mem_append] at hb
    rcases hb with hb | hb
    · exact ihL h.2.2.2.2.2.2.2.2.2.2.1 b hb
    · exact ihR h.2.2.2.2.2.2.2.2.2.2.2 b hb

theorem built_terminals (S : List E) (distance : E → E → δ) :
    ∀ T : Tree δ, Tree.Built S distance 0 T →
      T.buckets = [] ∧ ∀ t ∈ T.terminals, ∃ i, t = .vp i := by
  intro T
  induction T with
  | null => intro _; simp [Tree.buckets, Tree.terminals]
  | bucket i rest =>
    intro h
    simp only [Tree.Built] at h
    omega
  | vp i => intro _; simp [Tree.buckets, Tree.terminals]
  | node i m M mu L R ihL ihR =>
    intro h
    simp only [Tree.Built] at h
    obtain ⟨hL1, hL2⟩ := ihL h.2.2.2.2.2.2.2.2.2.2.1
    obtain ⟨hR1, hR2⟩ := ihR h.2.2.2.2.2.2.2.2.2.2.2
    have hRt : R.truthy = true := truthy_of_indices_ne_nil R h.2.1
    refine ⟨by simp [Tree.buckets, hL1, hR1], ?_⟩
    intro t ht
    simp only [Tree.terminals, hRt, Bool.or_true, if_true, List.mem_append] at ht
    rcases ht with ht | ht
    · exact hL2 t ht
    · exact hR2 t ht

theorem built_boundsExact (S : List E) (distance : E → E → δ) (nb : Nat)
    (hnn : ∀ a b, 0 ≤ distance a b) :
    ∀ T : Tree δ, Tree.Built S distance nb T → Tree.BoundsExact S distance T := by
  intro T
  induction T with
  | null => intro _; simp [Tree.BoundsExact]
  | bucket i rest => intro _; simp [Tree.BoundsExact]
  | vp i => intro _; simp [Tree.BoundsExact]
  | node i m M mu L R ihL ihR =>
    intro h
    simp only [Tree.Built] at h
    obtain ⟨_, hRne, _, ⟨a, ha1, ha2, ha3⟩, hM1, hM2, _, ⟨jm, hjm1, hjm2⟩, _, _, hLb, hRb⟩ := h
    have hjm : jm ∈ L.indices ++ R.indices := List.mem_append_right _ hjm1
    simp only [Tree.BoundsExact]
    refine ⟨⟨a, ha1, ha2, ha3, ?_⟩, hM1, ?_, ⟨jm, hjm, hjm2⟩, ?_, ihL hLb, ihR hRb⟩
    · rw [hjm2]; exact ha2 jm hjm
    · rcases hM2 with h0 | h0
      · refine ⟨jm, hjm, ?_⟩
        have h1 := hM1 jm hjm
        rw [h0] at h1 ⊢
        exact le_antisymm (hnn _ _) h1
      · exact h0
    · rw [hjm2]; exact hM1 jm hjm

theorem recurseVPTree_ne_outOfRange (S : List E) (distance : E → E → δ) (nb : Nat)
    (rand : Nat → Nat) :
    ∀ (fuel c : Nat) (list : List (Item δ)),
      recurseVPTree S distance nb rand fuel c list ≠ .error .outOfRange := by
  intro fuel
  induction fuel with
  | zero => intro c list h; simp [recurseVPTree] at h
  | succ fuel ih =>
    intro c list
    cases list with
    | nil => rw [recurseVPTree_nil]; intro h; cases h
    | cons first others =>
      by_cases hb : nb > 0 ∧ (first :: others).length ≤ nb
      · rw [recurseVPTree_bucket S distance nb rand fuel c first others hb]
        intro h; cases h
      · by_cases hne : others = []
        · subst hne
          rw [recurseVPTree_single S distance nb rand fuel c first hb]
          intro h; cases h
        · obtain ⟨node, rest, A, B, v, mu, _, _, _, _, _, _, _, _, _, hstep⟩ :=
            recurseVPTree_step S distance nb rand c first others hb hne
          rw [hstep fuel]
          cases h1 : recurseVPTree S distance nb rand fuel (c + 1) A with
          | error e =>
            simp only [Except.bind]
            intro h
            cases h
            exact ih _ _ h1
          | ok r1 =>
            simp only [Except.bind]
            cases h2 : recurseVPTree S distance nb rand fuel r1.2 (v :: B) with
            | error e =>
              simp only
              intro h
              cases h
              exact ih _ _ h2
            | ok r2 => simp only; intro h; cases h

end BuildShape

section BuildClaims2
variable {E δ : Type} [LinearOrder δ] [Zero δ] [Inhabited E]

/-- C15: for every dataset and bucket size `nb ≥ 0`, every leaf bucket of the
tree returned by `buildVPTree` holds at least 1 and at most `nb` indices; with
`nb = 0` the tree has no bucket and every terminal node is a vantage point
`{i}` without bounds or children. -/
theorem buildVPTree_bucket_sizes (S : List E) (distance : E → E → δ) (nb : Nat)
    (rand : Nat → Nat) :
    ∃ T, buildVPTree S distance nb rand = .ok T ∧
      (∀ b ∈ T.tree.buckets, 1 ≤ b.length ∧ b.length ≤ nb) ∧
      (nb = 0 → T.tree.buckets = [] ∧ ∀ t ∈ T.tree.terminals, ∃ i, t = .vp i) := by
  obtain ⟨T, h1, _, _, _, h2⟩ := buildVPTree_built S distance nb rand
  refine ⟨T, h1, built_buckets S distance nb T.tree h2, ?_⟩
  intro h0
  subst h0
  exact built_terminals S distance T.tree h2

/-- C19: for every distance function without negative values, in the tree
returned by `buildVPTree` every node with bounds has `m` equal to the least and
`M` equal to the largest of the distances from its vantage point to the
indices stored in its two subtrees, `mu` equal to the distance to one of
them, and `m ≤ mu ≤ M`. -/
theorem buildVPTree_bounds (S : List E) (distance : E → E → δ)
    (hnn : ∀ a b, 0 ≤ distance a b) (nb : Nat) (rand : Nat → Nat) :
    ∃ T, buildVPTree S distance nb rand = .ok T ∧
      Tree.BoundsExact T.S T.distance T.tree := by
  obtain ⟨T, h1, h2, h3, _, h4⟩ := buildVPTree_built S distance nb rand
  refine ⟨T, h1, ?_⟩
  rw [h2, h3]
  exact built_boundsExact S distance nb hnn T.tree h4

end BuildClaims2
section Termination
variable {E δ : Type} [LinearOrder δ] [Zero δ] [Inhabited E]

omit [LinearOrder δ] [Zero δ] [Inhabited E] in
theorem nth_elementLoop_step {α : Type} (comp : α → α → Bool) (list : List α)
    (left nth right : Nat) (hlr : left ≤ right) (hr : right < list.length) :
    ∃ (list1 : List α) (p : Nat) (pv : α), left ≤ p ∧ p ≤ right ∧
      list1.length = list.length ∧
      ∀ fuel, nth_elementLoop comp (fuel + 1) list left nth right =
        if p - left + 1 = nth then .ok (pv, list1)
        else if nth < p - left + 1 then nth_elementLoop comp fuel list1 left nth (p - 1)
        else nth_elementLoop comp fuel list1 (p + 1) (nth - (p - left + 1)) right := by
  obtain ⟨hdec, hpre, hmid⟩ := slice_decomp list left right hlr hr
  obtain ⟨p, hp, hpc⟩ := medianOf3_spec comp list left right ((left + right) / 2)
    (by omega) (by omega) (by omega)
  have hp1 : left ≤ p := by rcases hpc with h | h | h <;> omega
  have hp2 : p ≤ right := by rcases hpc with h | h | h <;> omega
  obtain ⟨lows, pv, highs, hpart, hperm, _, _⟩ :=
    partition_spec comp (list.take left) (slice list left right) (list.drop (right + 1))
      left right p hpre.symm (by omega) hp1 hp2
  rw [← hdec] at hpart
  have hpl : lows.length + (highs.length + 1) = right + 1 - left := by
    rw [← hmid]
    simpa using hperm.length_eq
  have hread : (list.take left ++ (lows ++ pv :: (highs ++ list.drop (right + 1))))[
      (list.take left).length + lows.length]? = some pv := by
    have := getElem?_append_cons_length (list.take left ++ lows) pv
      (highs ++ list.drop (right + 1))
    simpa using this
  refine ⟨list.take left ++ (lows ++ pv :: (highs ++ list.drop (right + 1))),
    (list.take left).length + lows.length, pv, by omega, by omega, ?_, ?_⟩
  · have := congrArg List.length hdec
    simp only [List.length_append, List.length_cons] at this ⊢
    omega
  · intro fuel
    simp only [nth_elementLoop, hp, hpart, hread]

/-- C13: `recurseVPTree` terminates on every working list, bucket size and
distance function: any fuel above the length of the list gives a result; a
call that does not return at once recurses on two lists that are both strictly
shorter than its own; and each iteration of the loop of `nth_element` returns
or goes on with a range (`p - left` or `right - p` elements) strictly smaller
than `[left, right]`, so that fuel equal to the size of the range is enough. -/
theorem recurseVPTree_terminates (S : List E) (distance : E → E → δ) (nb : Nat)
    (rand : Nat → Nat) (c : Nat) (list : List (Item δ)) :
    (∀ fuel, list.length < fuel →
      ∃ T c', recurseVPTree S distance nb rand fuel c list = .ok (T, c')) ∧
    (¬ (nb > 0 ∧ list.length ≤ nb) → 2 ≤ list.length →
      ∃ (leftItems rightItems : List (Item δ)) (i : Nat) (m : Option δ) (M mu : δ),
        leftItems.length < list.length ∧ rightItems.length < list.length ∧
        ∀ fuel, recurseVPTree S distance nb rand (fuel + 1) c list =
          (recurseVPTree S distance nb rand fuel (c + 1) leftItems).bind (fun r1 =>
            (recurseVPTree S distance nb rand fuel r1.2 rightItems).bind (fun r2 =>
              .ok (.node i m M mu r1.1 r2.1, r2.2)))) ∧
    (∀ (comp : Item δ → Item δ → Bool) (l : List (Item δ)) (left nth right : Nat),
      left ≤ right → right < l.length →
      (∃ (l1 : List (Item δ)) (p : Nat) (pv : Item δ), left ≤ p ∧ p ≤ right ∧
        p - left < right + 1 - left ∧ right - p < right + 1 - left ∧
        ∀ fuel, nth_elementLoop comp (fuel + 1) l left nth right =
          if p - left + 1 = nth then .ok (pv, l1)
          else if nth < p - left + 1 then nth_elementLoop comp fuel l1 left nth (p - 1)
          else nth_elementLoop comp fuel l1 (p + 1) (nth - (p - left + 1)) right) ∧
      (1 ≤ nth → nth ≤ right + 1 - left → ∀ fuel, right + 1 - left ≤ fuel →
        ∃ v l', nth_elementLoop comp fuel l left nth right = .ok (v, l'))) := by
  refine ⟨?_, ?_, ?_⟩
  · intro fuel hf
    obtain ⟨T, c', h, _⟩ := recurseVPTree_built S distance nb rand fuel c list hf
    exact ⟨T, c', h⟩
  · intro hb h2
    cases list with
    | nil => simp at h2
    | cons first others =>
      have hne : others ≠ [] := by
        intro h; subst h; simp at h2
      obtain ⟨node, rest, A, B, v, mu, _, _, _, hA, hAB, _, _, _, _, hstep⟩ :=
        recurseVPTree_step S distance nb rand c first others hb hne
      refine ⟨A, v :: B, node.i, _, _, mu, ?_, ?_, hstep⟩
      · simp only [List.length_cons]; omega
      · simp only [List.length_cons]; omega
  · intro comp l left nth right hlr hr
    constructor
    · obtain ⟨l1, p, pv, hp1, hp2, _, hstep⟩ := nth_elementLoop_step comp l left nth right hlr hr
      exact ⟨l1, p, pv, hp1, hp2, by omega, by omega, hstep⟩
    · intro h1 h2 fuel hf
      obtain ⟨hdec, hpre, hmid⟩ := slice_decomp l left right hlr hr
      obtain ⟨A, v, B, hrun, _, _⟩ := nth_elementLoop_frame comp fuel (l.take left)
        (slice l left right) (l.drop (right + 1)) left nth right hpre.symm (by omega) h1
        (by omega) (by omega)
      rw [← hdec] at hrun
      exact ⟨v, _, hrun⟩

/-- C14: `buildVPTree` returns a tree for every dataset, bucket size and
sequence of draws; `recurseVPTree` never ends in the `OutOfRange` error,
whatever its fuel; and when a list of at least two items is split, the vantage
point drawn is an item of the list, the `listLength` items left after taking
it out are at least one, and the call of `select` on them passes the rank
`floor(listLength / 2)`, which lies in `[0, listLength - 1]`, and returns. -/
theorem buildVPTree_never_outOfRange (S : List E) (distance : E → E → δ) (nb : Nat)
    (rand : Nat → Nat) :
    (∃ T, buildVPTree S distance nb rand = .ok T) ∧
    (∀ (fuel c : Nat) (list : List (Item δ)),
      recurseVPTree S distance nb rand fuel c list ≠ .error .outOfRange) ∧
    (∀ (c : Nat) (first : Item δ) (others : List (Item δ)), others ≠ [] →
      ∃ node : Item δ,
        (first :: others)[selectVPIndex rand c (first :: others)]? = some node ∧
        ∀ list1 : List (Item δ),
          list1 = (first :: others).take (selectVPIndex rand c (first :: others)) ++
            (first :: others).drop (selectVPIndex rand c (first :: others) + 1) →
          list1.length = (first :: others).length - 1 ∧ 1 ≤ list1.length ∧
          (distLoop S distance (elemAt S node.i) list1 none 0).1.length = list1.length ∧
          (0 : Int) ≤ ((list1.length / 2 : Nat) : Int) ∧
          ((list1.length / 2 : Nat) : Int) ≤ (list1.length : Int) - 1 ∧
          ∃ median list3,
            select distanceComparator (distLoop S distance (elemAt S node.i) list1 none 0).1
              ((((first :: others).length - 1) / 2 : Nat) : Int) = .ok (median, list3)) := by
  refine ⟨?_, recurseVPTree_ne_outOfRange S distance nb rand, ?_⟩
  · obtain ⟨T, h, _⟩ := buildVPTree_built S distance nb rand
    exact ⟨T, h⟩
  · intro c first others hne
    have hvp : rand c % (first :: others).length < (first :: others).length :=
      Nat.mod_lt _ (by simp)
    obtain ⟨X, node, Y, hsplit, hX⟩ := exists_split_at (first :: others) _ hvp
    have hread : (first :: others)[rand c % (first :: others).length]? = some node := by
      rw [← hX]
      conv => lhs; arg 1; rw [hsplit]
      exact getElem?_append_cons_length X node Y
    have hlist1 : (first :: others).take (rand c % (first :: others).length) ++
        (first :: others).drop (rand c % (first :: others).length + 1) = X ++ Y := by
      rw [← hX]
      conv => lhs; arg 1; arg 2; rw [hsplit]
      conv => lhs; arg 2; arg 2; rw [hsplit]
      rw [List.take_left]
      have : X ++ node :: Y = (X ++ [node]) ++ Y := by simp
      rw [this, List.drop_left' (by simp)]
    have hlenXY : (X ++ Y).length = others.length := by
      have := congrArg List.length hsplit
      simp at this ⊢
      omega
    have hl1 : (first :: others).length = others.length + 1 := rfl
    have hpos : others.length ≠ 0 := by
      intro h; exact hne (List.eq_nil_of_length_eq_zero h)
    refine ⟨node, hread, ?_⟩
    intro list1 h1
    simp only [selectVPIndex] at h1
    rw [hlist1] at h1
    subst h1
    have hitems : (distLoop S distance (elemAt S node.i) (X ++ Y) none 0).1.length
        = (X ++ Y).length := by
      rw [distLoop_items]; simp
    have hkl : ((first :: others).length - 1) / 2
        < (distLoop S distance (elemAt S node.i) (X ++ Y) none 0).1.length := by
      rw [hitems, hlenXY, hl1]
      omega
    obtain ⟨A, v, B, hsel, _⟩ := select_spec distanceComparator
      distanceComparator_irrefl distanceComparator_trans _ _ hkl
    refine ⟨by rw [hlenXY, hl1]; omega, by omega, hitems, by omega, by omega, v, _, hsel⟩

/-- Witness of C19 on five points of a line with `|a - b|`. -/
theorem buildVPTree_bounds_witness :
    (∀ a b : Int, 0 ≤ |a - b|) ∧
    ∃ T, buildVPTree ([0, 1, 2, 3, 4] : List Int) (fun a b => |a - b|) 0 (fun _ => 0) = .ok T ∧
      Tree.BoundsExact T.S T.distance T.tree :=
  ⟨fun a b => abs_nonneg (a - b),
    buildVPTree_bounds ([0, 1, 2, 3, 4] : List Int) (fun a b => |a - b|)
      (fun a b => abs_nonneg (a - b)) 0 (fun _ => 0)⟩

end Termination

/-! ## Pruning arithmetic: where it is exact -/

section ExactArith

theorem roundDouble_exact (n : Int) (h : n.natAbs ≤ 2 ^ 53) : roundDouble n = n := by
  rcases Nat.lt_or_ge n.natAbs (2 ^ 53) with hlt | hge
  · unfold roundDouble
    rw [if_pos hlt]
  · have heq : n.natAbs = 2 ^ 53 := Nat.le_antisymm h hge
    rcases Int.natAbs_eq n with hn | hn
    · rw [hn, heq]; decide
    · rw [hn, heq]; decide

theorem natAbs_add_le_pow (a b : Int) (ha : a.natAbs ≤ 2 ^ 52) (hb : b.natAbs ≤ 2 ^ 52) :
    (a + b).natAbs ≤ 2 ^ 53 ∧ (a - b).natAbs ≤ 2 ^ 53 := by
  have h1 := Int.natAbs_add_le a b
  have h2 := Int.natAbs_sub_le a b
  constructor <;> omega

/-- Double-precision `+` and `-` do not round on the integers of magnitude at
most `2 ^ 52`. -/
theorem exactOn_doubleInt : Arith.ExactOn (fun x : Int => x.natAbs ≤ 2 ^ 52) := by
  intro a b ha hb
  obtain ⟨h1, h2⟩ := natAbs_add_le_pow a b ha hb
  exact ⟨roundDouble_exact _ h1, roundDouble_exact _ h2⟩

/-- Values of the rounding and of the pruning tests in double precision:
`2 ^ 53 + 1` is rounded to `2 ^ 53` and `2 ^ 53 + 3` to `2 ^ 53 + 4`; with
`M = 2 ^ 53`, `tau = 1` and `dist = 2 ^ 53` the test `dist < M + tau` is false,
and with `mu = 2 ^ 53 + 6`, `tau = 3` and `dist = 2 ^ 53 + 4` the test
`mu - tau < dist` is false. -/
theorem roundDouble_examples :
    roundDouble 9007199254740993 = 9007199254740992 ∧
    roundDouble 9007199254740995 = 9007199254740996 ∧
    roundDouble (-9007199254740995) = -9007199254740996 ∧
    roundDouble 9007199254740994 = 9007199254740994 ∧
    ltPlusTau (9007199254740992 : Int) 9007199254740992 (some 1) = false ∧
    muMinusTauLt (9007199254740998 : Int) (some 3) 9007199254740996 = false ∧
    mMinusTauLt (some (9007199254740998 : Int)) (some 3) 9007199254740996 = false :=
  ⟨rfl, rfl, rfl, rfl, rfl, rfl, rfl⟩

theorem roundDoubleRat_exact (x : ℚ) (h : x.num.natAbs ≤ 2 ^ 53) : roundDoubleRat x = x := by
  unfold roundDoubleRat
  rw [roundDouble_exact _ h]
  exact Rat.num_div_den x

theorem natAbs_num_half_le (n : Int) : ((n : ℚ) / 2).num.natAbs ≤ n.natAbs := by
  by_cases hn : n = 0
  · subst hn; simp
  · have hd : ((n : ℚ) / 2).num ∣ n := by
      have := Rat.num_dvd n (b := 2) (by decide)
      rwa [Rat.divInt_eq_div] at this
    exact Nat.le_of_dvd (Int.natAbs_pos.2 hn) (Int.natAbs_dvd_natAbs.2 hd)

/-- Double-precision `+` and `-` do not round on the halves `n / 2` of the
integers `n` of magnitude at most `2 ^ 52`. -/
theorem exactOn_doubleRat :
    Arith.ExactOn (fun x : ℚ => ∃ n : Int, n.natAbs ≤ 2 ^ 52 ∧ x = (n : ℚ) / 2) := by
  intro a b ha hb
  obtain ⟨n, hn, rfl⟩ := ha
  obtain ⟨m, hm, rfl⟩ := hb
  obtain ⟨h1, h2⟩ := natAbs_add_le_pow n m hn hm
  constructor
  · show roundDoubleRat _ = _
    have e : (n : ℚ) / 2 + (m : ℚ) / 2 = ((n + m : Int) : ℚ) / 2 := by push_cast; ring
    rw [e]
    exact roundDoubleRat_exact _ (le_trans (natAbs_num_half_le _) h1)
  · show roundDoubleRat _ = _
    have e : (n : ℚ) / 2 - (m : ℚ) / 2 = ((n - m : Int) : ℚ) / 2 := by push_cast; ring
    rw [e]
    exact roundDoubleRat_exact _ (le_trans (natAbs_num_half_le _) h2)

variable {E δ : Type}

theorem elemAt_mem [Inhabited E] (S : List E) (i : Nat) (h : i < S.length) : elemAt S i ∈ S := by
  unfold elemAt
  rw [List.getD_eq_getElem _ _ h]
  exact List.getElem_mem h

variable [LinearOrderedAddCommGroup δ]

theorem metric_nonneg (distance : E → E → δ) (hsymm : ∀ a b, distance a b = distance b a)
    (htri : ∀ a b c, distance a c ≤ distance a b + distance b c) (a b : E) :
    0 ≤ distance a b := by
  have h1 := htri a b a
  rw [hsymm b a] at h1
  have h2 := htri a a b
  have h0 : 0 ≤ distance a a := by
    have := sub_nonneg.2 h2
    simpa using this
  by_contra hneg
  have hlt : distance a b < 0 := lt_of_not_le hneg
  have : distance a b + distance a b < 0 := add_neg hlt hlt
  exact absurd (le_trans h0 h1) (not_le.2 this)

variable [Inhabited E]

theorem built_wf (S : List E) (distance : E → E → δ) (nb : Nat) :
    ∀ T : Tree δ, Tree.Built S distance nb T → Tree.WF S distance T := by
  intro T
  induction T with
  | null => intro _; simp [Tree.WF]
  | bucket i rest => intro _; simp [Tree.WF]
  | vp i => intro _; simp [Tree.WF]
  | node i m M mu L R ihL ihR =>
    intro h
    simp only [Tree.Built] at h
    obtain ⟨_, _, _, ⟨a, hma, hlow, _⟩, hup, _, _, _, hL, hR, hbL, hbR⟩ := h
    simp only [Tree.WF]
    exact ⟨⟨a, hma, hlow⟩, hup, hL, hR, ihL hbL, ihR hbR⟩

theorem boundsExact_boundsIn (S : List E) (distance : E → E → δ) (Pr : δ → Prop) :
    ∀ T : Tree δ, Tree.BoundsExact S distance T →
      (∀ i ∈ T.indices, ∀ j ∈ T.indices, Pr (distance (elemAt S i) (elemAt S j))) →
      Tree.BoundsIn Pr T := by
  intro T
  induction T with
  | null => intro _ _; simp [Tree.BoundsIn]
  | bucket i rest => intro _ _; simp [Tree.BoundsIn]
  | vp i => intro _ _; simp [Tree.BoundsIn]
  | node i m M mu L R ihL ihR =>
    intro h hP
    simp only [Tree.BoundsExact] at h
    obtain ⟨⟨a, hma, _, ⟨ja, hja, ha⟩, _⟩, _, ⟨jM, hjM, hM⟩, ⟨jmu, hjmu, hmu⟩, _, hL, hR⟩ := h
    simp only [Tree.indices] at hP
    have hi : i ∈ i :: (L.indices ++ R.indices) := List.mem_cons_self _ _
    simp only [Tree.BoundsIn]
    refine ⟨?_, ?_, ?_, ihL hL ?_, ihR hR ?_⟩
    · intro a' ha'
      rw [hma] at ha'
      cases ha'
      rw [ha]
      exact hP i hi ja (List.mem_cons_of_mem _ hja)
    · rw [hM]; exact hP i hi jM (List.mem_cons_of_mem _ hjM)
    · rw [hmu]; exact hP i hi jmu (List.mem_cons_of_mem _ hjmu)
    · intro x hx y hy
      exact hP x (List.mem_cons_of_mem _ (List.mem_append_left _ hx)) y
        (List.mem_cons_of_mem _ (List.mem_append_left _ hy))
    · intro x hx y hy
      exact hP x (List.mem_cons_of_mem _ (List.mem_append_right _ hx)) y
        (List.mem_cons_of_mem _ (List.mem_append_right _ hy))

theorem buildVPTree_boundsIn (S : List E) (distance : E → E → δ)
    (hnn : ∀ a b, 0 ≤ distance a b) (Pr : δ → Prop)
    (hPd : ∀ x ∈ S, ∀ y ∈ S, Pr (distance x y)) (nb : Nat) (rand : Nat → Nat) (T : VPTree E δ)
    (hb : buildVPTree S distance nb rand = .ok T) :
    T.S = S ∧ T.distance = distance ∧ T.tree.indices.Perm (List.range S.length) ∧
      Tree.WF S distance T.tree ∧ Tree.BoundsIn Pr T.tree := by
  obtain ⟨T', hb', hS, hd, hperm, hbuilt⟩ := buildVPTree_built S distance nb rand
  rw [hb] at hb'
  cases hb'
  refine ⟨hS, hd, hperm, built_wf S distance nb _ hbuilt,
    boundsExact_boundsIn S distance Pr _ (built_boundsExact S distance nb hnn _ hbuilt) ?_⟩
  intro i hi j hj
  exact hPd _ (elemAt_mem S i (List.mem_range.1 (hperm.subset hi))) _
    (elemAt_mem S j (List.mem_range.1 (hperm.subset hj)))

end ExactArith

/-! ## Search without limit -/

section Unbounded
variable {E δ : Type} [LinearOrderedAddCommGroup δ] [Inhabited E]

omit [Inhabited E] in
theorem consider_unbounded (n : Option Nat) (hz : sizeOf? n = 0) (filterFn : Option (E → Bool))
    (st : SearchState δ) (hs : SortedQ st.W) (id : Nat) (el : E) (d : δ) :
    ∃ st', consider n filterFn id el d st = .ok st' ∧ st'.tau = st.tau ∧ SortedQ st'.W ∧
      ((ltTau d st.tau = true ∧ passes filterFn el = true ∧
          ∃ pos, pos ≤ st.W.length ∧ st'.W = st.W.take pos ++ ⟨id, d⟩ :: st.W.drop pos) ∨
        (¬ (ltTau d st.tau = true ∧ passes filterFn el = true) ∧ st'.W = st.W)) := by
  unfold consider
  by_cases h1 : ltTau d st.tau = true
  · by_cases h2 : passes filterFn el = true
    · obtain ⟨pos, q', ret, hi, hpos, hq, hsp, _, _, _, hret⟩ :=
        insert_general n st.W hs id d
      rw [afterInsert_unbounded n hz] at hq
      have hr : ret = none := by rw [hret]; simp [hz]
      subst hq
      subst hr
      rw [if_pos h1, if_pos h2, hi]
      exact ⟨_, rfl, rfl, hsp, Or.inl ⟨h1, h2, pos, hpos, rfl⟩⟩
    · rw [if_pos h1, if_neg h2]
      exact ⟨st, rfl, rfl, hs, Or.inr ⟨fun h => h2 h.2, rfl⟩⟩
  · rw [if_neg h1]
    exact ⟨st, rfl, rfl, hs, Or.inr ⟨fun h => h1 h.1, rfl⟩⟩

omit [Inhabited E] in
theorem consider_zero_eq_absent (filterFn : Option (E → Bool)) (id : Nat) (el : E) (d : δ)
    (st : SearchState δ) :
    consider (some 0) filterFn id el d st = consider none filterFn id el d st := rfl

theorem bucketLoop_zero_eq_absent (S : List E) (distance : E → E → δ) (q : E)
    (filterFn : Option (E → Bool)) :
    ∀ (ids : List Nat) (st : SearchState δ),
      bucketLoop S distance q (some 0) filterFn ids st
        = bucketLoop S distance q none filterFn ids st := by
  intro ids
  induction ids with
  | nil => intro st; rfl
  | cons id rest ih =>
    intro st
    simp only [bucketLoop, consider_zero_eq_absent]
    cases consider none filterFn id (elemAt S id) (distance q (elemAt S id))
        { st with comparisons := st.comparisons + 1 } with
    | error e => rfl
    | ok st1 => exact ih st1

theorem doSearch_zero_eq_absent [Arith δ] (S : List E) (distance : E → E → δ) (q : E)
    (filterFn : Option (E → Bool)) :
    ∀ (T : Tree δ) (st : SearchState δ),
      doSearch S distance q (some 0) filterFn T st = doSearch S distance q none filterFn T st := by
  intro T
  induction T with
  | null => intro st; rfl
  | bucket i rest => intro st; exact bucketLoop_zero_eq_absent S distance q filterFn _ st
  | vp i => intro st; rfl
  | node i m M mu L R ihL ihR =>
    intro st
    simp only [doSearch, consider_zero_eq_absent, ihL, ihR]

theorem searchVPTree_zero_eq_absent [Arith δ] (T : VPTree E δ) (q : E) (maxDistance : Option δ)
    (queryDistFn : Option (E → E → δ)) (filterFn : Option (E → Bool)) :
    searchVPTree T q (some 0) maxDistance queryDistFn filterFn
      = searchVPTree T q none maxDistance queryDistFn filterFn := by
  unfold searchVPTree
  simp only [doSearch_zero_eq_absent]

theorem doSearch_unbounded_keeps [Arith δ] (S : List E) (distance : E → E → δ) (q : E) (n : Option Nat)
    (hz : sizeOf? n = 0) (filterFn : Option (E → Bool)) (T : Tree δ) (st : SearchState δ)
    (hs : SortedQ st.W) :
    ∃ st', doSearch S distance q n filterFn T st = .ok st' ∧ st'.tau = st.tau ∧
      st.W.Sublist st'.W ∧ SortedQ st'.W := by
  obtain ⟨st', h1, h2, h3, h4⟩ := doSearch_preserves S distance q n filterFn
    (fun W tau => SortedQ W ∧ tau = st.tau ∧ st.W.Sublist W)
    (by
      intro s hP id el d
      obtain ⟨s', h1, h2, h3, h4⟩ := consider_unbounded n hz filterFn s hP.1 id el d
      refine ⟨s', h1, h3, by rw [h2]; exact hP.2.1, ?_⟩
      rcases h4 with ⟨_, _, pos, _, hW⟩ | ⟨_, hW⟩
      · rw [hW]
        refine hP.2.2.trans ?_
        conv => lhs; rw [← List.take_append_drop pos s.W]
        exact List.Sublist.append (List.Sublist.refl _) (List.sublist_cons_self _ _)
      · rw [hW]; exact hP.2.2)
    T st ⟨hs, rfl, List.Sublist.refl _⟩
  exact ⟨st', h1, h3, h4, h2⟩

theorem searchInvU_perm (S : List E) (distance : E → E → δ) (q : E) (tau0 : Option δ)
    (filterFn : Option (E → Bool)) (st : SearchState δ) (P P' : List Nat) (hp : P.Perm P')
    (h : SearchInvU S distance q tau0 filterFn st P) :
    SearchInvU S distance q tau0 filterFn st P' :=
  ⟨h.1, h.2.1, h.2.2.1.trans (hp.filter _), h.2.2.2⟩

theorem searchInvU_skip_all (S : List E) (distance : E → E → δ) (q : E) (tau0 : Option δ)
    (filterFn : Option (E → Bool)) (st : SearchState δ) (P : List Nat)
    (h : SearchInvU S distance q tau0 filterFn st P) (Js : List Nat)
    (hJ : ∀ j ∈ Js, ltTau (distance q (elemAt S j)) st.tau = false) :
    SearchInvU S distance q tau0 filterFn st (Js ++ P) := by
  refine ⟨h.1, h.2.1, ?_, h.2.2.2⟩
  have hnil : Js.filter (fun j => ltTau (distance q (elemAt S j)) tau0 &&
      passes filterFn (elemAt S j)) = [] := by
    rw [List.filter_eq_nil_iff]
    intro j hj
    have := hJ j hj
    rw [h.1] at this
    simp [this]
  rw [List.filter_append, hnil, List.nil_append]
  exact h.2.2.1

theorem consider_invU (S : List E) (distance : E → E → δ) (q : E) (n : Option Nat)
    (hz : sizeOf? n = 0) (tau0 : Option δ) (filterFn : Option (E → Bool))
    (st : SearchState δ) (P : List Nat) (j : Nat)
    (h : SearchInvU S distance q tau0 filterFn st P) :
    ∃ st', consider n filterFn j (elemAt S j) (distance q (elemAt S j)) st = .ok st' ∧
      SearchInvU S distance q tau0 filterFn st' (j :: P) := by
  obtain ⟨htau, hs, hperm, hmem⟩ := h
  obtain ⟨st', h1, h2, h3, h4⟩ := consider_unbounded n hz filterFn st hs j (elemAt S j)
    (distance q (elemAt S j))
  refine ⟨st', h1, h2.trans htau, h3, ?_, ?_⟩
  · rcases h4 with ⟨hc1, hc2, pos, _, hW⟩ | ⟨hc, hW⟩
    · rw [htau] at hc1
      rw [List.filter_cons_of_pos (by simp [hc1, hc2]), hW]
      simp only [List.map_append, List.map_cons]
      refine List.perm_middle.trans (List.Perm.cons _ ?_)
      rw [← List.map_append, List.take_append_drop]
      exact hperm
    · rw [htau] at hc
      rw [List.filter_cons_of_neg (by simpa using hc), hW]
      exact hperm
  · intro e he
    rcases h4 with ⟨_, _, pos, _, hW⟩ | ⟨_, hW⟩
    · rw [hW] at he
      rcases List.mem_append.1 he with he | he
      · exact hmem e (List.mem_of_mem_take he)
      · rcases List.mem_cons.1 he with he | he
        · rw [he]
        · exact hmem e (List.mem_of_mem_drop he)
    · rw [hW] at he
      exact hmem e he

theorem bucketLoop_invU (S : List E) (distance : E → E → δ) (q : E) (n : Option Nat)
    (hz : sizeOf? n = 0) (tau0 : Option δ) (filterFn : Option (E → Bool)) :
    ∀ (ids : List Nat) (st : SearchState δ) (P : List Nat),
      SearchInvU S distance q tau0 filterFn st P →
      ∃ st', bucketLoop S distance q n filterFn ids st = .ok st' ∧
        SearchInvU S distance q tau0 filterFn st' (ids ++ P) := by
  intro ids
  induction ids with
  | nil => intro st P h; exact ⟨st, rfl, h⟩
  | cons id rest ih =>
    intro st P h
    obtain ⟨st1, h1, h2⟩ := consider_invU S distance q n hz tau0 filterFn
      { st with comparisons := st.comparisons + 1 } P id h
    obtain ⟨st2, h3, h4⟩ := ih st1 (id :: P) h2
    refine ⟨st2, by simp only [bucketLoop, h1, h3], ?_⟩
    refine searchInvU_perm S distance q tau0 filterFn st2 _ _ ?_ h4
    exact List.perm_middle

theorem doSearch_invU [Arith δ] (S : List E) (distance : E → E → δ) (q : E) (n : Option Nat)
    (hz : sizeOf? n = 0) (tau0 : Option δ) (Pr : δ → Prop)
    (hmet : ∀ t, tau0 = some t → (∀ a b, distance a b = distance b a) ∧
      (∀ a b c, distance a c ≤ distance a b + distance b c) ∧ Arith.ExactOn Pr ∧ Pr t)
    (filterFn : Option (E → Bool)) :
    ∀ (T : Tree δ) (st : SearchState δ) (P : List Nat), Tree.WF S distance T →
      (∀ t, tau0 = some t → Tree.BoundsIn Pr T) →
      SearchInvU S distance q tau0 filterFn st P →
      ∃ st', doSearch S distance q n filterFn T st = .ok st' ∧
        SearchInvU S distance q tau0 filterFn st' (T.indices ++ P) := by
  intro T
  induction T with
  | null => intro st P _ _ h; exact ⟨st, rfl, h⟩
  | bucket i rest =>
    intro st P _ _ h
    exact bucketLoop_invU S distance q n hz tau0 filterFn (i :: rest) st P h
  | vp i =>
    intro st P _ _ h
    exact consider_invU S distance q n hz tau0 filterFn
      { st with comparisons := st.comparisons + 1 } P i h
  | node i m M mu L R ihL ihR =>
    intro st P hwf hbd h
    simp only [Tree.WF] at hwf
    obtain ⟨⟨a, hma, hlow⟩, hup, hLmu, hRmu, hLw, hRw⟩ := hwf
    have hbL : ∀ t, tau0 = some t → Tree.BoundsIn Pr L := fun t ht => by
      have := hbd t ht
      simp only [Tree.BoundsIn] at this
      exact this.2.2.2.1
    have hbR : ∀ t, tau0 = some t → Tree.BoundsIn Pr R := fun t ht => by
      have := hbd t ht
      simp only [Tree.BoundsIn] at this
      exact this.2.2.2.2
    simp only [Tree.indices]
    obtain ⟨st1, h1, h2⟩ := consider_invU S distance q n hz tau0 filterFn
      { st with comparisons := st.comparisons + 1 } P i h
    simp only [doSearch, h1]
    by_cases hlt : distance q (elemAt S i) < mu
    · simp only [hlt, if_true]
      have hA : ∃ st2, (if L.truthy = true ∧ mMinusTauLt m st1.tau (distance q (elemAt S i)) = true
          then doSearch S distance q n filterFn L st1 else .ok st1) = .ok st2 ∧
          SearchInvU S distance q tau0 filterFn st2 (L.indices ++ i :: P) := by
        split_ifs with hc
        · exact ihL st1 (i :: P) hLw hbL h2
        · refine ⟨st1, rfl, searchInvU_skip_all S distance q tau0 filterFn st1 _ h2 _ ?_⟩
          intro j hj
          by_cases htr : L.truthy = true
          · have hm : mMinusTauLt m st1.tau (distance q (elemAt S i)) = false := by
              by_contra hcon
              exact hc ⟨htr, by simpa using hcon⟩
            rw [hma] at hm
            cases htau : st1.tau with
            | none => rw [htau] at hm; simp [mMinusTauLt] at hm
            | some t =>
              obtain ⟨hsymm, htri, hex, hPt⟩ := hmet t (by rw [← htau]; exact h2.1.symm)
              have hb := hbd t (by rw [← htau]; exact h2.1.symm)
              simp only [Tree.BoundsIn] at hb
              rw [htau] at hm
              simp only [mMinusTauLt, decide_eq_false_iff_not] at hm
              rw [(hex a t (hb.1 a hma) hPt).2] at hm
              simp only [ltTau, decide_eq_false_iff_not]
              exact lowerPrune distance hsymm htri q (elemAt S i) (elemAt S j) a t
                (hlow j (List.mem_append_left _ hj)) hm
          · rw [indices_of_not_truthy L (by simpa using htr)] at hj
            simp at hj
      obtain ⟨st2, h3, h4⟩ := hA
      rw [h3]
      simp only
      have hB : ∃ st3, (if R.truthy = true ∧ muMinusTauLt mu st2.tau (distance q (elemAt S i)) = true
          then doSearch S distance q n filterFn R st2 else .ok st2) = .ok st3 ∧
          SearchInvU S distance q tau0 filterFn st3 (R.indices ++ (L.indices ++ i :: P)) := by
        split_ifs with hc
        · exact ihR st2 _ hRw hbR h4
        · refine ⟨st2, rfl, searchInvU_skip_all S distance q tau0 filterFn st2 _ h4 _ ?_⟩
          intro j hj
          by_cases htr : R.truthy = true
          · have hm : muMinusTauLt mu st2.tau (distance q (elemAt S i)) = false := by
              by_contra hcon
              exact hc ⟨htr, by simpa using hcon⟩
            cases htau : st2.tau with
            | none => rw [htau] at hm; simp [muMinusTauLt] at hm
            | some t =>
              obtain ⟨hsymm, htri, hex, hPt⟩ := hmet t (by rw [← htau]; exact h4.1.symm)
              have hb := hbd t (by rw [← htau]; exact h4.1.symm)
              simp only [Tree.BoundsIn] at hb
              rw [htau] at hm
              simp only [muMinusTauLt, decide_eq_false_iff_not] at hm
              rw [(hex mu t hb.2.2.1 hPt).2] at hm
              simp only [ltTau, decide_eq_false_iff_not]
              exact lowerPrune distance hsymm htri q (elemAt S i) (elemAt S j) mu t
                (hRmu j hj) hm
          · rw [indices_of_not_truthy R (by simpa using htr)] at hj
            simp at hj
      obtain ⟨st3, h5, h6⟩ := hB
      exact ⟨st3, h5, searchInvU_perm S distance q tau0 filterFn st3 _ _
        (perm_node_lr i L.indices R.indices P) h6⟩
    · simp only [hlt, if_false]
      have hA : ∃ st2, (if R.truthy = true ∧ ltPlusTau (distance q (elemAt S i)) M st1.tau = true
          then doSearch S distance q n filterFn R st1 else .ok st1) = .ok st2 ∧
          SearchInvU S distance q tau0 filterFn st2 (R.indices ++ i :: P) := by
        split_ifs with hc
        · exact ihR st1 (i :: P) hRw hbR h2
        · refine ⟨st1, rfl, searchInvU_skip_all S distance q tau0 filterFn st1 _ h2 _ ?_⟩
          intro j hj
          by_cases htr : R.truthy = true
          · have hm : ltPlusTau (distance q (elemAt S i)) M st1.tau = false := by
              by_contra hcon
              exact hc ⟨htr, by simpa using hcon⟩
            cases htau : st1.tau with
            | none => rw [htau] at hm; simp [ltPlusTau] at hm
            | some t =>
              obtain ⟨hsymm, htri, hex, hPt⟩ := hmet t (by rw [← htau]; exact h2.1.symm)
              have hb := hbd t (by rw [← htau]; exact h2.1.symm)
              simp only [Tree.BoundsIn] at hb
              rw [htau] at hm
              simp only [ltPlusTau, decide_eq_false_iff_not] at hm
              rw [(hex M t hb.2.1 hPt).1] at hm
              simp only [ltTau, decide_eq_false_iff_not]
              exact upperPrune distance hsymm htri q (elemAt S i) (elemAt S j) M t
                (hup j (List.mem_append_right _ hj)) hm
          · rw [indices_of_not_truthy R (by simpa using htr)] at hj
            simp at hj
      obtain ⟨st2, h3, h4⟩ := hA
      rw [h3]
      simp only
      have hB : ∃ st3, (if L.truthy = true ∧ ltPlusTau (distance q (elemAt S i)) mu st2.tau = true
          then doSearch S distance q n filterFn L st2 else .ok st2) = .ok st3 ∧
          SearchInvU S distance q tau0 filterFn st3 (L.indices ++ (R.indices ++ i :: P)) := by
        split_ifs with hc
        · exact ihL st2 _ hLw hbL h4
        · refine ⟨st2, rfl, searchInvU_skip_all S distance q tau0 filterFn st2 _ h4 _ ?_⟩
          intro j hj
          by_cases htr : L.truthy = true
          · have hm : ltPlusTau (distance q (elemAt S i)) mu st2.tau = false := by
              by_contra hcon
              exact hc ⟨htr, by simpa using hcon⟩
            cases htau : st2.tau with
            | none => rw [htau] at hm; simp [ltPlusTau] at hm
            | some t =>
              obtain ⟨hsymm, htri, hex, hPt⟩ := hmet t (by rw [← htau]; exact h4.1.symm)
              have hb := hbd t (by rw [← htau]; exact h4.1.symm)
              simp only [Tree.BoundsIn] at hb
              rw [htau] at hm
              simp only [ltPlusTau, decide_eq_false_iff_not] at hm
              rw [(hex mu t hb.2.2.1 hPt).1] at hm
              simp only [ltTau, decide_eq_false_iff_not]
              exact upperPrune distance hsymm htri q (elemAt S i) (elemAt S j) mu t
                (hLmu j hj) hm
          · rw [indices_of_not_truthy L (by simpa using htr)] at hj
            simp at hj
      obtain ⟨st3, h5, h6⟩ := hB
      exact ⟨st3, h5, searchInvU_perm S distance q tau0 filterFn st3 _ _
        (perm_node_rl i L.indices R.indices P) h6⟩


theorem searchInvU_sorted (S : List E) (distance : E → E → δ) (q : E) (tau0 : Option δ)
    (filterFn : Option (E → Bool)) (st : SearchState δ) (P : List Nat)
    (h : SearchInvU S distance q tau0 filterFn st P) :
    st.W.map Entry.priority
      = (candidates S distance q tau0 filterFn P).insertionSort (· ≤ ·) := by
  obtain ⟨_, hs, hperm, hmem⟩ := h
  have hmap : st.W.map Entry.priority
      = (st.W.map Entry.data).map (fun j => distance q (elemAt S j)) := by
    rw [List.map_map]
    exact List.map_congr_left hmem
  refine List.eq_of_perm_of_sorted ?_ ?_ (List.sorted_insertionSort _ _)
  · rw [hmap]
    exact (hperm.map _).trans (List.perm_insertionSort _ _).symm
  · exact List.pairwise_map.2 hs

theorem search_unbounded_built [Arith δ] (S : List E) (distance : E → E → δ) (nb : Nat)
    (rand : Nat → Nat) (q : E) (n : Option Nat) (hz : sizeOf? n = 0) (maxDistance : Option δ)
    (hmax : ∀ D, maxDistance = some D → 0 < D) (Pr : δ → Prop)
    (hmet : ∀ t, maxDistance = some t → (∀ a b, distance a b = distance b a) ∧
      (∀ a b c, distance a c ≤ distance a b + distance b c) ∧ Arith.ExactOn Pr ∧ Pr t ∧
      ∀ x ∈ S, ∀ y ∈ S, Pr (distance x y))
    (filterFn : Option (E → Bool)) :
    ∃ T res cmp, buildVPTree S distance nb rand = .ok T ∧
      searchVPTree T q n maxDistance none filterFn = .ok (res, cmp) ∧
      res.map Result.d
        = (candidates S distance q maxDistance filterFn (List.range S.length)).insertionSort
            (· ≤ ·) ∧
      (res.map Result.i).Perm ((List.range S.length).filter
        (fun j => ltTau (distance q (elemAt S j)) maxDistance && passes filterFn (elemAt S j))) ∧
      (∀ r ∈ res, r.d = distance q (elemAt S r.i)) := by
  obtain ⟨T, hb, hS, hd, hperm, hbuilt⟩ := buildVPTree_built S distance nb rand
  have hwf := built_wf S distance nb _ hbuilt
  have hbd : ∀ t, maxDistance = some t → Tree.BoundsIn Pr T.tree := fun t ht =>
    (buildVPTree_boundsIn S distance
      (metric_nonneg distance (hmet t ht).1 (hmet t ht).2.1) Pr (hmet t ht).2.2.2.2
      nb rand T hb).2.2.2.2
  have hinit : SearchInvU S distance q maxDistance filterFn
      { W := [], tau := orInfinity maxDistance, comparisons := 0 } [] :=
    ⟨orInfinity_eq maxDistance hmax, List.Pairwise.nil, by simp, by simp⟩
  obtain ⟨st, h1, h2⟩ := doSearch_invU S distance q n hz maxDistance Pr
    (fun t ht => ⟨(hmet t ht).1, (hmet t ht).2.1, (hmet t ht).2.2.1, (hmet t ht).2.2.2.1⟩)
    filterFn T.tree _ [] hwf hbd hinit
  rw [List.append_nil] at h2
  have h3 := searchInvU_perm S distance q maxDistance filterFn st _ _ hperm h2
  refine ⟨T, PriorityQueue.list st.W, st.comparisons, hb, ?_, ?_, ?_, ?_⟩
  · unfold searchVPTree
    simp only [hS, hd, orDistance, h1]
  · unfold PriorityQueue.list
    rw [List.map_map, ← searchInvU_sorted S distance q maxDistance filterFn st _ h3]
    rfl
  · unfold PriorityQueue.list
    rw [List.map_map]
    exact h3.2.2.1
  · intro r hr
    unfold PriorityQueue.list at hr
    obtain ⟨e, he1, he2⟩ := List.mem_map.1 hr
    rw [← he2]
    exact h3.2.2.2 e he1

theorem candidates_unfiltered (S : List E) (distance : E → E → δ) (q : E)
    (maxDistance : Option δ) :
    candidates S distance q maxDistance none (List.range S.length)
      = (S.map (distance q)).filter (fun x => ltTau x maxDistance) := by
  unfold candidates
  conv => rhs; rw [← map_elemAt_range S, List.map_map, List.filter_map]
  congr 1
  apply List.filter_congr
  intro j _
  simp [passes]

/-- C18 (amended): on the tree that `buildVPTree` returns, with `maxDistance`
absent, or with `maxDistance > 0`, a distance function that is symmetric and
satisfies the triangle inequality (on the elements and the query) and pruning
arithmetic that does not round (the machine's `+` and `-` are exact on a set
`Pr` of numbers that holds `maxDistance` and the distances between the
elements), `search(query, 0, maxDistance)` and `search` with the limit absent
return the same list, which holds every index whose distance to the query is
below `maxDistance` (all `N` indices when `maxDistance` is absent), each once,
with its distance, sorted by ascending distance. For every tree, distance
function, arithmetic and `maxDistance`, a limit of `0` gives the same result
as an absent limit, and such a search evicts no entry and leaves `tau` as it
was. -/
theorem search_limit_zero_unbounded [Arith δ] (S : List E) (distance : E → E → δ) (nb : Nat)
    (rand : Nat → Nat) (q : E) (maxDistance : Option δ)
    (hmax : ∀ D, maxDistance = some D → 0 < D) (Pr : δ → Prop)
    (hmet : ∀ D, maxDistance = some D → (∀ a b, distance a b = distance b a) ∧
      (∀ a b c, distance a c ≤ distance a b + distance b c) ∧ Arith.ExactOn Pr ∧ Pr D ∧
      ∀ x ∈ S, ∀ y ∈ S, Pr (distance x y)) :
    (∃ T res cmp, buildVPTree S distance nb rand = .ok T ∧
      searchVPTree T q (some 0) maxDistance none none = .ok (res, cmp) ∧
      searchVPTree T q none maxDistance none none = .ok (res, cmp) ∧
      (res.map Result.i).Perm ((List.range S.length).filter
        (fun j => ltTau (distance q (elemAt S j)) maxDistance)) ∧
      (∀ r ∈ res, r.d = distance q (elemAt S r.i)) ∧
      (res.map Result.d).Sorted (· ≤ ·) ∧
      res.map Result.d = ((S.map (distance q)).filter
        (fun x => ltTau x maxDistance)).insertionSort (· ≤ ·) ∧
      (maxDistance = none →
        (res.map Result.i).Perm (List.range S.length) ∧ res.length = S.length)) ∧
    (∀ (T : VPTree E δ) (query : E) (md : Option δ) (queryDistFn : Option (E → E → δ))
      (filterFn : Option (E → Bool)),
      searchVPTree T query (some 0) md queryDistFn filterFn
        = searchVPTree T query none md queryDistFn filterFn) ∧
    (∀ (n : Option Nat), sizeOf? n = 0 → ∀ (S1 : List E) (dist : E → E → δ) (query : E)
      (filterFn : Option (E → Bool)) (tree : Tree δ) (st : SearchState δ), SortedQ st.W →
      ∃ st', doSearch S1 dist query n filterFn tree st = .ok st' ∧ st'.tau = st.tau ∧
        st.W.Sublist st'.W) := by
  refine ⟨?_, searchVPTree_zero_eq_absent, ?_⟩
  · obtain ⟨T, res, cmp, h1, h2, h3, h4, h5⟩ := search_unbounded_built S distance nb rand q
      (some 0) rfl maxDistance hmax Pr hmet none
    have hf : (List.range S.length).filter
        (fun j => ltTau (distance q (elemAt S j)) maxDistance && passes none (elemAt S j))
        = (List.range S.length).filter
          (fun j => ltTau (distance q (elemAt S j)) maxDistance) := by
      apply List.filter_congr
      intro j _
      simp [passes]
    rw [hf] at h4
    rw [candidates_unfiltered] at h3
    refine ⟨T, res, cmp, h1, h2, ?_, h4, h5, ?_, h3, ?_⟩
    · rw [← searchVPTree_zero_eq_absent]; exact h2
    · rw [h3]; exact List.sorted_insertionSort _ _
    · intro hnone
      subst hnone
      have hall : (List.range S.length).filter
          (fun j => ltTau (distance q (elemAt S j)) none) = List.range S.length := by
        rw [List.filter_eq_self]
        intro j _
        rfl
      rw [hall] at h4
      refine ⟨h4, ?_⟩
      have := h4.length_eq
      simpa using this
  · intro n hz S1 dist query filterFn tree st hs
    obtain ⟨st', h1, h2, h3, _⟩ := doSearch_unbounded_keeps S1 dist query n hz filterFn tree st hs
    exact ⟨st', h1, h2, h3⟩

/-- Witness of the amended C18 in double precision, on five points of a line
with `|a - b|`, the query `2` and `maxDistance = 2`; the arithmetic is exact on
the integers of magnitude at most `2 ^ 52`. -/
theorem search_limit_zero_unbounded_witness :
    (∀ D : Int, some (2 : Int) = some D → 0 < D) ∧
    (∀ D : Int, some (2 : Int) = some D → (∀ a b : Int, |a - b| = |b - a|) ∧
      (∀ a b c : Int, |a - c| ≤ |a - b| + |b - c|) ∧
      Arith.ExactOn (fun x : Int => x.natAbs ≤ 2 ^ 52) ∧ D.natAbs ≤ 2 ^ 52 ∧
      ∀ x ∈ ([0, 1, 2, 3, 4] : List Int), ∀ y ∈ ([0, 1, 2, 3, 4] : List Int),
        (|x - y|).natAbs ≤ 2 ^ 52) ∧
    ∃ T res cmp,
      buildVPTree ([0, 1, 2, 3, 4] : List Int) (fun a b => |a - b|) 0 (fun _ => 0) = .ok T ∧
      searchVPTree T 2 (some 0) (some 2) none none = .ok (res, cmp) ∧
      searchVPTree T 2 none (some 2) none none = .ok (res, cmp) ∧
      (res.map Result.i).Perm ((List.range ([0, 1, 2, 3, 4] : List Int).length).filter
        (fun j => ltTau (|2 - elemAt ([0, 1, 2, 3, 4] : List Int) j|) (some 2))) :=
  ⟨fun D h => by cases h; decide,
    fun D h => ⟨fun a b => abs_sub_comm a b, fun a b c => abs_sub_le a b c, exactOn_doubleInt,
      by cases h; decide, by decide⟩,
    by
      obtain ⟨T, res, cmp, h1, h2, h3, h4, _⟩ :=
        (search_limit_zero_unbounded ([0, 1, 2, 3, 4] : List Int) (fun a b => |a - b|) 0
          (fun _ => 0) 2 (some 2) (fun D h => by cases h; decide)
          (fun x : Int => x.natAbs ≤ 2 ^ 52)
          (fun D h => ⟨fun a b => abs_sub_comm a b, fun a b c => abs_sub_le a b c,
            exactOn_doubleInt, by cases h; decide, by decide⟩)).1
      exact ⟨T, res, cmp, h1, h2, h3, h4⟩⟩

/-- C18 as stated fails for a distance function without the triangle
inequality: over `[0, 1, 2]` with `d(0, 2) = 5` and every other distance
between different elements `1`, the tree is `{i:0, m:1, M:5, mu:5, L:{i:1},
R:{i:2}}`; the search for `3` with limit `0` and `maxDistance = 2` skips `R`
(`mu - tau = 3` is not below `d(3, 0) = 1`) and returns the indices `1` and
`0` only, while index `2` is at distance `1 < 2`. -/
theorem search_limit_zero_misses_nonmetric :
    ∃ T, buildVPTree ([0, 1, 2] : List Nat)
        (fun a b => if a = b then (0 : Int)
          else if (a = 0 ∧ b = 2) ∨ (a = 2 ∧ b = 0) then 5 else 1) 0 (fun _ => 0) = .ok T ∧
      T.tree = .node 0 (some 1) 5 5 (.vp 1) (.vp 2) ∧
      searchVPTree T 3 (some 0) (some 2) none none
        = .ok ([{ i := 1, d := 1 }, { i := 0, d := 1 }], 2) ∧
      searchVPTree T 3 none (some 2) none none
        = .ok ([{ i := 1, d := 1 }, { i := 0, d := 1 }], 2) ∧
      T.distance 3 (elemAt T.S 2) = 1 ∧ (1 : Int) < 2 :=
  ⟨{ S := [0, 1, 2],
     distance := fun a b => if a = b then (0 : Int)
       else if (a = 0 ∧ b = 2) ∨ (a = 2 ∧ b = 0) then 5 else 1,
     tree := .node 0 (some 1) 5 5 (.vp 1) (.vp 2) }, rfl, rfl, rfl, rfl, rfl, by decide⟩

end Unbounded

/-! ## Serializer -/

section SerializerFacts

theorem digitChar_isDigit (d : Nat) (h : d < 10) : (Nat.digitChar d).isDigit = true := by
  interval_cases d <;> rfl

theorem toDigitsCore_isDigit : ∀ (fuel n : Nat) (ds : List Char),
    (∀ ch ∈ ds, ch.isDigit = true) → ∀ ch ∈ Nat.toDigitsCore 10 fuel n ds, ch.isDigit = true := by
  intro fuel
  induction fuel with
  | zero => intro n ds h; simpa [Nat.toDigitsCore] using h
  | succ fuel ih =>
    intro n ds h
    have hd : ∀ ch ∈ Nat.digitChar (n % 10) :: ds, ch.isDigit = true := by
      intro ch hch
      rcases List.mem_cons.1 hch with hch | hch
      · rw [hch]; exact digitChar_isDigit _ (Nat.mod_lt _ (by decide))
      · exact h ch hch
    simp only [Nat.toDigitsCore]
    split_ifs
    · exact hd
    · exact ih _ _ hd

theorem toDigitsCore_ne_nil : ∀ (fuel n : Nat) (ds : List Char),
    ds ≠ [] ∨ fuel ≠ 0 → Nat.toDigitsCore 10 fuel n ds ≠ [] := by
  intro fuel
  induction fuel with
  | zero =>
    intro n ds h
    rcases h with h | h
    · simpa [Nat.toDigitsCore] using h
    · exact absurd rfl h
  | succ fuel ih =>
    intro n ds _
    simp only [Nat.toDigitsCore]
    split_ifs
    · simp
    · exact ih _ _ (Or.inl (by simp))

theorem natToString_specInt (n : Nat) : SpecInt (natToString n) :=
  ⟨toDigitsCore_ne_nil _ _ _ (Or.inr (by simp)),
    toDigitsCore_isDigit _ _ _ (by simp)⟩

theorem numberToString_specNum (x : Int) : SpecNum (numberToString x) := by
  unfold numberToString
  split_ifs
  · exact Or.inr ⟨_, rfl, natToString_specInt _⟩
  · exact Or.inl (natToString_specInt _)

theorem join_specIntList : ∀ (rest : List Nat) (i : Nat), SpecIntList (join (i :: rest)) := by
  intro rest
  induction rest with
  | nil => intro i; exact SpecIntList.one _ (natToString_specInt i)
  | cons j rest ih =>
    intro i
    exact SpecIntList.cons _ _ (natToString_specInt i) (ih j)

theorem join_eq_intercalate : ∀ (rest : List Nat) (i : Nat),
    join (i :: rest) = [','].intercalate ((i :: rest).map natToString) := by
  intro rest
  induction rest with
  | nil => intro i; simp [join, List.intercalate]
  | cons j rest ih =>
    intro i
    have := ih j
    simp only [List.intercalate, List.map_cons, List.intersperse_cons_cons,
      List.flatten_cons] at this ⊢
    simp only [join]
    rw [this]
    simp

theorem stringify_bucket_specBucket (i : Nat) (rest : List Nat) :
    SpecBucket ('[' :: (join (i :: rest) ++ [']'])) :=
  ⟨_, join_specIntList rest i, rfl⟩

theorem appendChild_spec (s : List Char) (key : Char) (C : Tree Int)
    (hC : C ≠ .null → ∃ t, stringify C = .ok t ∧ C.SpecSerialization t ∧
      (C.length ≠ 0 → SpecBucket t) ∧ (C.length = 0 → SpecNode t)) :
    ∃ sC, appendChild s key C (stringify C) = .ok (s ++ sC) ∧ SpecChildOpt key sC ∧
      ((C = .null ∧ sC = []) ∨
        (C ≠ .null ∧ ∃ t, sC = [',', key, ':'] ++ t ∧ C.SpecSerialization t)) := by
  by_cases hn : C = .null
  · subst hn
    exact ⟨[], by simp [appendChild, Tree.truthy], SpecChildOpt.absent key, Or.inl ⟨rfl, rfl⟩⟩
  · obtain ⟨t, h1, h2, h3, h4⟩ := hC hn
    have htr : C.truthy = true := by
      cases C <;> simp_all [Tree.truthy]
    by_cases hl : C.length ≠ 0
    · have ht : t = '[' :: (join C.entries ++ [']']) := by
        cases C with
        | bucket i rest =>
          simp only [stringify, Except.ok.injEq] at h1
          rw [← h1]
          rfl
        | null => exact absurd rfl hn
        | vp i => exact absurd rfl hl
        | node i m M mu L R => exact absurd rfl hl
      refine ⟨[',', key, ':'] ++ t, ?_, SpecChildOpt.bucket key t (h3 hl),
        Or.inr ⟨hn, t, rfl, h2⟩⟩
      unfold appendChild
      rw [if_pos htr, if_pos hl, ht]
      simp
    · refine ⟨[',', key, ':'] ++ t, ?_, SpecChildOpt.node key t (h4 (by simpa using hl)),
        Or.inr ⟨hn, t, rfl, h2⟩⟩
      unfold appendChild
      rw [if_pos htr, if_neg hl, h1]
      simp

theorem stringify_spec {E : Type} [Inhabited E] (S : List E) (distance : E → E → Int) :
    ∀ T : Tree Int, Tree.WF S distance T → T ≠ .null →
      ∃ t, stringify T = .ok t ∧ T.SpecSerialization t ∧
        (T.length ≠ 0 → SpecBucket t) ∧ (T.length = 0 → SpecNode t) := by
  intro T
  induction T with
  | null => intro _ h; exact absurd rfl h
  | bucket i rest =>
    intro _ _
    refine ⟨_, rfl, ?_, fun _ => stringify_bucket_specBucket i rest, ?_⟩
    · simp only [Tree.SpecSerialization]
      rw [← join_eq_intercalate]
      rfl
    · intro h; simp [Tree.length] at h
  | vp i =>
    intro _ _
    refine ⟨_, rfl, rfl, fun h => absurd rfl h, fun _ => ?_⟩
    have := SpecNode.mk (natToString i) [] [] [] (natToString_specInt i) (Or.inl rfl)
      (SpecChildOpt.absent _) (SpecChildOpt.absent _)
    simpa using this
  | node i m M mu L R ihL ihR =>
    intro hwf _
    simp only [Tree.WF] at hwf
    obtain ⟨⟨a, hma, _⟩, _, _, _, hLw, hRw⟩ := hwf
    subst hma
    obtain ⟨sL, hL1, hL2, hL3⟩ := appendChild_spec
      (['{', 'i', ':'] ++ natToString i ++ ([',', 'm', ':'] ++ numberToString a
        ++ [',', 'M', ':'] ++ numberToString M ++ [',', 'm', 'u', ':'] ++ numberToString mu))
      'L' L (ihL hLw)
    obtain ⟨sR, hR1, hR2, hR3⟩ := appendChild_spec
      (['{', 'i', ':'] ++ natToString i ++ ([',', 'm', ':'] ++ numberToString a
        ++ [',', 'M', ':'] ++ numberToString M ++ [',', 'm', 'u', ':'] ++ numberToString mu) ++ sL)
      'R' R (ihR hRw)
    refine ⟨['{', 'i', ':'] ++ natToString i ++ ([',', 'm', ':'] ++ numberToString a
        ++ [',', 'M', ':'] ++ numberToString M ++ [',', 'm', 'u', ':'] ++ numberToString mu)
        ++ sL ++ sR ++ ['}'],
      by simp only [stringify, boundToString, hL1, hR1], ?_, fun h => absurd rfl h, fun _ => ?_⟩
    · simp only [Tree.SpecSerialization]
      exact ⟨a, sL, sR, rfl, rfl, hL3, hR3⟩
    · exact SpecNode.mk (natToString i) _ sL sR (natToString_specInt i)
        (Or.inr ⟨_, _, _, numberToString_specNum a, numberToString_specNum M,
          numberToString_specNum mu, rfl⟩) hL2 hR2

/-- C16: for every non-empty dataset with integer-valued distances, bucket
size and sequence of draws, `buildVPTree` returns a tree that is not `null`,
and `stringify` of its root (given or defaulted) returns a string generated by
the grammar of the specification: a `Bucket` string when the root is a bucket
(the bucket size is at least the size of the dataset), a `Node` string
otherwise. The string has the bounds group exactly at the nodes with bounds,
an `L` or `R` part exactly for the children that are not `null`, and a bucket
lists its indices in stored order. -/
theorem stringify_grammar {E : Type} [Inhabited E] (S : List E) (hS : S ≠ [])
    (distance : E → E → Int) (nb : Nat) (rand : Nat → Nat) :
    ∃ T s, buildVPTree S distance nb rand = .ok T ∧ T.tree ≠ .null ∧
      T.stringify none = .ok s ∧ T.stringify (some T.tree) = .ok s ∧
      (SpecNode s ∨ SpecBucket s) ∧
      (T.tree.length ≠ 0 → SpecBucket s) ∧ (T.tree.length = 0 → SpecNode s) ∧
      T.tree.SpecSerialization s := by
  obtain ⟨T, hb, hTS, hd, hperm, hwf⟩ := buildVPTree_spec S distance nb rand
  have hnn : T.tree ≠ .null := by
    intro h
    rw [h] at hperm
    have := hperm.length_eq
    simp only [Tree.indices, List.length_nil, List.length_range] at this
    exact hS (List.eq_nil_of_length_eq_zero this.symm)
  obtain ⟨s, h1, h2, h3, h4⟩ := stringify_spec S distance T.tree hwf hnn
  have htr : T.tree.truthy = true := by
    cases hT : T.tree <;> simp_all [Tree.truthy]
  refine ⟨T, s, hb, hnn, h1, ?_, ?_, h3, h4, h2⟩
  · simp only [VPTree.stringify, rootOrTree, htr, if_true]
    exact h1
  · by_cases hl : T.tree.length = 0
    · exact Or.inl (h4 hl)
    · exact Or.inr (h3 hl)

/-- Witness of C16 on five points of a line with `|a - b|`. -/
theorem stringify_grammar_witness :
    ([0, 1, 2, 3, 4] : List Int) ≠ [] ∧
    ∃ T s, buildVPTree ([0, 1, 2, 3, 4] : List Int) (fun a b => |a - b|) 2 (fun _ => 0) = .ok T ∧
      T.tree ≠ .null ∧ T.stringify none = .ok s ∧ T.stringify (some T.tree) = .ok s ∧
      (SpecNode s ∨ SpecBucket s) ∧
      (T.tree.length ≠ 0 → SpecBucket s) ∧ (T.tree.length = 0 → SpecNode s) ∧
      T.tree.SpecSerialization s :=
  ⟨by decide, stringify_grammar ([0, 1, 2, 3, 4] : List Int) (by decide) (fun a b => |a - b|) 2
    (fun _ => 0)⟩

/-- The strings that `stringify` returns for the trees built over the five
points `[0, 1, 2, 3, 4]` with `|a - b|`, the first vantage point always drawn:
without buckets, with buckets of size `2`, and with one bucket for the whole
dataset. -/
theorem stringify_examples :
    (buildVPTree ([0, 1, 2, 3, 4] : List Int) (fun a b => |a - b|) 0 (fun _ => 0)).bind
        (fun T => T.stringify none)
      = .ok ("\x7bi:0,m:1,M:4,mu:3,L:\x7bi:1,m:1,M:1,mu:1,R:\x7bi:2\x7d\x7d," ++
          "R:\x7bi:3,m:1,M:1,mu:1,R:\x7bi:4\x7d\x7d\x7d").toList ∧
    (buildVPTree ([0, 1, 2, 3, 4] : List Int) (fun a b => |a - b|) 2 (fun _ => 0)).bind
        (fun T => T.stringify none)
      = .ok "\x7bi:0,m:1,M:4,mu:3,L:[1,2],R:[3,4]\x7d".toList ∧
    (buildVPTree ([0, 1, 2, 3, 4] : List Int) (fun a b => |a - b|) 5 (fun _ => 0)).bind
        (fun T => T.stringify none)
      = .ok "[0,1,2,3,4]".toList :=
  ⟨rfl, rfl, rfl⟩

end SerializerFacts

/-! ## Tree builder: split sizes -/

section SplitSizes
variable {E δ : Type}

theorem indices_eq_nil_iff (T : Tree δ) : T.indices = [] ↔ T = .null := by
  cases T <;> simp [Tree.indices]

variable [LinearOrder δ] [Zero δ] [Inhabited E]

theorem built_splitSizes (S : List E) (distance : E → E → δ) (nb : Nat) :
    ∀ T : Tree δ, Tree.Built S distance nb T → Tree.SplitSizes T := by
  intro T
  induction T with
  | null => intro _; trivial
  | bucket i rest => intro _; trivial
  | vp i => intro _; trivial
  | node i m M mu L R ihL ihR =>
    intro h
    simp only [Tree.Built] at h
    obtain ⟨_, hR, hL, _, _, _, _, _, _, _, hbL, hbR⟩ := h
    rw [List.length_append] at hL
    have hRpos : 0 < R.indices.length := List.length_pos.2 hR
    refine ⟨by omega, hL, by omega, fun hn => hR ((indices_eq_nil_iff R).2 hn), ?_,
      ihL hbL, ihR hbR⟩
    rw [← indices_eq_nil_iff, ← List.length_eq_zero]
    omega

/-- C21: in the tree that `buildVPTree` returns, every node with bounds, with
`n ≥ 1` indices stored below it, has exactly `floor(n / 2)` of them in its left
subtree and `ceil(n / 2)` in its right subtree; its right child is not `null`
and its left child is `null` exactly when `n = 1`. In the builder, a list of
`n + 1 ≥ 2` items that is not made a bucket gives such a node: the `n` items
left after the vantage point are split into the `floor(n / 2)` items below the
median index, from which `L` is built, and the other `ceil(n / 2)`, from which
`R` is built. -/
theorem buildVPTree_split_sizes (S : List E) (distance : E → E → δ) (nb : Nat)
    (rand : Nat → Nat) :
    (∃ T, buildVPTree S distance nb rand = .ok T ∧ Tree.SplitSizes T.tree) ∧
    (∀ (c : Nat) (first : Item δ) (others : List (Item δ)),
      ¬ (nb > 0 ∧ (first :: others).length ≤ nb) → others ≠ [] →
      ∃ (leftItems rightItems : List (Item δ)),
        leftItems.length = others.length / 2 ∧
        rightItems.length = (others.length + 1) / 2 ∧
        (leftItems ++ rightItems).length = others.length ∧
        ∀ fuel, (first :: others).length < fuel →
          ∃ i m M mu L R c1 c2,
            recurseVPTree S distance nb rand fuel c (first :: others)
              = .ok (.node i m M mu L R, c2) ∧
            recurseVPTree S distance nb rand (fuel - 1) (c + 1) leftItems = .ok (L, c1) ∧
            recurseVPTree S distance nb rand (fuel - 1) c1 rightItems = .ok (R, c2) ∧
            L.indices.Perm (leftItems.map Item.i) ∧ R.indices.Perm (rightItems.map Item.i) ∧
            L.indices.length = others.length / 2 ∧
            R.indices.length = (others.length + 1) / 2 ∧
            R ≠ .null ∧ (L = .null ↔ others.length = 1)) := by
  constructor
  · obtain ⟨T, h1, _, _, _, h2⟩ := buildVPTree_built S distance nb rand
    exact ⟨T, h1, built_splitSizes S distance nb T.tree h2⟩
  · intro c first others hb hne
    obtain ⟨node, rest, A, B, v, mu, _, _, _, hA, hAB, _, _, _, _, hstep⟩ :=
      recurseVPTree_step S distance nb rand c first others hb hne
    have hl1 : (first :: others).length = others.length + 1 := rfl
    have hvB : (v :: B).length = (others.length + 1) / 2 := by
      simp only [List.length_cons]; omega
    refine ⟨A, v :: B, hA, hvB, by rw [List.length_append, hA, hvB]; omega, ?_⟩
    intro fuel hf
    obtain ⟨fuel1, rfl⟩ : ∃ f, fuel = f + 1 := ⟨fuel - 1, by omega⟩
    obtain ⟨L, c1, hL1, hL2, _⟩ := recurseVPTree_built S distance nb rand fuel1 (c + 1) A
      (by omega)
    obtain ⟨R, c2, hR1, hR2, _⟩ := recurseVPTree_built S distance nb rand fuel1 c1 (v :: B)
      (by rw [hvB]; omega)
    have hLlen : L.indices.length = others.length / 2 := by
      rw [hL2.length_eq, List.length_map, hA]
    have hRlen : R.indices.length = (others.length + 1) / 2 := by
      rw [hR2.length_eq, List.length_map, hvB]
    have hpos : others.length ≠ 0 := by
      intro h; exact hne (List.eq_nil_of_length_eq_zero h)
    refine ⟨node.i, (distLoop S distance (elemAt S node.i) rest none 0).2.1,
      (distLoop S distance (elemAt S node.i) rest none 0).2.2, mu, L, R, c1, c2, ?_, hL1, hR1,
      hL2, hR2, hLlen, hRlen, ?_, ?_⟩
    · rw [hstep fuel1, hL1]
      simp only [Except.bind, hR1]
    · intro hn
      rw [hn] at hRlen
      simp only [Tree.indices, List.length_nil] at hRlen
      omega
    · rw [← indices_eq_nil_iff, ← List.length_eq_zero, hLlen]
      omega

end SplitSizes

/-! ## Search against the brute-force scan: the specification -/

section BruteForceBuilt
variable {E δ : Type} [LinearOrderedAddCommGroup δ] [Inhabited E]

theorem search_built [Arith δ] (S : List E) (distance : E → E → δ)
    (hsymm : ∀ a b, distance a b = distance b a)
    (htri : ∀ a b c, distance a c ≤ distance a b + distance b c)
    (Pr : δ → Prop) (hex : Arith.ExactOn Pr)
    (nb : Nat) (rand : Nat → Nat) (q : E) (k : Nat) (hk : 1 ≤ k) (maxDistance : Option δ)
    (hmax : ∀ D, maxDistance = some D → 0 < D) (hPm : ∀ D, maxDistance = some D → Pr D)
    (hPd : ∀ x ∈ q :: S, ∀ y ∈ S, Pr (distance x y)) (filterFn : Option (E → Bool)) :
    ∃ T res cmp, buildVPTree S distance nb rand = .ok T ∧
      searchVPTree T q (some k) maxDistance none filterFn = .ok (res, cmp) ∧
      res.map Result.d = bruteForce S distance q k maxDistance filterFn ∧
      (∀ r ∈ res, r.i < S.length ∧ passes filterFn (elemAt S r.i) = true ∧
        r.d = distance q (elemAt S r.i)) ∧
      (res.map Result.i).Nodup := by
  obtain ⟨T, hb, _⟩ := buildVPTree_built S distance nb rand
  obtain ⟨hS, hd, hperm, hwf, hbd⟩ := buildVPTree_boundsIn S distance
    (metric_nonneg distance hsymm htri) Pr
    (fun x hx y hy => hPd x (List.mem_cons_of_mem _ hx) y hy) nb rand T hb
  have hq : ∀ j ∈ T.tree.indices ++ [], Pr (distance q (elemAt S j)) := by
    intro j hj
    rw [List.append_nil] at hj
    exact hPd q (List.mem_cons_self _ _) _
      (elemAt_mem S j (List.mem_range.1 (hperm.subset hj)))
  have hinit : SearchInv S distance q k maxDistance filterFn
      { W := [], tau := orInfinity maxDistance, comparisons := 0 } [] := by
    refine ⟨List.Pairwise.nil, Nat.zero_le _, by simp [candidates], by simp, by simp, ?_, ?_⟩
    · intro x hx
      rw [orInfinity_eq maxDistance hmax] at hx
      exact hx
    · exact Or.inl (orInfinity_eq maxDistance hmax)
  have hnd : (T.tree.indices ++ []).Nodup := by
    rw [List.append_nil]
    exact hperm.nodup_iff.2 (List.nodup_range _)
  obtain ⟨st, h1, h2, _⟩ := doSearch_inv S distance hsymm htri Pr hex q k hk maxDistance hPm
    filterFn T.tree _ [] hwf hbd hnd hq hinit (Or.inl (orInfinity_eq maxDistance hmax))
  rw [List.append_nil] at h2
  have h3 := searchInv_perm S distance q k maxDistance filterFn st _ _ hperm h2
  refine ⟨T, PriorityQueue.list st.W, st.comparisons, hb, ?_, ?_, ?_, ?_⟩
  · unfold searchVPTree
    simp only [hS, hd, orDistance, h1]
  · unfold PriorityQueue.list bruteForce
    rw [List.map_map, ← h3.best]
    rfl
  · intro r hr
    unfold PriorityQueue.list at hr
    obtain ⟨e, he1, he2⟩ := List.mem_map.1 hr
    obtain ⟨hm1, hm2, hm3⟩ := h3.mem e he1
    rw [← he2]
    exact ⟨List.mem_range.1 hm1, hm2, hm3⟩
  · unfold PriorityQueue.list
    rw [List.map_map]
    exact h3.nodup

end BruteForceBuilt

section BruteForceClaims

variable {E δ : Type} [LinearOrderedAddCommGroup δ] [Inhabited E]

/-- C1 (amended): for every dataset, bucket size, sequence of vantage-point
draws, distance function that is symmetric and satisfies the triangle
inequality (on the elements and the query), query, limit `k ≥ 1` and
`maxDistance` that is positive or absent, when the pruning arithmetic does not
round (the machine's `+` and `-` are exact on a set `Pr` of numbers that holds
`maxDistance`, the distances between the elements and the distances from the
query to the elements), `buildVPTree` returns a tree and `search` on it returns
a list whose distances are the first `k` entries of the ascending-sorted list
of all distances `d(query, S[i])` below `maxDistance` (the brute-force scan of
the specification); each returned pair `(i, d)` has `i < N` and
`d = d(query, S[i])`, no index is returned twice, and for `N = 0` the list is
empty. -/
theorem search_bruteForce [Arith δ] (S : List E) (distance : E → E → δ)
    (hsymm : ∀ a b, distance a b = distance b a)
    (htri : ∀ a b c, distance a c ≤ distance a b + distance b c)
    (Pr : δ → Prop) (hex : Arith.ExactOn Pr)
    (nb : Nat) (rand : Nat → Nat) (q : E) (k : Nat) (hk : 1 ≤ k) (maxDistance : Option δ)
    (hmax : ∀ D, maxDistance = some D → 0 < D) (hPm : ∀ D, maxDistance = some D → Pr D)
    (hPd : ∀ x ∈ q :: S, ∀ y ∈ S, Pr (distance x y)) :
    ∃ T res cmp, buildVPTree S distance nb rand = .ok T ∧
      searchVPTree T q (some k) maxDistance none none = .ok (res, cmp) ∧
      res.map Result.d = bruteForce S distance q k maxDistance none ∧
      res.map Result.d = (((S.map (distance q)).filter
        (fun x => ltTau x maxDistance)).insertionSort (· ≤ ·)).take k ∧
      (∀ r ∈ res, r.i < S.length ∧ r.d = distance q (elemAt S r.i)) ∧
      (res.map Result.i).Nodup ∧ (S = [] → res = []) := by
  obtain ⟨T, res, cmp, h1, h2, h3, h4, h5⟩ :=
    search_built S distance hsymm htri Pr hex nb rand q k hk maxDistance hmax hPm hPd none
  refine ⟨T, res, cmp, h1, h2, h3, by rw [h3, bruteForce_unfiltered],
    fun r hr => ⟨(h4 r hr).1, (h4 r hr).2.2⟩, h5, ?_⟩
  intro hS
  subst hS
  have : res.map Result.d = [] := by
    rw [h3]
    simp [bruteForce, candidates]
  exact List.map_eq_nil_iff.1 this

/-- C8 (amended): for every dataset, bucket size, sequence of draws, symmetric
distance function with the triangle inequality, query, limit `k ≥ 1`,
`maxDistance` positive or absent and filter predicate `f`, when the pruning
arithmetic does not round (the machine's `+` and `-` are exact on a set `Pr`
of numbers that holds `maxDistance`, the distances between the elements and
the distances from the query to the elements), every element returned by
`search` satisfies `f`, and the returned distances are the first `k` entries
of the ascending-sorted list of the distances `d(query, S[i])` over exactly
the `i` with `f(S[i])` true and `d(query, S[i]) < maxDistance`. -/
theorem search_filter_bruteForce [Arith δ] (S : List E) (distance : E → E → δ)
    (hsymm : ∀ a b, distance a b = distance b a)
    (htri : ∀ a b c, distance a c ≤ distance a b + distance b c)
    (Pr : δ → Prop) (hex : Arith.ExactOn Pr)
    (nb : Nat) (rand : Nat → Nat) (q : E) (k : Nat) (hk : 1 ≤ k) (maxDistance : Option δ)
    (hmax : ∀ D, maxDistance = some D → 0 < D) (hPm : ∀ D, maxDistance = some D → Pr D)
    (hPd : ∀ x ∈ q :: S, ∀ y ∈ S, Pr (distance x y)) (f : E → Bool) :
    ∃ T res cmp, buildVPTree S distance nb rand = .ok T ∧
      searchVPTree T q (some k) maxDistance none (some f) = .ok (res, cmp) ∧
      (∀ r ∈ res, f (elemAt S r.i) = true) ∧
      res.map Result.d = bruteForce S distance q k maxDistance (some f) ∧
      res.map Result.d = ((((List.range S.length).filter (fun i =>
          ltTau (distance q (elemAt S i)) maxDistance && f (elemAt S i))).map
            (fun i => distance q (elemAt S i))).insertionSort (· ≤ ·)).take k := by
  obtain ⟨T, res, cmp, h1, h2, h3, h4, _⟩ :=
    search_built S distance hsymm htri Pr hex nb rand q k hk maxDistance hmax hPm hPd (some f)
  exact ⟨T, res, cmp, h1, h2, fun r hr => (h4 r hr).2.1, h3, h3⟩

theorem bruteForce_fivePoints :
    bruteForce ([0, 1, 2, 3, 4] : List ℚ) (fun a b => |a - b|) (5 / 2) 2 none none
      = [1 / 2, 1 / 2] := by
  simp only [bruteForce, candidates, ltTau, passes, elemAt, List.length_cons, List.length_nil]
  simp [List.range_succ, List.range_zero, List.getD]
  norm_num [abs_of_nonneg, abs_of_neg, List.insertionSort, List.orderedInsert]

theorem index_fivePoints (i : Nat) (hi : i < 5)
    (h : (1 / 2 : ℚ) = |5 / 2 - elemAt ([0, 1, 2, 3, 4] : List ℚ) i|) : i = 2 ∨ i = 3 := by
  interval_cases i
  · norm_num [elemAt, abs_of_nonneg] at h
  · norm_num [elemAt, abs_of_nonneg] at h
  · exact Or.inl rfl
  · exact Or.inr rfl
  · norm_num [elemAt, abs_of_neg] at h

theorem abs_sub_halves (a b : Int) :
    |(a : ℚ) / 2 - (b : ℚ) / 2| = ((|a - b| : Int) : ℚ) / 2 := by
  rw [← sub_div, abs_div, abs_of_pos (by norm_num : (0 : ℚ) < 2)]
  push_cast
  rfl

theorem halves_fivePoints :
    ∀ x ∈ ((5 / 2 : ℚ) :: [0, 1, 2, 3, 4]), ∀ y ∈ ([0, 1, 2, 3, 4] : List ℚ),
      ∃ n : Int, n.natAbs ≤ 2 ^ 52 ∧ |x - y| = (n : ℚ) / 2 := by
  intro x hx y hy
  have hx' : ∃ a : Int, a.natAbs ≤ 8 ∧ x = (a : ℚ) / 2 := by
    simp only [List.mem_cons, List.mem_singleton, List.not_mem_nil, or_false] at hx
    rcases hx with rfl | rfl | rfl | rfl | rfl | rfl
    · exact ⟨5, by decide, by norm_num⟩
    · exact ⟨0, by decide, by norm_num⟩
    · exact ⟨2, by decide, by norm_num⟩
    · exact ⟨4, by decide, by norm_num⟩
    · exact ⟨6, by decide, by norm_num⟩
    · exact ⟨8, by decide, by norm_num⟩
  have hy' : ∃ b : Int, b.natAbs ≤ 8 ∧ y = (b : ℚ) / 2 := by
    simp only [List.mem_cons, List.mem_singleton, List.not_mem_nil, or_false] at hy
    rcases hy with rfl | rfl | rfl | rfl | rfl
    · exact ⟨0, by decide, by norm_num⟩
    · exact ⟨2, by decide, by norm_num⟩
    · exact ⟨4, by decide, by norm_num⟩
    · exact ⟨6, by decide, by norm_num⟩
    · exact ⟨8, by decide, by norm_num⟩
  obtain ⟨a, ha, rfl⟩ := hx'
  obtain ⟨b, hb, rfl⟩ := hy'
  refine ⟨|a - b|, ?_, abs_sub_halves a b⟩
  have h1 := Int.natAbs_sub_le a b
  rw [Int.natAbs_abs]
  have h2 : (2 : Nat) ^ 52 = 4503599627370496 := by norm_num
  omega

/-- Witness of C1 (amended) in double precision: the five points `0, 1, 2, 3,
4` with `|a - b|`, query `2.5` and limit `2`; every distance is a half of an
integer of small magnitude, where `+` and `-` do not round, and whatever the
bucket size and the draws, the result holds the indices `2` and `3`, both at
distance `0.5`. -/
theorem search_bruteForce_witness :
    1 ≤ 2 ∧ Arith.ExactOn (fun x : ℚ => ∃ n : Int, n.natAbs ≤ 2 ^ 52 ∧ x = (n : ℚ) / 2) ∧
    ∀ (nb : Nat) (rand : Nat → Nat),
      ∃ T res cmp, buildVPTree ([0, 1, 2, 3, 4] : List ℚ) (fun a b => |a - b|) nb rand = .ok T ∧
        searchVPTree T (5 / 2) (some 2) none none none = .ok (res, cmp) ∧
        res.map Result.d = [1 / 2, 1 / 2] ∧
        (res.map Result.i = [2, 3] ∨ res.map Result.i = [3, 2]) := by
  refine ⟨by decide, exactOn_doubleRat, fun nb rand => ?_⟩
  obtain ⟨T, res, cmp, h1, h2, h3, _, h4, h5, _⟩ := search_bruteForce
    ([0, 1, 2, 3, 4] : List ℚ) (fun a b => |a - b|) (fun a b => abs_sub_comm a b)
    (fun a b c => abs_sub_le a b c)
    (fun x : ℚ => ∃ n : Int, n.natAbs ≤ 2 ^ 52 ∧ x = (n : ℚ) / 2) exactOn_doubleRat
    nb rand (5 / 2) 2 (by decide) none (by simp) (by simp) halves_fivePoints
  rw [bruteForce_fivePoints] at h3
  refine ⟨T, res, cmp, h1, h2, h3, ?_⟩
  rcases res with _ | ⟨r1, _ | ⟨r2, _ | ⟨r3, rest⟩⟩⟩
  · simp at h3
  · simp at h3
  · obtain ⟨i1, d1⟩ := r1
    obtain ⟨i2, d2⟩ := r2
    simp only [List.map_cons, List.map_nil, List.cons.injEq, and_true] at h3
    obtain ⟨hd1, hd2⟩ := h3
    have ha := h4 ⟨i1, d1⟩ (by simp)
    have hb := h4 ⟨i2, d2⟩ (by simp)
    simp only at ha hb hd1 hd2
    have e1 := index_fivePoints i1 (by simpa using ha.1) (by rw [← ha.2, hd1])
    have e2 := index_fivePoints i2 (by simpa using hb.1) (by rw [← hb.2, hd2])
    have hne : i1 ≠ i2 := by
      simp only [List.map_cons, List.map_nil, List.nodup_cons, List.mem_singleton] at h5
      exact h5.1
    simp only [List.map_cons, List.map_nil]
    rcases e1 with e1 | e1 <;> rcases e2 with e2 | e2 <;> subst e1 <;> subst e2 <;> simp at hne ⊢
  · simp at h3

/-- C1 as stated fails in double precision: over the two points `0` and
`2 ^ 53` with `|a - b|` (a metric, every value a number of double precision)
the tree is `{i:0, m:2^53, M:2^53, mu:2^53, R:{i:1}}`; the search for `2 ^ 53`
with limit `1` and `maxDistance = 1` finds the root at distance `2 ^ 53`, and
the test `dist < node.M + tau` is false because `2 ^ 53 + 1` is rounded to
`2 ^ 53`, so the right subtree is skipped and the result is empty, with one
comparison; the brute-force scan holds index `1` at distance `0 < 1`. -/
theorem search_rounding_misses_nearest :
    (∀ a b : Int, |a - b| = |b - a|) ∧ (∀ a b c : Int, |a - c| ≤ |a - b| + |b - c|) ∧
    ∃ T, buildVPTree ([0, 9007199254740992] : List Int) (fun a b => |a - b|) 0 (fun _ => 0)
        = .ok T ∧
      T.tree = .node 0 (some 9007199254740992) 9007199254740992 9007199254740992 .null (.vp 1) ∧
      Arith.add (9007199254740992 : Int) 1 = 9007199254740992 ∧
      searchVPTree T 9007199254740992 (some 1) (some 1) none none = .ok ([], 1) ∧
      bruteForce ([0, 9007199254740992] : List Int) (fun a b => |a - b|) 9007199254740992 1
        (some 1) none = [0] :=
  ⟨fun a b => abs_sub_comm a b, fun a b c => abs_sub_le a b c,
    { S := [0, 9007199254740992], distance := fun a b => |a - b|,
      tree := .node 0 (some 9007199254740992) 9007199254740992 9007199254740992 .null (.vp 1) },
    rfl, rfl, rfl, rfl, rfl⟩

/-- Witness of C8 (amended) in double precision: five points on a line over
the integers, query `2`, limit `2`, `maxDistance = 3` and a filter that rejects
the point `2`. -/
theorem search_filter_bruteForce_witness :
    Arith.ExactOn (fun x : Int => x.natAbs ≤ 2 ^ 52) ∧
    ∃ T res cmp, buildVPTree ([0, 1, 2, 3, 4] : List Int) (fun a b => |a - b|) 0 (fun _ => 0)
        = .ok T ∧
      searchVPTree T 2 (some 2) (some 3) none (some (fun x => decide (x ≠ 2))) = .ok (res, cmp) ∧
      (∀ r ∈ res, (fun x : Int => decide (x ≠ 2)) (elemAt ([0, 1, 2, 3, 4] : List Int) r.i)
        = true) ∧
      res.map Result.d = bruteForce ([0, 1, 2, 3, 4] : List Int) (fun a b => |a - b|) 2 2
        (some 3) (some (fun x => decide (x ≠ 2))) ∧
      res.map Result.d = ((((List.range ([0, 1, 2, 3, 4] : List Int).length).filter (fun i =>
          ltTau ((fun a b : Int => |a - b|) 2 (elemAt ([0, 1, 2, 3, 4] : List Int) i)) (some 3) &&
            (fun x : Int => decide (x ≠ 2)) (elemAt ([0, 1, 2, 3, 4] : List Int) i))).map
            (fun i => (fun a b : Int => |a - b|) 2
              (elemAt ([0, 1, 2, 3, 4] : List Int) i))).insertionSort (· ≤ ·)).take 2 :=
  ⟨exactOn_doubleInt,
    search_filter_bruteForce ([0, 1, 2, 3, 4] : List Int) (fun a b => |a - b|)
      (fun a b => abs_sub_comm a b) (fun a b c => abs_sub_le a b c)
      (fun x : Int => x.natAbs ≤ 2 ^ 52) exactOn_doubleInt 0 (fun _ => 0) 2 2
      (by decide) (some 3) (by intro D h; cases h; decide) (by intro D h; cases h; decide)
      (by decide) (fun x => decide (x ≠ 2))⟩

/-- C8 as stated fails in double precision: over the two points `0` and
`2 ^ 53` with `|a - b|`, the search for `2 ^ 53` with limit `1`,
`maxDistance = 1` and a filter that accepts every element skips the right
subtree (`2 ^ 53 + 1` is rounded to `2 ^ 53`) and returns nothing, while the
scan of the elements that pass the filter holds index `1` at distance
`0 < 1`. -/
theorem search_filter_rounding_misses :
    ∃ T, buildVPTree ([0, 9007199254740992] : List Int) (fun a b => |a - b|) 0 (fun _ => 0)
        = .ok T ∧
      searchVPTree T 9007199254740992 (some 1) (some 1) none (some (fun _ => true))
        = .ok ([], 1) ∧
      bruteForce ([0, 9007199254740992] : List Int) (fun a b => |a - b|) 9007199254740992 1
        (some 1) (some (fun _ => true)) = [0] :=
  ⟨{ S := [0, 9007199254740992], distance := fun a b => |a - b|,
     tree := .node 0 (some 9007199254740992) 9007199254740992 9007199254740992 .null (.vp 1) },
    rfl, rfl, rfl⟩

/-- The same rounding with limit `0`: over the two points `0` and `2 ^ 53`
with `|a - b|`, the search for `2 ^ 53` without limit and with
`maxDistance = 1` skips the right subtree and returns nothing, though index
`1` is at distance `0 < 1`. -/
theorem search_unbounded_rounding_misses :
    ∃ T, buildVPTree ([0, 9007199254740992] : List Int) (fun a b => |a - b|) 0 (fun _ => 0)
        = .ok T ∧
      searchVPTree T 9007199254740992 (some 0) (some 1) none none = .ok ([], 1) ∧
      searchVPTree T 9007199254740992 none (some 1) none none = .ok ([], 1) ∧
      T.distance 9007199254740992 (elemAt T.S 1) = 0 :=
  ⟨{ S := [0, 9007199254740992], distance := fun a b => |a - b|,
     tree := .node 0 (some 9007199254740992) 9007199254740992 9007199254740992 .null (.vp 1) },
    rfl, rfl, rfl, rfl⟩

end BruteForceClaims

end Sstk
